import Mathlib

/-!
# zo-ll/oi : `lib/fetch_hf_models.go`

A shallow embedding of the model-catalog fetcher and proofs about it.

Conventions of the embedding
* Go `string` values are sequences of Unicode code points, `List Char`
  (the program only handles valid UTF-8 names).
* Go `int` is `Int` (only compared and printed, never overflowing arithmetic).
* Go `float64` is the type `F64` below: the IEEE 754 binary64 values, every
  operation rounding its exact result to the nearest value.  `sizeTags` only
  compares its argument with integer constants and takes a finite memory by its
  exact value.
* `unicode.ToLower`, the case table behind `strings.ToLower`, is a parameter
  `lower` of the functions that lower-case a text.
* The channel `ch` of `fetchModels` is the finite sequence of entries in their
  order of arrival at the single consumer loop.
-/

namespace Oi

/-- Go `string`, as its sequence of code points. -/
abbrev Str := List Char

/-! ## `float64`

The values of Go's `float64` and the operations the program applies to them.  An
operation gives the exact result rounded to the nearest value, a tie going to the
even significand (IEEE 754 binary64, round to nearest even). -/

/-- A `float64`: not-a-number, an infinity with its sign (`true` for the negative
one), or a finite value, given by the rational number it stands for.  The zero
stands for both signed zeros: the program compares them and never divides by a
value it computed, so it cannot tell them apart. -/
inductive F64 where
  | nan : F64
  | inf (neg : Bool) : F64
  | fin (q : ℚ) : F64
deriving DecidableEq

/-- The nearest integer, a half going to the even one. -/
def roundHalfEven (q : ℚ) : ℤ :=
  if q - Int.floor q < 1 / 2 then Int.floor q
  else if 1 / 2 < q - Int.floor q then Int.floor q + 1
  else if Int.floor q % 2 = 0 then Int.floor q else Int.floor q + 1

/-- The exponent of the unit in the last place of the `float64` values around `x`:
a significand has 53 bits, and the values below `2^-1022` are the multiples of
`2^-1074`. -/
def ulpExp (x : ℚ) : ℤ := max (Int.log 2 |x| - 52) (-1074)

/-- The `float64` nearest to an exact value, a tie going to the even significand;
when the rounded magnitude reaches `2^1024` the result is an infinity. -/
def F64.ofRat (x : ℚ) : F64 :=
  if (2 : ℚ) ^ (1024 : ℤ) ≤ |(roundHalfEven (x / (2 : ℚ) ^ ulpExp x) : ℚ) * (2 : ℚ) ^ ulpExp x| then
    F64.inf (decide (x < 0))
  else F64.fin ((roundHalfEven (x / (2 : ℚ) ^ ulpExp x) : ℚ) * (2 : ℚ) ^ ulpExp x)

/-- The nearest integer, a half going away from zero. -/
def roundHalfAway (x : ℚ) : ℤ :=
  if 0 ≤ x then Int.floor (x + 1 / 2) else Int.ceil (x - 1 / 2)

/-- Unary minus. -/
def F64.neg : F64 → F64
  | F64.nan => F64.nan
  | F64.inf s => F64.inf (!s)
  | F64.fin q => F64.fin (-q)

/-- The operator `+` on `float64`. -/
def F64.add : F64 → F64 → F64
  | F64.nan, _ => F64.nan
  | _, F64.nan => F64.nan
  | F64.inf s, F64.inf t => if s = t then F64.inf s else F64.nan
  | F64.inf s, F64.fin _ => F64.inf s
  | F64.fin _, F64.inf t => F64.inf t
  | F64.fin a, F64.fin b => F64.ofRat (a + b)

/-- The operator `-` on `float64`. -/
def F64.sub (a b : F64) : F64 := F64.add a (F64.neg b)

/-- The operator `*` on `float64`. -/
def F64.mul : F64 → F64 → F64
  | F64.nan, _ => F64.nan
  | _, F64.nan => F64.nan
  | F64.inf s, F64.inf t => F64.inf (xor s t)
  | F64.inf s, F64.fin b => if b = 0 then F64.nan else F64.inf (xor s (decide (b < 0)))
  | F64.fin a, F64.inf t => if a = 0 then F64.nan else F64.inf (xor (decide (a < 0)) t)
  | F64.fin a, F64.fin b => F64.ofRat (a * b)

/-- The operator `/` on `float64`; a zero divisor is taken as the positive zero
(the program divides by the constants `0.6` and `10` only). -/
def F64.div : F64 → F64 → F64
  | F64.nan, _ => F64.nan
  | _, F64.nan => F64.nan
  | F64.inf _, F64.inf _ => F64.nan
  | F64.inf s, F64.fin b => F64.inf (xor s (decide (b < 0)))
  | F64.fin _, F64.inf _ => F64.fin 0
  | F64.fin a, F64.fin b =>
    if b = 0 then (if a = 0 then F64.nan else F64.inf (decide (a < 0))) else F64.ofRat (a / b)

/-- The operator `<` on `float64`: false when an operand is not a number. -/
def F64.lt : F64 → F64 → Bool
  | F64.nan, _ => false
  | _, F64.nan => false
  | F64.inf s, F64.inf t => s && !t
  | F64.inf s, F64.fin _ => s
  | F64.fin _, F64.inf t => !t
  | F64.fin a, F64.fin b => decide (a < b)

/-- The operator `<=` on `float64`: false when an operand is not a number. -/
def F64.le : F64 → F64 → Bool
  | F64.nan, _ => false
  | _, F64.nan => false
  | F64.inf s, F64.inf t => s || !t
  | F64.inf s, F64.fin _ => s
  | F64.fin _, F64.inf t => !t
  | F64.fin a, F64.fin b => decide (a ≤ b)

/-- `math.Round`: the nearest integer, a half going away from zero; the result is
exact. -/
def F64.round : F64 → F64
  | F64.nan => F64.nan
  | F64.inf s => F64.inf s
  | F64.fin q => F64.fin (roundHalfAway q)

/-- Model represents a model entry in the output JSON (`type Model struct`). -/
structure Model where
  ID : Str
  Name : Str
  Repo : Str
  FilenameTemplate : Str
  MinVRAMGB : F64
  Description : Str
  Tags : List Str
  downloads : Int
deriving DecidableEq

/-! ## Aggregator: the `seen` map of `fetchModels` -/

/-- The Go map `seen map[string]Model`, as an association list with one pair
per key, kept in order of first insertion. -/
abbrev SeenMap := List (Str × Model)

/-- Map lookup `existing, ok := seen[k]`. -/
def mapGet : SeenMap → Str → Option Model
  | [], _ => none
  | (k', v) :: rest, k => if k' = k then some v else mapGet rest k

/-- Map store `seen[k] = v`: overwrite the pair of `k`, or add one. -/
def mapSet : SeenMap → Str → Model → SeenMap
  | [], k, v => [(k, v)]
  | (k', v') :: rest, k, v =>
    if k' = k then (k, v) :: rest else (k', v') :: mapSet rest k v

/-- One iteration of `for r := range ch` (lines 270-278): skip the incoming
entry when one is held under its ID with `existing.downloads >= m.downloads`,
store it otherwise. -/
def dedupStep (seen : SeenMap) (m : Model) : SeenMap :=
  match mapGet seen m.ID with
  | some existing =>
    if existing.downloads ≥ m.downloads then seen else mapSet seen m.ID m
  | none => mapSet seen m.ID m

/-- The deduplication loop over the whole stream, from `seen := make(...)`. -/
def dedup (arrivals : List Model) : SeenMap :=
  arrivals.foldl dedupStep []

/-- The values of the map, `for _, m := range seen { models = append(models, m) }`.
Go leaves the iteration order of a map unspecified; this is one such order. -/
def mapValues (seen : SeenMap) : List Model :=
  seen.map Prod.snd

/-- The comparison handed to `sort.Slice` (line 286). -/
def lessDownloads (a b : Model) : Bool :=
  decide (a.downloads > b.downloads)

/-- Insert `x` in front of the first element it is `less` than. -/
def insertByLess {α : Type} (less : α → α → Bool) (x : α) : List α → List α
  | [] => [x]
  | y :: ys => if less x y then x :: y :: ys else y :: insertByLess less x ys

/-- `sort.Slice(models, less)`: the library sort, modelled by the insertion
sort it runs on short slices.  Go does not promise the order of elements that
compare equal, which is why results are stated for every input order. -/
def sortSlice {α : Type} (less : α → α → Bool) (l : List α) : List α :=
  l.foldl (fun acc x => insertByLess less x acc) []

/-- Lines 268-289 of `fetchModels` on a given arrival sequence, with the map
iterated in insertion order. -/
def aggregate (arrivals : List Model) : List Model :=
  sortSlice lessDownloads (mapValues (dedup arrivals))

/-- Every result `fetchModels` can return for an arrival sequence: the sorted
form of the map values taken in any iteration order. -/
def FetchResult (arrivals out : List Model) : Prop :=
  ∃ vals : List Model, vals.Perm (mapValues (dedup arrivals)) ∧
    out = sortSlice lessDownloads vals

/-! ## Regular expressions (`regexp` package)

The three patterns of the program use only a small part of the syntax: classes
of single code points, concatenation, alternation, greedy `?`, greedy `*` and
`+` over a class, and the zero-width `\b`.  Go chooses, among the matches that
start leftmost, the one a backtracking search finds first; the matcher below
enumerates the matches at a position in exactly that order of preference. -/

/-- A position in the subject string: the code points already passed (nearest
first) and the code points still ahead. -/
abbrev Pos := Str × Str

/-- Abstract syntax of the patterns. -/
inductive Regex where
  /-- the empty pattern -/
  | empty : Regex
  /-- one code point of a class, e.g. `\d`, `[Qq]`, a literal -/
  | cls : (Char → Bool) → Regex
  /-- concatenation `ab` -/
  | seq : Regex → Regex → Regex
  /-- alternation `a|b`, preferring `a` -/
  | alt : Regex → Regex → Regex
  /-- greedy option `a?` -/
  | opt : Regex → Regex
  /-- greedy repetition `[class]*` -/
  | star : (Char → Bool) → Regex
  /-- a zero-width assertion such as `\b` -/
  | look : (Pos → Bool) → Regex

/-- Ends of the matches of `[class]*` at a position, longest first. -/
def starEnds (p : Char → Bool) : Str → Str → List Pos
  | b, [] => [(b, [])]
  | b, c :: t => if p c then starEnds p (c :: b) t ++ [(b, c :: t)] else [(b, c :: t)]

/-- Ends of all matches of a pattern that start at a position, in the order in
which a backtracking search finds them. -/
def Regex.ends : Regex → Pos → List Pos
  | .empty, q => [q]
  | .cls _, (_, []) => []
  | .cls p, (b, c :: t) => if p c then [(c :: b, t)] else []
  | .seq a b, q => (a.ends q).flatMap (fun m => b.ends m)
  | .alt a b, q => a.ends q ++ b.ends q
  | .opt a, q => a.ends q ++ [q]
  | .star p, q => starEnds p q.1 q.2
  | .look c, q => if c q then [q] else []

/-- Scan to the right from a position for the first position at which `F`
answers, and return that position with the answer: the leftmost search of the
`Find...` methods. -/
def searchFrom {α : Type} (F : Pos → Option α) : Str → Str → Option (Pos × α)
  | b, [] => (F (b, [])).map (fun a => ((b, []), a))
  | b, c :: t =>
    match F (b, c :: t) with
    | some a => some ((b, c :: t), a)
    | none => searchFrom F (c :: b) t

/-- Leftmost-first search from a position: the first position, scanning to the
right, at which the pattern matches, with the end of the preferred match there
(`FindStringIndex`). -/
def findFrom (r : Regex) (b s : Str) : Option (Pos × Pos) :=
  searchFrom (fun q => (r.ends q).head?) b s

/-- `re.FindStringIndex(s)`: start and end of the leftmost-first match. -/
def findIndex (r : Regex) (s : Str) : Option (Pos × Pos) :=
  findFrom r [] s

/-- `re.MatchString(s)`. -/
def matchString (r : Regex) (s : Str) : Bool :=
  (findIndex r s).isSome

/-- The code points between two positions of one string. -/
def between (st en : Pos) : Str :=
  st.2.take (st.2.length - en.2.length)

/-- A literal string as a pattern. -/
def Regex.lit : Str → Regex
  | [] => .empty
  | c :: t => .seq (.cls (fun x => x == c)) (Regex.lit t)

/-- `a{n}` for a class. -/
def Regex.rep (p : Char → Bool) : Nat → Regex
  | 0 => .empty
  | n + 1 => .seq (.cls p) (Regex.rep p n)

/-- `[class]+`. -/
def Regex.plus (p : Char → Bool) : Regex :=
  .seq (.cls p) (.star p)

/-- Perl class `\d`, which in Go is ASCII `[0-9]`. -/
def isDigitRE (c : Char) : Bool := c.isDigit

/-- The class `[A-Za-z0-9]`. -/
def isAlnumRE (c : Char) : Bool := c.isAlphanum

/-- Perl class `\s`, which in Go is `[\t\n\f\r ]`. -/
def isSpaceRE (c : Char) : Bool :=
  c == Char.ofNat 9 || c == Char.ofNat 10 || c == Char.ofNat 12 ||
    c == Char.ofNat 13 || c == Char.ofNat 32

/-- Perl class `\w`, which in Go is `[0-9A-Za-z_]`. -/
def isWordRE (c : Char) : Bool := c.isAlphanum || c == '_'

/-- Whether the code point at the head of a list is a word character. -/
def headIsWord : Str → Bool
  | [] => false
  | c :: _ => isWordRE c

/-- The assertion `\b`: exactly one side of the position is a word character. -/
def wordBoundary (q : Pos) : Bool :=
  headIsWord q.1 != headIsWord q.2

/-- The separator class `[_.]`. -/
def isSepRE (c : Char) : Bool := c == '_' || c == '.'

/-- The class `[Qq]`. -/
def isQRE (c : Char) : Bool := c == 'Q' || c == 'q'

/-- The class `[Kk]`. -/
def isKRE (c : Char) : Bool := c == 'K' || c == 'k'

/-- The literal `_`. -/
def isUnderscoreRE (c : Char) : Bool := c == '_'

/-- End of the first alternative of `quantRE`: `[Kk]?_?[A-Za-z0-9]*`. -/
def quantTail : Regex :=
  .seq (.opt (.cls isKRE)) (.seq (.opt (.cls isUnderscoreRE)) (.star isAlnumRE))

/-- First alternative of `quantRE`: `[Qq]\d[_.][Kk]?_?[A-Za-z0-9]*`. -/
def quantAlt1 : Regex :=
  .seq (.cls isQRE) (.seq (.cls isDigitRE) (.seq (.cls isSepRE) quantTail))

/-- Second alternative of `quantRE`: `IQ\d[_.][A-Za-z0-9]*`. -/
def quantAlt2 : Regex :=
  .seq (.cls (fun c => c == 'I'))
    (.seq (.cls (fun c => c == 'Q'))
      (.seq (.cls isDigitRE)
        (.seq (.cls isSepRE)
          (.star isAlnumRE))))

/-- The pattern `quantRE` (line 19). -/
def quantRE : Regex := .alt quantAlt1 quantAlt2

/-- The pattern `shardRE` (line 20): `-\d{5}-of-\d{5}`. -/
def shardRE : Regex :=
  .seq (.cls (fun c => c == '-'))
    (.seq (Regex.rep isDigitRE 5)
      (.seq (Regex.lit "-of-".toList) (Regex.rep isDigitRE 5)))

/-- The capture group of `paramRE`: `(\d+(?:\.\d+)?)`. -/
def paramGroup : Regex :=
  .seq (Regex.plus isDigitRE)
    (.opt (.seq (.cls (fun c => c == '.')) (Regex.plus isDigitRE)))

/-- What follows the group in `paramRE`: `\s*[Bb](?:illion)?(?:\b|_)`. -/
def paramTail : Regex :=
  .seq (.star isSpaceRE)
    (.seq (.cls (fun c => c == 'B' || c == 'b'))
      (.seq (.opt (Regex.lit "illion".toList))
        (.alt (.look wordBoundary) (.cls (fun c => c == '_')))))

/-- The pattern `paramRE` (line 21). -/
def paramRE : Regex := .seq paramGroup paramTail

/-- Ends of the matches of a pattern `g rest` whose first part `g` is a capture
group, each with the position where the group ended. -/
def endsSub (g rest : Regex) (q : Pos) : List (Pos × Pos) :=
  (g.ends q).flatMap (fun m => (rest.ends m).map (fun e => (m, e)))

/-- Leftmost-first search that also reports where the leading group ended. -/
def findSubFrom (g rest : Regex) (b s : Str) : Option (Pos × Pos × Pos) :=
  searchFrom (fun q => (endsSub g rest q).head?) b s

/-- `paramRE.FindStringSubmatch(name)[1]`: the text of the capture group in
the leftmost-first match, when there is a match. -/
def findParamGroup (name : Str) : Option Str :=
  (findSubFrom paramGroup paramTail [] name).map (fun r => between r.1 r.2.1)

/-- Declarative meaning of the patterns: `Matches r q e` says that `r` matches
the text between the positions `q` and `e` of one string. -/
def Matches : Regex → Pos → Pos → Prop
  | .empty, q, e => e = q
  | .cls p, q, e => ∃ c, p c = true ∧ q.2 = c :: e.2 ∧ e.1 = c :: q.1
  | .seq a b, q, e => ∃ m, Matches a q m ∧ Matches b m e
  | .alt a b, q, e => Matches a q e ∨ Matches b q e
  | .opt a, q, e => Matches a q e ∨ e = q
  | .star p, q, e => ∃ w : Str, (∀ c ∈ w, p c = true) ∧ q.2 = w ++ e.2 ∧ e.1 = w.reverse ++ q.1
  | .look c, q, e => e = q ∧ c q = true

/-- The part `m` of the string `pre ++ m ++ post` matches the pattern. -/
def MatchesAt (r : Regex) (pre m post : Str) : Prop :=
  Matches r (pre.reverse, m ++ post) (m.reverse ++ pre.reverse, post)

/-- The language of a pattern without assertions: the texts it matches,
whatever stands around them. -/
def Lang : Regex → Str → Prop
  | .empty, m => m = []
  | .cls p, m => ∃ c, p c = true ∧ m = [c]
  | .seq a b, m => ∃ m1 m2 : Str, m = m1 ++ m2 ∧ Lang a m1 ∧ Lang b m2
  | .alt a b, m => Lang a m ∨ Lang b m
  | .opt a, m => Lang a m ∨ m = []
  | .star p, m => ∀ c ∈ m, p c = true
  | .look _, _ => False

/-- The pattern contains no zero-width assertion. -/
def Regex.lookFree : Regex → Prop
  | .empty => True
  | .cls _ => True
  | .seq a b => a.lookFree ∧ b.lookFree
  | .alt a b => a.lookFree ∧ b.lookFree
  | .opt a => a.lookFree
  | .star _ => True
  | .look _ => False

/-! ## Text extractors -/

/-- Value of a run of decimal digits. -/
def natOfDigits (ds : Str) : Nat :=
  ds.foldl (fun n c => 10 * n + (c.toNat - 48)) 0

/-- The result of `strconv.ParseFloat` for a decimal literal of exact value `v`: the
nearest `float64`, and the error `ErrRange` (`none`) when that is an infinity. -/
def floatOfDecimal (v : ℚ) : Option F64 :=
  match F64.ofRat v with
  | F64.inf _ => none
  | r => some r

/-- `strconv.ParseFloat(s, 64)` on the literals `paramRE` can capture, digits
with an optional `.`-fraction; `none` is an error result. -/
def parseFloat (s : Str) : Option F64 :=
  let ip := s.takeWhile Char.isDigit
  match s.dropWhile Char.isDigit with
  | [] => if ip = [] then none else floatOfDecimal (natOfDigits ip : ℚ)
  | c :: fp =>
    if c = '.' ∧ ip ≠ [] ∧ fp ≠ [] ∧ fp.all Char.isDigit then
      floatOfDecimal ((natOfDigits ip : ℚ) + (natOfDigits fp : ℚ) / (10 : ℚ) ^ fp.length)
    else none

/-- `parseParamBillions` (lines 66-76). -/
def parseParamBillions (name : Str) : F64 :=
  match findParamGroup name with
  | none => F64.ofRat 0
  | some g =>
    match parseFloat g with
    | none => F64.ofRat 0
    | some v => v

/-- `buildFilenameTemplate` (lines 124-130). -/
def buildFilenameTemplate (filename : Str) : Str :=
  match findIndex quantRE filename with
  | none => filename
  | some (st, en) => st.1.reverse ++ "\x7bquant\x7d".toList ++ en.2

/-- `filterSharded` (lines 132-134). -/
def filterSharded (filename : Str) : Bool :=
  matchString shardRE filename

/-- `estimateQ4GB` (lines 62-64): `math.Round((billions*0.6+0.5)*10) / 10`, the
constants converted to `float64` and every operation rounded on its own (the
product and the sum are not fused, as in the code compiled for amd64). -/
def estimateQ4GB (billions : F64) : F64 :=
  F64.div
    (F64.round
      (F64.mul (F64.add (F64.mul billions (F64.ofRat (3 / 5))) (F64.ofRat (1 / 2)))
        (F64.ofRat 10)))
    (F64.ofRat 10)

/-- `sizeTags` (lines 78-93), on a finite memory given by its exact value. -/
def sizeTags (totalMemGB : ℚ) : List Str :=
  let tags := ["1b".toList, "3b".toList]
  let tags := if totalMemGB ≥ 8 then tags ++ ["7b".toList, "8b".toList] else tags
  let tags := if totalMemGB ≥ 16 then tags ++ ["14b".toList] else tags
  let tags := if totalMemGB ≥ 32 then tags ++ ["30b".toList, "32b".toList, "34b".toList]
    else tags
  let tags := if totalMemGB ≥ 64 then tags ++ ["70b".toList, "72b".toList] else tags
  tags

/-- `strings.ToLower`: `unicode.ToLower`, here `lower`, applied to every code
point. -/
def toLower (lower : Char → Char) (s : Str) : Str := s.map lower

/-- `strings.ToUpper`, on the ASCII letters. -/
def toUpper (s : Str) : Str := s.map Char.toUpper

/-- `strings.HasSuffix`. -/
def hasSuffix (s suffix : Str) : Bool := suffix.isSuffixOf s

/-- `strings.HasPrefix`. -/
def hasPrefix (s pre : Str) : Bool := pre.isPrefixOf s

/-- `strings.Contains`. -/
def contains (s sub : Str) : Bool := s.tails.any (fun t => sub.isPrefixOf t)

/-- The text after the last `/`: the last element of `strings.Split(s, "/")`,
which is also `s[strings.LastIndex(s, "/")+1:]`. -/
def lastSegment (s : Str) : Str :=
  (s.reverse.takeWhile (fun c => c != '/')).reverse

/-- Delete the non-overlapping occurrences of a non-empty literal, scanning
from the left; the counter is the number of code points of the current
occurrence still to be skipped. -/
def removeAllAux (pat : Str) : Nat → Str → Str
  | _, [] => []
  | k + 1, _ :: t => removeAllAux pat k t
  | 0, c :: t =>
    if pat.isPrefixOf (c :: t) then removeAllAux pat (pat.length - 1) t
    else c :: removeAllAux pat 0 t

/-- `strings.ReplaceAll(s, pat, "")`, and `ReplaceAllString(s, "")` for a
literal pattern. -/
def removeAll (pat s : Str) : Str := removeAllAux pat 0 s

/-- `regexp.MustCompile("-gguf$").ReplaceAllString(id, "")` for the given
literal: drop it when it ends the text. -/
def stripSuffix (suffix s : Str) : Str :=
  if suffix.isSuffixOf s then s.take (s.length - suffix.length) else s

/-- `ReplaceAllString(id, "-")` for the pattern `-+`: every run of dashes
becomes one dash. -/
def collapseDashes : Str → Str
  | [] => []
  | c :: t => if c = '-' ∧ t.head? = some '-' then collapseDashes t else c :: collapseDashes t

/-- `strings.Trim(id, "-")`. -/
def trimDashes (s : Str) : Str :=
  ((s.dropWhile (fun c => c == '-')).reverse.dropWhile (fun c => c == '-')).reverse

/-- `deriveCliID` (lines 112-122). -/
def deriveCliID (lower : Char → Char) (repoID : Str) : Str :=
  let repoName := lastSegment repoID
  let id := toLower lower repoName
  let id := stripSuffix "-gguf".toList id
  let id := removeAll "-instruct".toList id
  let id := id.map (fun c => if c = '.' ∨ c = '_' then '-' else c)
  let id := collapseDashes id
  trimDashes id

/-- `strconv.Itoa`. -/
def itoa : Int → Str
  | Int.ofNat k => Nat.toDigits 10 k
  | Int.negSucc k => '-' :: Nat.toDigits 10 (k + 1)

/-- The loop of `formatNumber` (lines 142-147) from index `i` on, over a string
of `len` bytes. -/
def formatLoop (len : Nat) : Nat → Str → Str
  | _, [] => []
  | i, c :: t =>
    (if i > 0 ∧ (len - i) % 3 = 0 then [','] else []) ++ c :: formatLoop len (i + 1) t

/-- `formatNumber` (lines 136-149). -/
def formatNumber (n : Int) : Str :=
  let s := itoa n
  if s.length ≤ 3 then s else formatLoop s.length 0 s

/-! ## Candidate pipeline (lines 159-258 of `fetchModels`) -/

/-- `apiModel`, one search result. -/
structure ApiModel where
  ID : Str
  Downloads : Int
  Likes : Int

/-- The remote catalog as the program sees it through `apiGet` and
`json.Unmarshal`: the decoded answer of each request, or `none` when the
request or the decoding fails. -/
structure Catalog where
  /-- the search request for a publisher and a size tag -/
  search : Str → Str → Option (List ApiModel)
  /-- the detail request for a repository: the `rfilename` of each sibling -/
  detail : Str → Option (List Str)

/-- The guard of line 186: a parameter count was found and it exceeds the
budget. -/
def overBudget (maxParamB : F64) (repoID : Str) : Bool :=
  F64.lt (F64.ofRat 0) (parseParamBillions repoID) &&
    F64.lt maxParamB (parseParamBillions repoID)

/-- The test of lines 204-209 that keeps a filename of the manifest. -/
def keepFile (fn : Str) : Bool :=
  !(!hasSuffix fn ".gguf".toList || hasPrefix fn ".".toList) && !filterSharded fn

/-- The condition of lines 220-221: the name, with dashes turned into
underscores and upper-cased, contains `Q4_K_M`. -/
def prefersFile (fn : Str) : Bool :=
  contains (toUpper (fn.map (fun c => if c = '-' then '_' else c))) "Q4_K_M".toList

/-- Lines 218-228: the representative among the kept filenames. -/
def pickRep (ggufFiles : List Str) : Str :=
  let rep := (ggufFiles.find? prefersFile).getD []
  if rep = [] then ggufFiles.headD [] else rep

/-- Lines 200-228: the representative file of a manifest, or `none` when no
filename is kept and the candidate is skipped. -/
def selectRepresentative (siblings : List Str) : Option Str :=
  let ggufFiles := siblings.filter keepFile
  if ggufFiles.length = 0 then none else some (pickRep ggufFiles)

/-- The body of the loop over the search results (lines 180-257): the entry
sent on the channel for one result, or `none` when the result is skipped. -/
def processRepo (lower : Char → Char) (cat : Catalog) (maxParamB : F64) (org : Str)
    (repo : ApiModel) : Option Model :=
  let repoID := repo.ID
  let paramB := parseParamBillions repoID
  if overBudget maxParamB repoID then none
  else
    match cat.detail repoID with
    | none => none
    | some siblings =>
      match selectRepresentative siblings with
      | none => none
      | some rep =>
        let minVRAM : F64 :=
          if F64.lt (F64.ofRat 0) paramB then estimateQ4GB paramB else F64.ofRat 3
        let repoName := lastSegment repoID
        let modelName := removeAll "-gguf".toList (removeAll "-GGUF".toList repoName)
        some
          { ID := deriveCliID lower repoID
            Name := modelName
            Repo := repoID
            FilenameTemplate := buildFilenameTemplate rep
            MinVRAMGB := minVRAM
            Description := formatNumber repo.Downloads ++ " downloads, ".toList ++
              formatNumber repo.Likes ++ " likes on HuggingFace".toList
            Tags := ["dynamic".toList, toLower lower org]
            downloads := repo.Downloads }

/-- One goroutine (lines 162-258): the entries it sends, in order. -/
def worker (lower : Char → Char) (cat : Catalog) (maxParamB : F64) (org size : Str) :
    List Model :=
  match cat.search org size with
  | none => []
  | some results => results.filterMap (processRepo lower cat maxParamB org)

/-- The entries sent by all goroutines, publisher by publisher and tag by tag. -/
def produced (lower : Char → Char) (cat : Catalog) (orgs tags : List Str)
    (maxParamB : F64) : List Model :=
  orgs.flatMap (fun org => tags.flatMap (fun size => worker lower cat maxParamB org size))

/-- `fetchModels` when the goroutines deliver one after the other. -/
def fetchModels (lower : Char → Char) (cat : Catalog) (orgs tags : List Str)
    (maxParamB : F64) : List Model :=
  aggregate (produced lower cat orgs tags maxParamB)

/-- Every list `fetchModels` can return: the entries arrive in some
interleaving of the goroutines' outputs, which is a permutation of their
concatenation, and the map is iterated in some order. -/
def FetchModelsResult (lower : Char → Char) (cat : Catalog) (orgs tags : List Str)
    (maxParamB : F64) (out : List Model) : Prop :=
  ∃ arrivals : List Model, arrivals.Perm (produced lower cat orgs tags maxParamB) ∧
    FetchResult arrivals out

/-- The budget computed by `main` (line 306): `(totalMemGB - 1) / 0.6`. -/
def maxParamBOf (totalMemGB : F64) : F64 :=
  F64.div (F64.sub totalMemGB (F64.ofRat 1)) (F64.ofRat (3 / 5))

/-- A catalog for a run: the search for the tag `8b` lists a 14B and an 8B
repository, every other search is empty, and every repository holds one file. -/
def testCatalog : Catalog :=
  { search := fun _ size =>
      if size = "8b".toList then some
        [⟨"org/Model-14B-GGUF".toList, 500, 1⟩, ⟨"Qwen/Qwen3-8B-GGUF".toList, 100, 2⟩]
      else some []
    detail := fun _ => some ["m-Q4_K_M.gguf".toList] }

/-! ## Catalog client: `apiGet` and the permit pool `sem` (lines 25-26, 95-110)

The calls of `apiGet` run in goroutines.  Their interleavings are the runs of a
step machine: the state holds the number of elements buffered in the channel
`sem` and the place each call has reached; one step is one call moving on. -/

/-- Capacity of the channel `sem = make(chan struct{}, 10)`. -/
def semCapacity : Nat := 10

/-- Where a call of `apiGet` stands. -/
inductive Pc where
  /-- at `sem <- struct{}{}`, not yet sent -/
  | waiting : Pc
  /-- permit held, deferred release registered, at `http.NewRequest` -/
  | building : Pc
  /-- permit held, at `client.Do(req)` -/
  | sending : Pc
  /-- permit held, at `io.ReadAll(resp.Body)` -/
  | reading : Pc
  /-- returned, after the deferred `<-sem` -/
  | returned : Pc
deriving DecidableEq

/-- The calls that are between permit acquisition and permit release. -/
def Pc.holds : Pc → Bool
  | .building => true
  | .sending => true
  | .reading => true
  | _ => false

/-- State of the permit pool and of all calls of `apiGet` started so far. -/
structure PoolState where
  /-- number of elements buffered in `sem` -/
  sem : Nat
  /-- the place of every call -/
  calls : List Pc

/-- One step of one call; also the start of a new call by some worker. -/
inductive PoolAction where
  /-- a goroutine calls `apiGet` -/
  | spawn : PoolAction
  /-- `sem <- struct{}{}` of call `i` goes through (the channel is not full) -/
  | acquire : Nat → PoolAction
  /-- `http.NewRequest` of call `i` succeeds -/
  | buildOk : Nat → PoolAction
  /-- `http.NewRequest` of call `i` fails: `return nil, err` -/
  | buildFail : Nat → PoolAction
  /-- `client.Do` of call `i` succeeds -/
  | doOk : Nat → PoolAction
  /-- `client.Do` of call `i` fails: `return nil, err` -/
  | doFail : Nat → PoolAction
  /-- `io.ReadAll` of call `i` completes: `return io.ReadAll(resp.Body)` -/
  | readDone : Nat → PoolAction

/-- Call `i` returns from the place `src`: the deferred `<-sem` takes one element
out of the channel, which must hold one. -/
def returnFrom (s : PoolState) (i : Nat) (src : Pc) : Option PoolState :=
  if s.calls.get? i = some src ∧ 0 < s.sem then
    some { sem := s.sem - 1, calls := s.calls.set i .returned }
  else none

/-- Call `i` moves from the place `src` to the place `dst` without touching `sem`. -/
def moveOn (s : PoolState) (i : Nat) (src dst : Pc) : Option PoolState :=
  if s.calls.get? i = some src then some { sem := s.sem, calls := s.calls.set i dst }
  else none

/-- The step relation, as a partial function: `none` when the action cannot
happen in the state (the call is elsewhere, or the send would block). -/
def poolStep (s : PoolState) : PoolAction → Option PoolState
  | .spawn => some { sem := s.sem, calls := s.calls ++ [.waiting] }
  | .acquire i =>
    if s.calls.get? i = some .waiting ∧ s.sem < semCapacity then
      some { sem := s.sem + 1, calls := s.calls.set i .building }
    else none
  | .buildOk i => moveOn s i .building .sending
  | .buildFail i => returnFrom s i .building
  | .doOk i => moveOn s i .sending .reading
  | .doFail i => returnFrom s i .sending
  | .readDone i => returnFrom s i .reading

/-- A run: the actions taken one after the other. -/
def poolRun (s : PoolState) : List PoolAction → Option PoolState
  | [] => some s
  | a :: rest =>
    match poolStep s a with
    | none => none
    | some s' => poolRun s' rest

/-- The start of `fetchModels`: the channel is empty and no call has begun. -/
def poolInit : PoolState := { sem := 0, calls := [] }

/-- Number of calls between permit acquisition and permit release. -/
def holders (s : PoolState) : Nat := s.calls.countP Pc.holds

/-- The action by which a call standing at a place can return at once, if it
holds a permit. -/
def returnAction (i : Nat) : Pc → Option PoolAction
  | .building => some (.buildFail i)
  | .sending => some (.doFail i)
  | .reading => some (.readDone i)
  | _ => none

/-! ## Specification vocabulary for the text extractors -/

/-- Whether the code point at the head of a list is a decimal digit. -/
def headIsDigit : Str → Bool
  | [] => false
  | c :: _ => c.isDigit

/-- The shard marker found by the code: somewhere in the name, a `-`, five
decimal digits, `-of-`, and five decimal digits. -/
def ShardMarker (f : Str) : Prop :=
  ∃ pre d1 d2 post : Str, f = pre ++ ('-' :: d1 ++ "-of-".toList ++ d2) ++ post ∧
    d1.length = 5 ∧ d2.length = 5 ∧
    (∀ c ∈ d1, c.isDigit = true) ∧ (∀ c ∈ d2, c.isDigit = true)

/-- The shard marker in the words of the specification: as `ShardMarker`, and
neither number is part of a longer run of digits.  The first number stands
between two dashes, so this only constrains what follows the second. -/
def ExactShardMarker (f : Str) : Prop :=
  ∃ pre d1 d2 post : Str, f = pre ++ ('-' :: d1 ++ "-of-".toList ++ d2) ++ post ∧
    d1.length = 5 ∧ d2.length = 5 ∧
    (∀ c ∈ d1, c.isDigit = true) ∧ (∀ c ∈ d2, c.isDigit = true) ∧
    headIsDigit post = false

/-- The pattern of `ExactShardMarker`: `shardRE` not followed by a digit. -/
def shardExactRE : Regex :=
  .seq shardRE (.look (fun q => !headIsDigit q.2))

/-- Drop the first code point when it is of the class. -/
def dropOne (p : Char → Bool) : Str → Str
  | [] => []
  | c :: t => if p c then t else c :: t

/-- What the greedy reading of `[Kk]?_?[A-Za-z0-9]*` leaves of a text: drop a
`K`, an `_`, and the longest alphanumeric run. -/
def greedyTailRest (X : Str) : Str :=
  (dropOne isUnderscoreRE (dropOne isKRE X)).dropWhile isAlnumRE

/-- In the string `pre ++ m ++ post`, the part `m` is the first text of the
language `L`: it belongs to `L`, no text of `L` starts further left, and no
text of `L` starting at the same place is longer. -/
def LeftmostLongest (L : Str → Prop) (pre m post : Str) : Prop :=
  L m ∧
  (∀ pre' m' post' : Str, pre ++ m ++ post = pre' ++ m' ++ post' → L m' →
    pre.length ≤ pre'.length) ∧
  (∀ m' post' : Str, m ++ post = m' ++ post' → L m' → m'.length ≤ m.length)

/-- The quantization-label grammar in the words of the specification, read
case-insensitively: `Q`, a digit, an optional `.` or `_`, an optional `K`, an
optional `_`, a run of alphanumerics; or `IQ`, a digit, a `.` or `_`, a run of
alphanumerics. -/
def SpecQuantLabel (m : Str) : Prop :=
  (∃ q d : Char, ∃ s k u w : Str, m = q :: d :: (s ++ k ++ u ++ w) ∧
    (q = 'Q' ∨ q = 'q') ∧ d.isDigit = true ∧
    (s = [] ∨ s = ['.'] ∨ s = ['_']) ∧
    (k = [] ∨ k = ['K'] ∨ k = ['k']) ∧ (u = [] ∨ u = ['_']) ∧
    (∀ c ∈ w, c.isAlphanum = true)) ∨
  (∃ i q d s : Char, ∃ w : Str, m = i :: q :: d :: s :: w ∧
    (i = 'I' ∨ i = 'i') ∧ (q = 'Q' ∨ q = 'q') ∧ d.isDigit = true ∧
    (s = '.' ∨ s = '_') ∧ (∀ c ∈ w, c.isAlphanum = true))

/-- The grammar of the specification with the separator after the digit made
mandatory in its first form too. -/
def QuantLabel (m : Str) : Prop :=
  (∃ q d s : Char, ∃ k u w : Str, m = q :: d :: s :: (k ++ u ++ w) ∧
    (q = 'Q' ∨ q = 'q') ∧ d.isDigit = true ∧ (s = '.' ∨ s = '_') ∧
    (k = [] ∨ k = ['K'] ∨ k = ['k']) ∧ (u = [] ∨ u = ['_']) ∧
    (∀ c ∈ w, c.isAlphanum = true)) ∨
  (∃ i q d s : Char, ∃ w : Str, m = i :: q :: d :: s :: w ∧
    (i = 'I' ∨ i = 'i') ∧ (q = 'Q' ∨ q = 'q') ∧ d.isDigit = true ∧
    (s = '.' ∨ s = '_') ∧ (∀ c ∈ w, c.isAlphanum = true))

/-- Whether the name spells `iq` somewhere in a case other than `IQ`. -/
def hasMixedCaseIQ : Str → Bool
  | [] => false
  | i :: t =>
    (match t with
      | [] => false
      | q :: _ => (i == 'I' || i == 'i') && (q == 'Q' || q == 'q') &&
          !(i == 'I' && q == 'Q')) || hasMixedCaseIQ t

/-- The text `num` is a decimal number: the digits `ip`, then, when `fp` is not
empty, a `.` and the digits `fp`. -/
def DecimalParts (num ip fp : Str) : Prop :=
  ip ≠ [] ∧ (∀ c ∈ ip, c.isDigit = true) ∧ (∀ c ∈ fp, c.isDigit = true) ∧
  ((fp = [] ∧ num = ip) ∨ (fp ≠ [] ∧ num = ip ++ '.' :: fp))

/-- The value of the decimal number with integer digits `ip` and fraction
digits `fp`. -/
def decimalValue (ip fp : Str) : ℚ :=
  (natOfDigits ip : ℚ) + (natOfDigits fp : ℚ) / (10 : ℚ) ^ fp.length

/-- After the marker comes a word boundary (the marker ends in a letter, so
what follows is not a word character) or a `_`. -/
def MarkerEnd (t : Str) : Prop :=
  headIsWord t = false ∨ ∃ t' : Str, t = '_' :: t'

/-- The marker stands at the head of the text: `B` or `b`, optionally continued
by `illion`, then a word boundary or `_`. -/
def MarkerAt (rest : Str) : Prop :=
  ∃ (b : Char) (tail : Str), rest = b :: tail ∧ (b = 'B' ∨ b = 'b') ∧
    (MarkerEnd tail ∨ ∃ t2 : Str, tail = "illion".toList ++ t2 ∧ MarkerEnd t2)

/-- A parameter token in the words of the specification: a decimal number
immediately followed by the marker. -/
def ParamTokenSpec (num rest : Str) : Prop :=
  (∃ ip fp : Str, DecimalParts num ip fp) ∧ MarkerAt rest

/-- A parameter token as the code reads it: a decimal number, any run of
white space, and the marker. -/
def ParamToken (num rest : Str) : Prop :=
  (∃ ip fp : Str, DecimalParts num ip fp) ∧
  ∃ ws rest' : Str, rest = ws ++ rest' ∧ (∀ c ∈ ws, isSpaceRE c = true) ∧ MarkerAt rest'

/-- Whether a decimal digit is somewhere directly followed by `B` or `b`. -/
def digitThenB : Str → Bool
  | [] => false
  | d :: t =>
    (match t with
      | [] => false
      | b :: _ => d.isDigit && (b == 'B' || b == 'b')) || digitThenB t

/-- Whether, in a name that ends with a five-character extension such as
`.gguf`, a bare label `Q<digit>` (in either case of `Q`) stands directly before
the extension. -/
def bareLabelBeforeExt (f : Str) : Bool :=
  match (f.take (f.length - 5)).reverse with
  | d :: q :: _ => d.isDigit && isQRE q
  | _ => false

/-- What is used of `unicode.ToLower`: on an ASCII code point it is the ASCII
lower-casing, and it sends a code point outside ASCII to one outside ASCII or to a
lower-case ASCII letter (as it sends U+0130 to `i` and the Kelvin sign U+212A to
`k`). -/
def UnicodeToLower (lower : Char → Char) : Prop :=
  (∀ c : Char, c.toNat < 128 → lower c = c.toLower) ∧
  (∀ c : Char, 128 ≤ c.toNat → 128 ≤ (lower c).toNat ∨ (lower c).isLower = true)

/-- The case table `unicode.ToLower` on ASCII, on the capitals of Latin-1 (U+00C0 to
U+00DE without the sign U+00D7), on U+0130 and on the Kelvin sign U+212A; the other
code points are left as they are. -/
def latinLower (c : Char) : Char :=
  if c.toNat < 128 then c.toLower
  else if 192 ≤ c.toNat ∧ c.toNat ≤ 222 ∧ c.toNat ≠ 215 then Char.ofNat (c.toNat + 32)
  else if c.toNat = 304 then 'i'
  else if c.toNat = 8490 then 'k'
  else c

/-! ## Specification vocabulary for the aggregator -/

/-- Entry `e` is, in `arrivals`, the earliest entry of identifier `id` that
has the greatest `downloads` among the entries of that identifier. -/
def FirstMax (arrivals : List Model) (id : Str) (e : Model) : Prop :=
  ∃ pre post : List Model, arrivals = pre ++ e :: post ∧ e.ID = id ∧
    (∀ a ∈ pre, a.ID = id → a.downloads < e.downloads) ∧
    (∀ a ∈ post, a.ID = id → a.downloads ≤ e.downloads)

/-- The list is in descending order of `downloads`. -/
def SortedDesc (l : List Model) : Prop :=
  l.Pairwise (fun a b => a.downloads ≥ b.downloads)

/-- An entry of the identifier used, as in `TestDeduplication`. -/
def testEntry (d : Int) : Model :=
  { ID := "qwen3-8b".toList, Name := [], Repo := [], FilenameTemplate := [],
    MinVRAMGB := F64.fin 0, Description := [], Tags := [], downloads := d }

/-! ## Lemmas on the `seen` map -/

theorem mapGet_mapSet (s : SeenMap) (k k' : Str) (v : Model) :
    mapGet (mapSet s k v) k' = if k = k' then some v else mapGet s k' := by
  induction s with
  | nil => simp [mapSet, mapGet]
  | cons p rest ih =>
    obtain ⟨k0, v0⟩ := p
    by_cases h0 : k0 = k
    · subst h0
      by_cases h1 : k0 = k'
      · simp only [mapSet, mapGet, if_true, h1]
      · simp only [mapSet, mapGet, if_true, h1, if_false]
    · by_cases h1 : k0 = k'
      · subst h1
        have : ¬ k = k0 := fun h => h0 h.symm
        simp only [mapSet, mapGet, h0, this, if_false, if_true]
      · simp only [mapSet, mapGet, h0, h1, ih, if_false]

theorem mapGet_eq_none_iff (s : SeenMap) (k : Str) :
    mapGet s k = none ↔ k ∉ s.map Prod.fst := by
  induction s with
  | nil => simp [mapGet]
  | cons p rest ih =>
    obtain ⟨k0, v0⟩ := p
    by_cases h0 : k0 = k
    · simp only [mapGet, h0, if_true, List.map_cons, List.mem_cons, true_or, not_true,
        iff_false]
      exact fun h => Option.noConfusion h
    · have : ¬ k = k0 := fun h => h0 h.symm
      simp only [mapGet, h0, if_false, ih, List.map_cons, List.mem_cons, this, false_or]

theorem mapSet_keys (s : SeenMap) (k : Str) (v : Model) :
    (mapSet s k v).map Prod.fst =
      if k ∈ s.map Prod.fst then s.map Prod.fst else s.map Prod.fst ++ [k] := by
  induction s with
  | nil => simp [mapSet]
  | cons p rest ih =>
    obtain ⟨k0, v0⟩ := p
    by_cases h0 : k0 = k
    · subst h0
      simp only [mapSet, if_true, List.map_cons, List.mem_cons, true_or]
    · have h1 : ¬ k = k0 := fun h => h0 h.symm
      simp only [mapSet, h0, if_false, List.map_cons, ih, List.mem_cons, h1, false_or]
      split <;> simp

theorem mapSet_mem (s : SeenMap) (k : Str) (v : Model) (p : Str × Model)
    (hp : p ∈ mapSet s k v) : p = (k, v) ∨ p ∈ s := by
  induction s with
  | nil => simpa [mapSet] using hp
  | cons q rest ih =>
    obtain ⟨k0, v0⟩ := q
    by_cases h0 : k0 = k
    · simp only [mapSet, h0, if_true, List.mem_cons] at hp
      rcases hp with hp | hp
      · exact Or.inl hp
      · exact Or.inr (List.mem_cons_of_mem _ hp)
    · simp only [mapSet, h0, if_false, List.mem_cons] at hp
      rcases hp with hp | hp
      · exact Or.inr (by simp [hp])
      · rcases ih hp with h | h
        · exact Or.inl h
        · exact Or.inr (List.mem_cons_of_mem _ h)

theorem mapGet_of_mem (s : SeenMap) (hnd : (s.map Prod.fst).Nodup) (p : Str × Model)
    (hp : p ∈ s) : mapGet s p.1 = some p.2 := by
  induction s with
  | nil => simp at hp
  | cons q rest ih =>
    obtain ⟨k0, v0⟩ := q
    simp only [List.map_cons, List.nodup_cons] at hnd
    rcases List.mem_cons.1 hp with h | h
    · subst h
      simp [mapGet]
    · have hk : k0 ≠ p.1 := by
        intro hk
        apply hnd.1
        rw [hk]
        exact List.mem_map_of_mem _ h
      simp [mapGet, hk, ih hnd.2 h]

theorem mem_of_mapGet (s : SeenMap) (k : Str) (v : Model) (h : mapGet s k = some v) :
    (k, v) ∈ s := by
  induction s with
  | nil => simp [mapGet] at h
  | cons q rest ih =>
    obtain ⟨k0, v0⟩ := q
    by_cases h0 : k0 = k
    · simp only [mapGet, h0, if_true, Option.some.injEq] at h
      simp [h0, h]
    · simp only [mapGet, h0, if_false] at h
      exact List.mem_cons_of_mem _ (ih h)

/-! ## Lemmas on the deduplication loop -/

theorem dedup_snoc (l : List Model) (m : Model) :
    dedup (l ++ [m]) = dedupStep (dedup l) m := by
  simp [dedup, List.foldl_append]

theorem dedupStep_get_other (s : SeenMap) (m : Model) (id : Str) (h : m.ID ≠ id) :
    mapGet (dedupStep s m) id = mapGet s id := by
  unfold dedupStep
  split
  · split
    · rfl
    · simp [mapGet_mapSet, h]
  · simp [mapGet_mapSet, h]

theorem dedupStep_keys (s : SeenMap) (m : Model) :
    (dedupStep s m).map Prod.fst =
      if m.ID ∈ s.map Prod.fst then s.map Prod.fst else s.map Prod.fst ++ [m.ID] := by
  unfold dedupStep
  split
  · rename_i existing hget
    have hin : m.ID ∈ s.map Prod.fst := by
      by_contra hc
      rw [(mapGet_eq_none_iff s m.ID).2 hc] at hget
      exact Option.noConfusion hget
    split
    · simp only [hin, if_true]
    · simp only [mapSet_keys, hin, if_true]
  · rw [mapSet_keys]

theorem dedup_keys_nodup (arrivals : List Model) :
    ((dedup arrivals).map Prod.fst).Nodup := by
  induction arrivals using List.reverseRecOn with
  | nil => simp [dedup]
  | append_singleton l m ih =>
    rw [dedup_snoc, dedupStep_keys]
    split
    · exact ih
    · rename_i hnot
      rw [List.nodup_append]
      refine ⟨ih, List.nodup_singleton _, ?_⟩
      intro a ha hb
      rw [List.mem_singleton] at hb
      exact hnot (hb ▸ ha)

theorem dedup_keys_mem (arrivals : List Model) (id : Str) :
    id ∈ (dedup arrivals).map Prod.fst ↔ id ∈ arrivals.map Model.ID := by
  induction arrivals using List.reverseRecOn with
  | nil => simp [dedup]
  | append_singleton l m ih =>
    rw [dedup_snoc, dedupStep_keys]
    split
    · rename_i hin
      simp only [List.map_append, List.map_cons, List.map_nil, List.mem_append,
        List.mem_singleton]
      constructor
      · intro h
        exact Or.inl (ih.1 h)
      · rintro (h | h)
        · exact ih.2 h
        · rw [h]; exact hin
    · simp only [List.map_append, List.map_cons, List.map_nil, List.mem_append,
        List.mem_singleton, ih]

theorem dedup_value_id (arrivals : List Model) :
    ∀ p ∈ dedup arrivals, p.2.ID = p.1 := by
  induction arrivals using List.reverseRecOn with
  | nil => simp [dedup]
  | append_singleton l m ih =>
    rw [dedup_snoc]
    intro p hp
    unfold dedupStep at hp
    split at hp
    · split at hp
      · exact ih p hp
      · rcases mapSet_mem _ _ _ _ hp with h | h
        · rw [h]
        · exact ih p h
    · rcases mapSet_mem _ _ _ _ hp with h | h
      · rw [h]
      · exact ih p h

theorem firstMax_le {l : List Model} {id : Str} {e : Model} (h : FirstMax l id e) :
    ∀ a ∈ l, a.ID = id → a.downloads ≤ e.downloads := by
  obtain ⟨pre, post, hl, _, hpre, hpost⟩ := h
  intro a ha hid
  rw [hl] at ha
  rcases List.mem_append.1 ha with h1 | h1
  · exact le_of_lt (hpre a h1 hid)
  · rcases List.mem_cons.1 h1 with h2 | h2
    · rw [h2]
    · exact hpost a h2 hid

theorem firstMax_snoc {l : List Model} {id : Str} {e m : Model} (h : FirstMax l id e)
    (hm : m.ID = id → m.downloads ≤ e.downloads) : FirstMax (l ++ [m]) id e := by
  obtain ⟨pre, post, hl, hid, hpre, hpost⟩ := h
  refine ⟨pre, post ++ [m], by simp [hl], hid, hpre, ?_⟩
  intro a ha haid
  rcases List.mem_append.1 ha with h1 | h1
  · exact hpost a h1 haid
  · rw [List.mem_singleton] at h1
    subst h1
    exact hm haid

/-- The state of the map after any arrival sequence: an identifier that never
arrived has no entry, every other identifier holds its first maximal entry. -/
theorem dedup_get (arrivals : List Model) (id : Str) :
    (mapGet (dedup arrivals) id = none ∧ ∀ a ∈ arrivals, a.ID ≠ id) ∨
    (∃ e, mapGet (dedup arrivals) id = some e ∧ FirstMax arrivals id e) := by
  induction arrivals using List.reverseRecOn with
  | nil => left; simp [dedup, mapGet]
  | append_singleton l m ih =>
    rw [dedup_snoc]
    by_cases hm : m.ID = id
    · right
      rcases ih with ⟨hnone, hall⟩ | ⟨e, hsome, hfm⟩
      · refine ⟨m, ?_, l, [], rfl, hm, ?_, ?_⟩
        · unfold dedupStep
          rw [hm, hnone]
          simp [mapGet_mapSet]
        · intro a ha haid
          exact absurd haid (hall a ha)
        · intro a ha
          simp at ha
      · by_cases hge : e.downloads ≥ m.downloads
        · refine ⟨e, ?_, firstMax_snoc hfm (fun _ => hge)⟩
          unfold dedupStep
          rw [hm, hsome]
          simp [hge, hsome]
        · refine ⟨m, ?_, l, [], rfl, hm, ?_, ?_⟩
          · unfold dedupStep
            rw [hm, hsome]
            simp [hge, mapGet_mapSet]
          · intro a ha haid
            exact lt_of_le_of_lt (firstMax_le hfm a ha haid) (not_le.1 hge)
          · intro a ha
            simp at ha
    · rw [dedupStep_get_other _ _ _ hm]
      rcases ih with ⟨hnone, hall⟩ | ⟨e, hsome, hfm⟩
      · left
        refine ⟨hnone, ?_⟩
        intro a ha
        rcases List.mem_append.1 ha with h1 | h1
        · exact hall a h1
        · rw [List.mem_singleton] at h1
          rw [h1]; exact hm
      · right
        exact ⟨e, hsome, firstMax_snoc hfm (fun h => absurd h hm)⟩

/-! ## Lemmas on the sort -/

theorem insertByLess_perm {α : Type} (less : α → α → Bool) (x : α) (l : List α) :
    (insertByLess less x l).Perm (x :: l) := by
  induction l with
  | nil => exact List.Perm.refl _
  | cons y ys ih =>
    unfold insertByLess
    split
    · exact List.Perm.refl _
    · exact (List.Perm.cons y ih).trans (List.Perm.swap x y ys)

theorem foldl_insertByLess_perm {α : Type} (less : α → α → Bool) (l acc : List α) :
    (l.foldl (fun acc x => insertByLess less x acc) acc).Perm (acc ++ l) := by
  induction l generalizing acc with
  | nil => simp
  | cons x xs ih =>
    simp only [List.foldl_cons]
    refine (ih _).trans ?_
    have h1 : (insertByLess less x acc ++ xs).Perm ((x :: acc) ++ xs) :=
      List.Perm.append_right xs (insertByLess_perm less x acc)
    refine h1.trans ?_
    simpa using (List.perm_middle : (acc ++ x :: xs).Perm (x :: (acc ++ xs))).symm

theorem sortSlice_perm {α : Type} (less : α → α → Bool) (l : List α) :
    (sortSlice less l).Perm l := by
  simpa [sortSlice] using foldl_insertByLess_perm less l []

theorem insertByLess_sortedDesc (x : Model) (l : List Model) (h : SortedDesc l) :
    SortedDesc (insertByLess lessDownloads x l) := by
  induction l with
  | nil => simp [insertByLess, SortedDesc]
  | cons y ys ih =>
    unfold SortedDesc at h ih ⊢
    rw [List.pairwise_cons] at h
    unfold insertByLess
    split
    · rename_i hlt
      have hxy : y.downloads < x.downloads := by
        simpa [lessDownloads] using hlt
      rw [List.pairwise_cons]
      refine ⟨?_, List.pairwise_cons.2 h⟩
      intro b hb
      rcases List.mem_cons.1 hb with hb | hb
      · rw [hb]; exact le_of_lt hxy
      · exact le_trans (h.1 b hb) (le_of_lt hxy)
    · rename_i hnlt
      have hxy : x.downloads ≤ y.downloads := by
        simpa [lessDownloads] using hnlt
      rw [List.pairwise_cons]
      refine ⟨?_, ih h.2⟩
      intro b hb
      rcases List.mem_cons.1 ((insertByLess_perm lessDownloads x ys).subset hb) with hb | hb
      · rw [hb]; exact hxy
      · exact h.1 b hb

theorem foldl_insertByLess_sortedDesc (l acc : List Model) (h : SortedDesc acc) :
    SortedDesc (l.foldl (fun acc x => insertByLess lessDownloads x acc) acc) := by
  induction l generalizing acc with
  | nil => simpa using h
  | cons x xs ih =>
    simp only [List.foldl_cons]
    exact ih _ (insertByLess_sortedDesc x acc h)

theorem sortSlice_sortedDesc (l : List Model) : SortedDesc (sortSlice lessDownloads l) := by
  unfold sortSlice
  exact foldl_insertByLess_sortedDesc l [] (by simp [SortedDesc])

theorem fetchResult_perm {arrivals out : List Model} (h : FetchResult arrivals out) :
    out.Perm (mapValues (dedup arrivals)) := by
  obtain ⟨vals, hperm, hout⟩ := h
  rw [hout]
  exact (sortSlice_perm _ _).trans hperm

theorem aggregate_fetchResult (arrivals : List Model) :
    FetchResult arrivals (aggregate arrivals) :=
  ⟨mapValues (dedup arrivals), List.Perm.refl _, rfl⟩

theorem mapValues_ids (arrivals : List Model) :
    (mapValues (dedup arrivals)).map Model.ID = (dedup arrivals).map Prod.fst := by
  unfold mapValues
  rw [List.map_map]
  apply List.map_congr_left
  intro p hp
  exact dedup_value_id arrivals p hp

theorem dedup_get_some (arrivals : List Model) (id : Str)
    (hid : id ∈ arrivals.map Model.ID) :
    ∃ e, mapGet (dedup arrivals) id = some e ∧ FirstMax arrivals id e := by
  rcases dedup_get arrivals id with ⟨_, hall⟩ | h
  · obtain ⟨a, ha, haid⟩ := List.mem_map.1 hid
    exact absurd haid (hall a ha)
  · exact h

theorem firstMax_id {l : List Model} {id : Str} {e : Model} (h : FirstMax l id e) :
    e.ID = id := by
  obtain ⟨_, _, _, hid, _⟩ := h
  exact hid

theorem firstMax_mem {l : List Model} {id : Str} {e : Model} (h : FirstMax l id e) :
    e ∈ l := by
  obtain ⟨pre, post, hl, _⟩ := h
  rw [hl]
  simp

/-! ## Aggregator: the claims -/

/-- C1: after the deduplication loop, every identifier that arrived holds an entry
of that identifier taken from the stream whose downloads is the maximum over the
stream's entries of that identifier; hence every permutation of the stream retains
the same downloads for it. -/
theorem dedup_retains_max_downloads (arrivals : List Model) (id : Str)
    (hid : id ∈ arrivals.map Model.ID) :
    ∃ e, mapGet (dedup arrivals) id = some e ∧ e ∈ arrivals ∧ e.ID = id ∧
      (∀ a ∈ arrivals, a.ID = id → a.downloads ≤ e.downloads) ∧
      (∀ arrivals' : List Model, arrivals'.Perm arrivals →
        ∃ e', mapGet (dedup arrivals') id = some e' ∧ e'.downloads = e.downloads) := by
  obtain ⟨e, hget, hfm⟩ := dedup_get_some arrivals id hid
  refine ⟨e, hget, firstMax_mem hfm, (firstMax_id hfm), firstMax_le hfm, ?_⟩
  intro arrivals' hperm
  have hid' : id ∈ arrivals'.map Model.ID := (hperm.map Model.ID).symm.subset hid
  obtain ⟨e', hget', hfm'⟩ := dedup_get_some arrivals' id hid'
  refine ⟨e', hget', le_antisymm ?_ ?_⟩
  · exact firstMax_le hfm e' (hperm.subset (firstMax_mem hfm')) (firstMax_id hfm')
  · exact firstMax_le hfm' e (hperm.symm.subset (firstMax_mem hfm)) (firstMax_id hfm)

theorem dedup_retains_max_downloads_witness :
    ∃ e, mapGet (dedup [testEntry 100, testEntry 200, testEntry 50]) "qwen3-8b".toList
        = some e ∧
      e ∈ [testEntry 100, testEntry 200, testEntry 50] ∧ e.ID = "qwen3-8b".toList ∧
      (∀ a ∈ [testEntry 100, testEntry 200, testEntry 50],
        a.ID = "qwen3-8b".toList → a.downloads ≤ e.downloads) ∧
      (∀ arrivals' : List Model,
        arrivals'.Perm [testEntry 100, testEntry 200, testEntry 50] →
        ∃ e', mapGet (dedup arrivals') "qwen3-8b".toList = some e' ∧
          e'.downloads = e.downloads) :=
  dedup_retains_max_downloads [testEntry 100, testEntry 200, testEntry 50]
    "qwen3-8b".toList (by decide)

/-- C2: whatever the arrival sequence and the map iteration order, the collection
returned by `fetchModels` has pairwise distinct identifiers, its identifiers are
exactly those that arrived, and its length is the number of distinct identifiers
of the arrival sequence. -/
theorem fetchModels_unique_ids (arrivals out : List Model)
    (h : FetchResult arrivals out) :
    (out.map Model.ID).Nodup ∧
    (∀ id, id ∈ out.map Model.ID ↔ id ∈ arrivals.map Model.ID) ∧
    out.length = ((arrivals.map Model.ID).dedup).length := by
  have hperm : (out.map Model.ID).Perm ((dedup arrivals).map Prod.fst) := by
    rw [← mapValues_ids]
    exact (fetchResult_perm h).map _
  have hnd : (out.map Model.ID).Nodup := hperm.nodup_iff.2 (dedup_keys_nodup arrivals)
  have hmem : ∀ id, id ∈ out.map Model.ID ↔ id ∈ arrivals.map Model.ID := by
    intro id
    rw [hperm.mem_iff]
    exact dedup_keys_mem arrivals id
  refine ⟨hnd, hmem, ?_⟩
  have hp2 : (out.map Model.ID).Perm ((arrivals.map Model.ID).dedup) := by
    rw [List.perm_ext_iff_of_nodup hnd (List.nodup_dedup _)]
    intro id
    rw [hmem id, List.mem_dedup]
  simpa using hp2.length_eq

theorem fetchModels_unique_ids_witness :
    ((aggregate [testEntry 100, testEntry 200, testEntry 50]).map Model.ID).Nodup ∧
    (∀ id, id ∈ (aggregate [testEntry 100, testEntry 200, testEntry 50]).map Model.ID ↔
      id ∈ [testEntry 100, testEntry 200, testEntry 50].map Model.ID) ∧
    (aggregate [testEntry 100, testEntry 200, testEntry 50]).length =
      (([testEntry 100, testEntry 200, testEntry 50].map Model.ID).dedup).length :=
  fetchModels_unique_ids _ _ (aggregate_fetchResult _)

/-- C3: whatever the arrival sequence and the map iteration order, the list returned
by `fetchModels` is in descending order of downloads (each entry has at least the
downloads of every later entry, in particular of the next one) and is a permutation
of the entries retained by the deduplication. -/
theorem fetchModels_sorted_desc (arrivals out : List Model)
    (h : FetchResult arrivals out) :
    SortedDesc out ∧
    (∀ (i : Nat) (hi : i + 1 < out.length),
      (out.get ⟨i + 1, hi⟩).downloads ≤ (out.get ⟨i, Nat.lt_of_succ_lt hi⟩).downloads) ∧
    out.Perm (mapValues (dedup arrivals)) := by
  have hs : SortedDesc out := by
    obtain ⟨vals, _, hout⟩ := h
    rw [hout]
    exact sortSlice_sortedDesc vals
  refine ⟨hs, ?_, fetchResult_perm h⟩
  intro i hi
  have := List.pairwise_iff_get.1 hs ⟨i, Nat.lt_of_succ_lt hi⟩ ⟨i + 1, hi⟩
    (by simp [Fin.lt_def])
  exact this

theorem fetchModels_sorted_desc_witness :
    SortedDesc (aggregate [testEntry 100, testEntry 200, testEntry 50]) ∧
    (∀ (i : Nat) (hi : i + 1 < (aggregate [testEntry 100, testEntry 200, testEntry 50]).length),
      ((aggregate [testEntry 100, testEntry 200, testEntry 50]).get ⟨i + 1, hi⟩).downloads ≤
      ((aggregate [testEntry 100, testEntry 200, testEntry 50]).get
        ⟨i, Nat.lt_of_succ_lt hi⟩).downloads) ∧
    (aggregate [testEntry 100, testEntry 200, testEntry 50]).Perm
      (mapValues (dedup [testEntry 100, testEntry 200, testEntry 50])) :=
  fetchModels_sorted_desc _ _ (aggregate_fetchResult _)

/-- C4: after the deduplication loop, the entry held for an identifier that arrived
is the earliest entry of the stream having the maximum downloads of that identifier:
every earlier entry of the identifier has strictly fewer downloads and no later one
has more, so a later entry with an equal score never replaces it. -/
theorem dedup_retains_first_max (arrivals : List Model) (id : Str)
    (hid : id ∈ arrivals.map Model.ID) :
    ∃ e pre post, mapGet (dedup arrivals) id = some e ∧
      arrivals = pre ++ e :: post ∧ e.ID = id ∧
      (∀ a ∈ pre, a.ID = id → a.downloads < e.downloads) ∧
      (∀ a ∈ post, a.ID = id → a.downloads ≤ e.downloads) := by
  obtain ⟨e, hget, pre, post, h⟩ := dedup_get_some arrivals id hid
  exact ⟨e, pre, post, hget, h⟩

theorem dedup_retains_first_max_witness :
    ∃ e pre post,
      mapGet (dedup [testEntry 100, testEntry 200, testEntry 50]) "qwen3-8b".toList
        = some e ∧
      [testEntry 100, testEntry 200, testEntry 50] = pre ++ e :: post ∧
      e.ID = "qwen3-8b".toList ∧
      (∀ a ∈ pre, a.ID = "qwen3-8b".toList → a.downloads < e.downloads) ∧
      (∀ a ∈ post, a.ID = "qwen3-8b".toList → a.downloads ≤ e.downloads) :=
  dedup_retains_first_max [testEntry 100, testEntry 200, testEntry 50]
    "qwen3-8b".toList (by decide)

/-! ## Lemmas on the matcher -/

theorem mem_starEnds_iff (p : Char → Bool) (s b : Str) (e : Pos) :
    e ∈ starEnds p b s ↔
      ∃ w : Str, (∀ c ∈ w, p c = true) ∧ s = w ++ e.2 ∧ e.1 = w.reverse ++ b := by
  induction s generalizing b with
  | nil =>
    simp only [starEnds, List.mem_singleton]
    constructor
    · intro h
      exact ⟨[], by simp, by simp [h], by simp [h]⟩
    · rintro ⟨w, _, hs, hb⟩
      have hw : w = [] := by
        cases w with
        | nil => rfl
        | cons c w => simp at hs
      subst hw
      have h2 : e.2 = [] := by simpa using hs.symm
      exact Prod.ext (by simpa using hb) h2
  | cons c t ih =>
    unfold starEnds
    by_cases hp : p c = true
    · rw [if_pos hp]
      simp only [List.mem_append, List.mem_singleton, ih]
      constructor
      · rintro (⟨w, hw, hs, hb⟩ | h)
        · refine ⟨c :: w, ?_, by simp [hs], by simp [hb]⟩
          intro x hx
          rcases List.mem_cons.1 hx with hx | hx
          · rw [hx]; exact hp
          · exact hw x hx
        · exact ⟨[], by simp, by simp [h], by simp [h]⟩
      · rintro ⟨w, hw, hs, hb⟩
        cases w with
        | nil =>
          right
          exact Prod.ext (by simpa using hb) (by simpa using hs.symm)
        | cons x w =>
          left
          simp only [List.cons_append, List.cons.injEq] at hs
          obtain ⟨hx, hs⟩ := hs
          subst hx
          refine ⟨w, fun y hy => hw y (List.mem_cons_of_mem _ hy), hs, ?_⟩
          simpa using hb
    · rw [if_neg hp, List.mem_singleton]
      constructor
      · intro h
        exact ⟨[], by simp, by simp [h], by simp [h]⟩
      · rintro ⟨w, hw, hs, hb⟩
        cases w with
        | nil => exact Prod.ext (by simpa using hb) (by simpa using hs.symm)
        | cons x w =>
          simp only [List.cons_append, List.cons.injEq] at hs
          exact absurd (hs.1 ▸ hw x (List.mem_cons_self _ _)) hp

/-- The matcher enumerates exactly the matches of the declarative meaning. -/
theorem mem_ends_iff (r : Regex) (q e : Pos) : e ∈ r.ends q ↔ Matches r q e := by
  induction r generalizing q e with
  | empty => simp [Regex.ends, Matches]
  | cls p =>
    obtain ⟨b, s⟩ := q
    cases s with
    | nil => simp [Regex.ends, Matches]
    | cons c t =>
      simp only [Regex.ends, Matches]
      constructor
      · intro h
        by_cases hp : p c = true
        · simp only [hp, if_true, List.mem_singleton] at h
          exact ⟨c, hp, by simp [h], by simp [h]⟩
        · simp [hp] at h
      · rintro ⟨x, hx, h2, h1⟩
        simp only [List.cons.injEq] at h2
        obtain ⟨hcx, ht⟩ := h2
        subst hcx
        simp only [hx, if_true, List.mem_singleton]
        exact Prod.ext h1 ht.symm
  | seq a b iha ihb =>
    simp only [Regex.ends, Matches, List.mem_flatMap]
    constructor
    · rintro ⟨m, hm, he⟩
      exact ⟨m, (iha q m).1 hm, (ihb m e).1 he⟩
    · rintro ⟨m, hm, he⟩
      exact ⟨m, (iha q m).2 hm, (ihb m e).2 he⟩
  | alt a b iha ihb =>
    simp only [Regex.ends, Matches, List.mem_append, iha, ihb]
  | opt a iha =>
    simp only [Regex.ends, Matches, List.mem_append, List.mem_singleton, iha]
  | star p =>
    simp only [Regex.ends, Matches]
    exact mem_starEnds_iff p q.2 q.1 e
  | look c =>
    simp only [Regex.ends, Matches]
    by_cases hc : c q = true
    · simp [hc]
    · simp [hc]

/-- A match consumes a part of what is ahead and moves it behind. -/
theorem matches_shape (r : Regex) (q e : Pos) (h : Matches r q e) :
    ∃ m : Str, q.2 = m ++ e.2 ∧ e.1 = m.reverse ++ q.1 := by
  induction r generalizing q e with
  | empty =>
    simp only [Matches] at h
    exact ⟨[], by simp [h], by simp [h]⟩
  | cls p =>
    obtain ⟨c, _, h2, h1⟩ := h
    exact ⟨[c], by simp [h2], by simp [h1]⟩
  | seq a b iha ihb =>
    obtain ⟨m, hm, he⟩ := h
    obtain ⟨w1, h12, h11⟩ := iha q m hm
    obtain ⟨w2, h22, h21⟩ := ihb m e he
    exact ⟨w1 ++ w2, by simp [h12, h22], by simp [h11, h21]⟩
  | alt a b iha ihb =>
    rcases h with h | h
    · exact iha q e h
    · exact ihb q e h
  | opt a iha =>
    rcases h with h | h
    · exact iha q e h
    · exact ⟨[], by simp [h], by simp [h]⟩
  | star p =>
    obtain ⟨w, _, h2, h1⟩ := h
    exact ⟨w, h2, h1⟩
  | look c =>
    simp only [Matches] at h
    exact ⟨[], by simp [h.1], by simp [h.1]⟩

theorem searchFrom_none_iff {α : Type} (F : Pos → Option α) (s b : Str) :
    searchFrom F b s = none ↔
      ∀ pre t : Str, s = pre ++ t → F (pre.reverse ++ b, t) = none := by
  induction s generalizing b with
  | nil =>
    simp only [searchFrom, Option.map_eq_none']
    constructor
    · intro h pre t hs
      have h1 : pre = [] ∧ t = [] := by simpa using hs.symm
      rw [h1.1, h1.2]
      simpa using h
    · intro h
      simpa using h [] [] rfl
  | cons c t ih =>
    unfold searchFrom
    cases hh : F (b, c :: t) with
    | some a0 =>
      constructor
      · intro h
        exact Option.noConfusion h
      · intro h
        have := h [] (c :: t) rfl
        simp only [List.reverse_nil, List.nil_append] at this
        rw [this] at hh
        exact Option.noConfusion hh
    | none =>
      simp only [ih]
      constructor
      · intro h pre u hs
        cases pre with
        | nil =>
          simp only [List.nil_append] at hs
          subst hs
          simpa using hh
        | cons x pre =>
          simp only [List.cons_append, List.cons.injEq] at hs
          obtain ⟨hx, hs⟩ := hs
          subst hx
          have := h pre u hs
          simpa using this
      · intro h pre u hs
        have := h (c :: pre) u (by simp [hs])
        simpa using this

theorem searchFrom_some {α : Type} (F : Pos → Option α) (s b : Str) (st : Pos) (a : α)
    (h : searchFrom F b s = some (st, a)) :
    ∃ pre t : Str, s = pre ++ t ∧ st = (pre.reverse ++ b, t) ∧ F st = some a ∧
      ∀ pre' t' : Str, s = pre' ++ t' → pre'.length < pre.length →
        F (pre'.reverse ++ b, t') = none := by
  induction s generalizing b with
  | nil =>
    simp only [searchFrom, Option.map_eq_some'] at h
    obtain ⟨a0, ha0, heq⟩ := h
    simp only [Prod.mk.injEq] at heq
    refine ⟨[], [], rfl, by simp [heq.1], by rw [← heq.1, ← heq.2]; exact ha0, ?_⟩
    intro pre' t' _ hlt
    simp at hlt
  | cons c t ih =>
    unfold searchFrom at h
    cases hh : F (b, c :: t) with
    | some a0 =>
      rw [hh] at h
      simp only [Option.some.injEq, Prod.mk.injEq] at h
      refine ⟨[], c :: t, rfl, by simp [h.1], by rw [← h.1, ← h.2]; exact hh, ?_⟩
      intro pre' t' _ hlt
      simp at hlt
    | none =>
      rw [hh] at h
      simp only at h
      obtain ⟨pre, u, hs, hst, hF, hleft⟩ := ih (c :: b) h
      refine ⟨c :: pre, u, by simp [hs], by simp [hst], hF, ?_⟩
      intro pre' t' hs' hlt
      cases pre' with
      | nil =>
        simp only [List.nil_append] at hs'
        subst hs'
        simpa using hh
      | cons x pre' =>
        simp only [List.cons_append, List.cons.injEq] at hs'
        obtain ⟨hx, hs'⟩ := hs'
        subst hx
        have := hleft pre' t' hs' (by simpa using hlt)
        simpa using this

theorem findFrom_none_iff (r : Regex) (s b : Str) :
    findFrom r b s = none ↔
      ∀ pre t : Str, s = pre ++ t → r.ends (pre.reverse ++ b, t) = [] := by
  unfold findFrom
  rw [searchFrom_none_iff]
  simp only [List.head?_eq_none_iff]

theorem findFrom_some (r : Regex) (s b : Str) (st en : Pos)
    (h : findFrom r b s = some (st, en)) :
    ∃ pre t : Str, s = pre ++ t ∧ st = (pre.reverse ++ b, t) ∧
      (r.ends st).head? = some en ∧
      ∀ pre' t' : Str, s = pre' ++ t' → pre'.length < pre.length →
        r.ends (pre'.reverse ++ b, t') = [] := by
  obtain ⟨pre, t, hs, hst, hF, hleft⟩ := searchFrom_some _ s b st en h
  refine ⟨pre, t, hs, hst, hF, ?_⟩
  intro pre' t' hs' hlt
  exact List.head?_eq_none_iff.1 (hleft pre' t' hs' hlt)

theorem matchString_iff (r : Regex) (f : Str) :
    matchString r f = true ↔
      ∃ pre t : Str, ∃ e : Pos, f = pre ++ t ∧ Matches r (pre.reverse, t) e := by
  unfold matchString findIndex
  constructor
  · intro h
    cases hf : findFrom r [] f with
    | none => rw [hf] at h; simp at h
    | some se =>
      obtain ⟨st, en⟩ := se
      obtain ⟨pre, t, hs, hst, hhead, _⟩ := findFrom_some r f [] st en hf
      refine ⟨pre, t, en, hs, ?_⟩
      have hmem : en ∈ r.ends st := List.mem_of_mem_head? hhead
      rw [hst] at hmem
      simpa using (mem_ends_iff r _ _).1 hmem
  · rintro ⟨pre, t, e, hs, hm⟩
    cases hf : findFrom r [] f with
    | some se => simp
    | none =>
      have := (findFrom_none_iff r f []).1 hf pre t hs
      have hmem : e ∈ r.ends (pre.reverse ++ [], t) := by
        simpa using (mem_ends_iff r _ _).2 hm
      rw [this] at hmem
      simp at hmem

theorem matches_lit (s : Str) (q e : Pos) :
    Matches (Regex.lit s) q e ↔ q.2 = s ++ e.2 ∧ e.1 = s.reverse ++ q.1 := by
  induction s generalizing q with
  | nil =>
    simp only [Regex.lit, Matches, List.nil_append, List.reverse_nil]
    constructor
    · intro h; rw [h]; exact ⟨rfl, rfl⟩
    · rintro ⟨h2, h1⟩; exact Prod.ext h1 h2.symm
  | cons c t ih =>
    simp only [Regex.lit, Matches, ih]
    constructor
    · rintro ⟨m, ⟨x, hx, h2, h1⟩, h4, h3⟩
      have hxc : x = c := by simpa using hx
      subst hxc
      refine ⟨by rw [h2, h4]; rfl, ?_⟩
      rw [h3, h1]; simp
    · rintro ⟨h2, h1⟩
      refine ⟨(c :: q.1, t ++ e.2), ⟨c, by simp, by simpa using h2, rfl⟩, rfl, ?_⟩
      rw [h1]; simp

theorem matches_rep (p : Char → Bool) (n : Nat) (q e : Pos) :
    Matches (Regex.rep p n) q e ↔
      ∃ w : Str, w.length = n ∧ (∀ c ∈ w, p c = true) ∧
        q.2 = w ++ e.2 ∧ e.1 = w.reverse ++ q.1 := by
  induction n generalizing q with
  | zero =>
    simp only [Regex.rep, Matches]
    constructor
    · intro h; rw [h]; exact ⟨[], rfl, by simp, rfl, rfl⟩
    · rintro ⟨w, hw, _, h2, h1⟩
      have : w = [] := List.length_eq_zero.1 hw
      subst this
      exact Prod.ext (by simpa using h1) (by simpa using h2.symm)
  | succ n ih =>
    simp only [Regex.rep, Matches, ih]
    constructor
    · rintro ⟨m, ⟨x, hx, h2, h1⟩, w, hw, hall, h4, h3⟩
      refine ⟨x :: w, by simp [hw], ?_, by rw [h2, h4]; rfl, by rw [h3, h1]; simp⟩
      intro c hc
      rcases List.mem_cons.1 hc with hc | hc
      · rw [hc]; exact hx
      · exact hall c hc
    · rintro ⟨w, hw, hall, h2, h1⟩
      cases w with
      | nil => simp at hw
      | cons x w =>
        refine ⟨(x :: q.1, w ++ e.2), ⟨x, hall x (List.mem_cons_self _ _), by simpa using h2, rfl⟩,
          w, by simpa using hw, fun c hc => hall c (List.mem_cons_of_mem _ hc), rfl, ?_⟩
        rw [h1]; simp

theorem matches_shardRE (q e : Pos) :
    Matches shardRE q e ↔
      ∃ d1 d2 : Str, d1.length = 5 ∧ d2.length = 5 ∧
        (∀ c ∈ d1, c.isDigit = true) ∧ (∀ c ∈ d2, c.isDigit = true) ∧
        q.2 = '-' :: d1 ++ "-of-".toList ++ d2 ++ e.2 ∧
        e.1 = ('-' :: d1 ++ "-of-".toList ++ d2).reverse ++ q.1 := by
  unfold shardRE
  constructor
  · intro h
    obtain ⟨m1, hc, m2, hr1, m3, hl, hr2⟩ := h
    obtain ⟨x, hx, h2, h1⟩ := hc
    obtain ⟨d1, hl1, hd1, h4, h3⟩ := (matches_rep _ _ _ _).1 hr1
    obtain ⟨h6, h5⟩ := (matches_lit _ _ _).1 hl
    obtain ⟨d2, hl2, hd2, h8, h7⟩ := (matches_rep _ _ _ _).1 hr2
    have hxc : x = '-' := by simpa using hx
    subst hxc
    refine ⟨d1, d2, hl1, hl2, hd1, hd2, ?_, ?_⟩
    · rw [h2, h4, h6, h8]; simp
    · rw [h7, h5, h3, h1]; simp
  · rintro ⟨d1, d2, hl1, hl2, hd1, hd2, h2, h1⟩
    refine ⟨('-' :: q.1, d1 ++ "-of-".toList ++ d2 ++ e.2), ⟨'-', by simp, by simpa using h2, rfl⟩,
      (d1.reverse ++ '-' :: q.1, "-of-".toList ++ d2 ++ e.2),
      (matches_rep _ _ _ _).2 ⟨d1, hl1, hd1, by simp, rfl⟩,
      ("-of-".toList.reverse ++ (d1.reverse ++ '-' :: q.1), d2 ++ e.2),
      (matches_lit _ _ _).2 ⟨by simp, rfl⟩,
      (matches_rep _ _ _ _).2 ⟨d2, hl2, hd2, rfl, ?_⟩⟩
    rw [h1]; simp

/-! ## Shard markers: `filterSharded` -/

theorem filterSharded_eq_true_iff (f : Str) :
    filterSharded f = true ↔ ShardMarker f := by
  unfold filterSharded ShardMarker
  rw [matchString_iff]
  constructor
  · rintro ⟨pre, t, e, hf, hm⟩
    obtain ⟨d1, d2, hl1, hl2, hd1, hd2, h2, _⟩ := (matches_shardRE _ _).1 hm
    refine ⟨pre, d1, d2, e.2, ?_, hl1, hl2, hd1, hd2⟩
    rw [hf]
    simp only at h2
    rw [h2]
    simp
  · rintro ⟨pre, d1, d2, post, hf, hl1, hl2, hd1, hd2⟩
    refine ⟨pre, ('-' :: d1 ++ "-of-".toList ++ d2) ++ post,
      (('-' :: d1 ++ "-of-".toList ++ d2).reverse ++ pre.reverse, post), ?_, ?_⟩
    · rw [hf]; simp
    · exact (matches_shardRE _ _).2 ⟨d1, d2, hl1, hl2, hd1, hd2, rfl, rfl⟩

theorem exactShardMarker_iff (f : Str) :
    ExactShardMarker f ↔ matchString shardExactRE f = true := by
  unfold ExactShardMarker
  rw [matchString_iff]
  constructor
  · rintro ⟨pre, d1, d2, post, hf, hl1, hl2, hd1, hd2, hpost⟩
    refine ⟨pre, ('-' :: d1 ++ "-of-".toList ++ d2) ++ post,
      (('-' :: d1 ++ "-of-".toList ++ d2).reverse ++ pre.reverse, post), ?_, ?_⟩
    · rw [hf]; simp
    · refine ⟨(('-' :: d1 ++ "-of-".toList ++ d2).reverse ++ pre.reverse, post),
        (matches_shardRE _ _).2 ⟨d1, d2, hl1, hl2, hd1, hd2, rfl, rfl⟩, rfl, ?_⟩
      simp [hpost]
  · rintro ⟨pre, t, e, hf, m, hm, he, hlook⟩
    obtain ⟨d1, d2, hl1, hl2, hd1, hd2, h2, _⟩ := (matches_shardRE _ _).1 hm
    refine ⟨pre, d1, d2, m.2, ?_, hl1, hl2, hd1, hd2, by simpa using hlook⟩
    rw [hf]
    simp only at h2
    rw [h2]
    simp

/-- C9 (as stated, refuted): `model-00001-of-000031.gguf` is flagged as a shard
although its second number is part of a run of six digits. -/
theorem filterSharded_not_exact_five :
    filterSharded "model-00001-of-000031.gguf".toList = true ∧
    ¬ ExactShardMarker "model-00001-of-000031.gguf".toList := by
  refine ⟨by decide, ?_⟩
  rw [exactShardMarker_iff]
  decide

/-- C9 (amended): `filterSharded` returns true exactly when the name contains a
`-`, five decimal digits, `-of-` and five decimal digits; the first number then has
exactly five digits, while the second may be followed by further digits.  The three
names of the test suite are classified as the test expects. -/
theorem filterSharded_iff :
    (∀ f : Str, filterSharded f = true ↔
      ∃ pre d1 d2 post : Str, f = pre ++ ('-' :: d1 ++ "-of-".toList ++ d2) ++ post ∧
        d1.length = 5 ∧ d2.length = 5 ∧
        (∀ c ∈ d1, c.isDigit = true) ∧ (∀ c ∈ d2, c.isDigit = true)) ∧
    filterSharded "model-00001-of-00003.gguf".toList = true ∧
    filterSharded "model-00002-of-00010.gguf".toList = true ∧
    filterSharded "model-Q4_K_M.gguf".toList = false :=
  ⟨fun f => filterSharded_eq_true_iff f, by decide, by decide, by decide⟩

/-! ## Greedy matches are the longest -/

theorem dropWhile_length_le (p : Char → Bool) (l : Str) :
    (l.dropWhile p).length ≤ l.length :=
  (List.dropWhile_sublist p).length_le

theorem starEnds_ne_nil (p : Char → Bool) (s b : Str) : starEnds p b s ≠ [] := by
  cases s with
  | nil => simp [starEnds]
  | cons c t =>
    unfold starEnds
    split <;> simp

theorem starEnds_head (p : Char → Bool) (s b : Str) (h : Pos)
    (hh : (starEnds p b s).head? = some h) : h.2 = s.dropWhile p := by
  induction s generalizing b with
  | nil =>
    simp only [starEnds, List.head?_cons, Option.some.injEq] at hh
    rw [← hh]; rfl
  | cons c t ih =>
    unfold starEnds at hh
    by_cases hp : p c = true
    · rw [if_pos hp] at hh
      rw [List.head?_append_of_ne_nil _ (starEnds_ne_nil p t (c :: b))] at hh
      rw [ih (c :: b) hh]
      simp [List.dropWhile_cons, hp]
    · rw [if_neg hp] at hh
      simp only [List.head?_cons, Option.some.injEq] at hh
      rw [← hh]
      simp [List.dropWhile_cons, hp]

theorem starEnds_len (p : Char → Bool) (s b : Str) (e : Pos) (he : e ∈ starEnds p b s) :
    (s.dropWhile p).length ≤ e.2.length := by
  induction s generalizing b with
  | nil =>
    simp [List.dropWhile]
  | cons c t ih =>
    unfold starEnds at he
    by_cases hp : p c = true
    · rw [if_pos hp] at he
      rcases List.mem_append.1 he with h | h
      · have := ih (c :: b) h
        simpa [List.dropWhile_cons, hp] using this
      · rw [List.mem_singleton] at h
        rw [h]
        simp only [List.dropWhile_cons, hp, if_true, List.length_cons]
        have := dropWhile_length_le p t
        omega
    · rw [if_neg hp, List.mem_singleton] at he
      rw [he]
      simp [List.dropWhile_cons, hp]

theorem ends_cls_seq_nil (p : Char → Bool) (r : Regex) (b : Str) :
    (Regex.seq (.cls p) r).ends (b, []) = [] := by
  simp [Regex.ends]

theorem ends_cls_seq_cons (p : Char → Bool) (r : Regex) (b : Str) (c : Char) (t : Str) :
    (Regex.seq (.cls p) r).ends (b, c :: t) = if p c then r.ends (c :: b, t) else [] := by
  simp only [Regex.ends]
  split <;> simp

theorem ends_opt_cls_nil (p : Char → Bool) (b : Str) :
    (Regex.opt (.cls p)).ends (b, []) = [(b, [])] := by
  simp [Regex.ends]

theorem ends_opt_cls_cons (p : Char → Bool) (b : Str) (c : Char) (t : Str) :
    (Regex.opt (.cls p)).ends (b, c :: t) =
      if p c then [(c :: b, t), (b, c :: t)] else [(b, c :: t)] := by
  simp only [Regex.ends]
  split <;> simp

/-- Ends of `_?[A-Za-z0-9]*`. -/
theorem ends_underscore_alnum (b X : Str) :
    (Regex.seq (.opt (.cls isUnderscoreRE)) (.star isAlnumRE)).ends (b, X) =
      match X with
      | [] => [(b, [])]
      | y :: Y => if y = '_' then starEnds isAlnumRE (y :: b) Y ++ [(b, y :: Y)]
          else starEnds isAlnumRE b (y :: Y) := by
  cases X with
  | nil => simp [Regex.ends, starEnds]
  | cons y Y =>
    by_cases hy : y = '_'
    · subst hy
      simp [Regex.ends, isUnderscoreRE, starEnds, isAlnumRE]
    · simp [Regex.ends, isUnderscoreRE, hy]

theorem ends_underscore_alnum_ne_nil (b X : Str) :
    (Regex.seq (.opt (.cls isUnderscoreRE)) (.star isAlnumRE)).ends (b, X) ≠ [] := by
  rw [ends_underscore_alnum]
  cases X with
  | nil => simp
  | cons y Y =>
    simp only
    split
    · simp
    · exact starEnds_ne_nil _ _ _

theorem underscore_alnum_head (b X : Str) (h : Pos)
    (hh : ((Regex.seq (.opt (.cls isUnderscoreRE)) (.star isAlnumRE)).ends (b, X)).head?
      = some h) :
    h.2 = (dropOne isUnderscoreRE X).dropWhile isAlnumRE := by
  rw [ends_underscore_alnum] at hh
  cases X with
  | nil =>
    simp only [List.head?_cons, Option.some.injEq] at hh
    rw [← hh]; rfl
  | cons y Y =>
    simp only at hh
    by_cases hy : y = '_'
    · rw [if_pos hy, List.head?_append_of_ne_nil _ (starEnds_ne_nil _ _ _)] at hh
      rw [starEnds_head _ _ _ _ hh]
      simp [dropOne, isUnderscoreRE, hy]
    · rw [if_neg hy] at hh
      rw [starEnds_head _ _ _ _ hh]
      simp [dropOne, isUnderscoreRE, hy]

theorem underscore_alnum_len (b X : Str) (e : Pos)
    (he : e ∈ (Regex.seq (.opt (.cls isUnderscoreRE)) (.star isAlnumRE)).ends (b, X)) :
    ((dropOne isUnderscoreRE X).dropWhile isAlnumRE).length ≤ e.2.length := by
  rw [ends_underscore_alnum] at he
  cases X with
  | nil =>
    simp [dropOne]
  | cons y Y =>
    simp only at he
    by_cases hy : y = '_'
    · rw [if_pos hy] at he
      have hd : dropOne isUnderscoreRE (y :: Y) = Y := by simp [dropOne, isUnderscoreRE, hy]
      rw [hd]
      rcases List.mem_append.1 he with h | h
      · exact starEnds_len _ _ _ _ h
      · rw [List.mem_singleton] at h
        rw [h]
        have := dropWhile_length_le isAlnumRE Y
        simp only [List.length_cons]
        omega
    · rw [if_neg hy] at he
      have hd : dropOne isUnderscoreRE (y :: Y) = y :: Y := by
        simp [dropOne, isUnderscoreRE, hy]
      rw [hd]
      exact starEnds_len _ _ _ _ he

theorem ends_quantTail (b X : Str) :
    quantTail.ends (b, X) =
      match X with
      | [] => (Regex.seq (.opt (.cls isUnderscoreRE)) (.star isAlnumRE)).ends (b, [])
      | x :: X1 =>
        if isKRE x then
          (Regex.seq (.opt (.cls isUnderscoreRE)) (.star isAlnumRE)).ends (x :: b, X1) ++
          (Regex.seq (.opt (.cls isUnderscoreRE)) (.star isAlnumRE)).ends (b, x :: X1)
        else (Regex.seq (.opt (.cls isUnderscoreRE)) (.star isAlnumRE)).ends (b, x :: X1) := by
  unfold quantTail
  cases X with
  | nil =>
    show ((Regex.opt (.cls isKRE)).ends (b, [])).flatMap _ = _
    rw [ends_opt_cls_nil]
    simp
  | cons x X1 =>
    show ((Regex.opt (.cls isKRE)).ends (b, x :: X1)).flatMap _ = _
    rw [ends_opt_cls_cons]
    by_cases hk : isKRE x = true
    · simp [hk]
    · simp [hk]

theorem isKRE_alnum (x : Char) (hk : isKRE x = true) :
    isAlnumRE x = true ∧ isUnderscoreRE x = false := by
  have : x = 'K' ∨ x = 'k' := by simpa [isKRE] using hk
  rcases this with h | h <;> subst h <;> decide

theorem quantTail_head (b X : Str) (h : Pos) (hh : (quantTail.ends (b, X)).head? = some h) :
    h.2 = greedyTailRest X := by
  rw [ends_quantTail] at hh
  unfold greedyTailRest
  cases X with
  | nil =>
    simp only at hh
    rw [underscore_alnum_head _ _ _ hh]
    rfl
  | cons x X1 =>
    simp only at hh
    by_cases hk : isKRE x = true
    · rw [if_pos hk, List.head?_append_of_ne_nil _ (ends_underscore_alnum_ne_nil _ _)] at hh
      rw [underscore_alnum_head _ _ _ hh]
      simp [dropOne, hk]
    · rw [if_neg hk] at hh
      rw [underscore_alnum_head _ _ _ hh]
      simp [dropOne, hk]

theorem quantTail_len (b X : Str) (e : Pos) (he : e ∈ quantTail.ends (b, X)) :
    (greedyTailRest X).length ≤ e.2.length := by
  rw [ends_quantTail] at he
  unfold greedyTailRest
  cases X with
  | nil =>
    simp only at he
    exact underscore_alnum_len _ _ _ he
  | cons x X1 =>
    simp only at he
    by_cases hk : isKRE x = true
    · rw [if_pos hk] at he
      have hd : dropOne isKRE (x :: X1) = X1 := by simp [dropOne, hk]
      rw [hd]
      rcases List.mem_append.1 he with h | h
      · exact underscore_alnum_len _ _ _ h
      · have h1 := underscore_alnum_len _ _ _ h
        obtain ⟨ha, hu⟩ := isKRE_alnum x hk
        have h2 : (dropOne isUnderscoreRE (x :: X1)).dropWhile isAlnumRE
            = X1.dropWhile isAlnumRE := by
          simp [dropOne, hu, List.dropWhile_cons, ha]
        rw [h2] at h1
        refine le_trans ?_ h1
        cases X1 with
        | nil => simp [dropOne]
        | cons y Y =>
          by_cases hy : isUnderscoreRE y = true
          · have hya : isAlnumRE y = false := by
              have : y = '_' := by simpa [isUnderscoreRE] using hy
              subst this; decide
            have := dropWhile_length_le isAlnumRE Y
            simp only [dropOne, hy, if_true, List.dropWhile_cons, hya, List.length_cons]
            simp only [Bool.false_eq_true, if_false, List.length_cons]
            omega
          · simp [dropOne, hy]
    · rw [if_neg hk] at he
      have hd : dropOne isKRE (x :: X1) = x :: X1 := by simp [dropOne, hk]
      rw [hd]
      exact underscore_alnum_len _ _ _ he

/-! ## Languages of assertion-free patterns -/

theorem matches_iff_lang (r : Regex) (hr : r.lookFree) (q e : Pos) :
    Matches r q e ↔ ∃ m : Str, Lang r m ∧ q.2 = m ++ e.2 ∧ e.1 = m.reverse ++ q.1 := by
  induction r generalizing q e with
  | empty =>
    simp only [Matches, Lang]
    constructor
    · intro h; rw [h]; exact ⟨[], rfl, rfl, rfl⟩
    · rintro ⟨m, hm, h2, h1⟩
      subst hm
      exact Prod.ext (by simpa using h1) (by simpa using h2.symm)
  | cls p =>
    simp only [Matches, Lang]
    constructor
    · rintro ⟨c, hc, h2, h1⟩
      exact ⟨[c], ⟨c, hc, rfl⟩, by simpa using h2, by simpa using h1⟩
    · rintro ⟨m, ⟨c, hc, hm⟩, h2, h1⟩
      subst hm
      exact ⟨c, hc, by simpa using h2, by simpa using h1⟩
  | seq a b iha ihb =>
    simp only [Matches, Lang]
    constructor
    · rintro ⟨m, hm, he⟩
      obtain ⟨m1, hl1, h12, h11⟩ := (iha hr.1 q m).1 hm
      obtain ⟨m2, hl2, h22, h21⟩ := (ihb hr.2 m e).1 he
      exact ⟨m1 ++ m2, ⟨m1, m2, rfl, hl1, hl2⟩, by rw [h12, h22]; simp,
        by rw [h21, h11]; simp⟩
    · rintro ⟨m, ⟨m1, m2, hm, hl1, hl2⟩, h2, h1⟩
      subst hm
      refine ⟨(m1.reverse ++ q.1, m2 ++ e.2), (iha hr.1 _ _).2 ⟨m1, hl1, by simpa using h2, rfl⟩,
        (ihb hr.2 _ _).2 ⟨m2, hl2, rfl, by rw [h1]; simp⟩⟩
  | alt a b iha ihb =>
    simp only [Matches, Lang, iha hr.1, ihb hr.2]
    constructor
    · rintro (⟨m, hm, h⟩ | ⟨m, hm, h⟩)
      · exact ⟨m, Or.inl hm, h⟩
      · exact ⟨m, Or.inr hm, h⟩
    · rintro ⟨m, hm | hm, h⟩
      · exact Or.inl ⟨m, hm, h⟩
      · exact Or.inr ⟨m, hm, h⟩
  | opt a iha =>
    simp only [Matches, Lang, iha hr]
    constructor
    · rintro (⟨m, hm, h⟩ | h)
      · exact ⟨m, Or.inl hm, h⟩
      · rw [h]; exact ⟨[], Or.inr rfl, rfl, rfl⟩
    · rintro ⟨m, hm | hm, h2, h1⟩
      · exact Or.inl ⟨m, hm, h2, h1⟩
      · subst hm
        exact Or.inr (Prod.ext (by simpa using h1) (by simpa using h2.symm))
  | star p =>
    simp only [Matches, Lang]
  | look c =>
    exact absurd hr (by simp [Regex.lookFree])

theorem matchesAt_iff_lang (r : Regex) (hr : r.lookFree) (pre m post : Str) :
    MatchesAt r pre m post ↔ Lang r m := by
  unfold MatchesAt
  rw [matches_iff_lang r hr]
  constructor
  · rintro ⟨m', hm', h2, _⟩
    have : m = m' := by simpa using h2
    rw [this]; exact hm'
  · intro h
    exact ⟨m, h, rfl, rfl⟩

theorem quantRE_lookFree : quantRE.lookFree := by
  simp [quantRE, quantAlt1, quantAlt2, quantTail, Regex.lookFree]

/-! ## Leftmost search and languages -/

theorem findIndex_none_lang (r : Regex) (hr : r.lookFree) (f : Str)
    (h : findIndex r f = none) :
    ∀ pre m post : Str, f = pre ++ m ++ post → ¬ Lang r m := by
  intro pre m post hf hl
  have h0 := (findFrom_none_iff r f []).1 h pre (m ++ post) (by rw [hf]; simp)
  have hm : Matches r (pre.reverse, m ++ post) (m.reverse ++ pre.reverse, post) :=
    (matches_iff_lang r hr _ _).2 ⟨m, hl, rfl, rfl⟩
  have hmem := (mem_ends_iff r _ _).2 hm
  simp only [List.append_nil] at h0
  rw [h0] at hmem
  simp at hmem

theorem findIndex_some_lang (r : Regex) (hr : r.lookFree) (f : Str) (st en : Pos)
    (h : findIndex r f = some (st, en)) :
    ∃ pre m post : Str, f = pre ++ m ++ post ∧ st = (pre.reverse, m ++ post) ∧
      en = (m.reverse ++ pre.reverse, post) ∧ Lang r m ∧
      (r.ends st).head? = some en ∧
      (∀ pre' m' post' : Str, f = pre' ++ m' ++ post' → Lang r m' →
        pre.length ≤ pre'.length) := by
  obtain ⟨pre, t, hf, hst, hhead, hleft⟩ := findFrom_some r f [] st en h
  simp only [List.append_nil] at hst hleft
  have hmem : en ∈ r.ends st := List.mem_of_mem_head? hhead
  obtain ⟨m, hl, h2, h1⟩ := (matches_iff_lang r hr _ _).1 ((mem_ends_iff r _ _).1 hmem)
  rw [hst] at h2 h1
  simp only at h2 h1
  refine ⟨pre, m, en.2, by rw [hf, h2]; simp, by rw [hst, h2], Prod.ext h1 rfl, hl, hhead, ?_⟩
  intro pre' m' post' hf' hl'
  by_contra hlt
  have h0 := hleft pre' (m' ++ post') (by rw [hf']; simp) (not_le.1 hlt)
  have hm : Matches r (pre'.reverse, m' ++ post') (m'.reverse ++ pre'.reverse, post') :=
    (matches_iff_lang r hr _ _).2 ⟨m', hl', rfl, rfl⟩
  have hmem' := (mem_ends_iff r _ _).2 hm
  rw [h0] at hmem'
  simp at hmem'

/-! ## The quantization pattern -/

theorem quantAlt1_ends (b s : Str) :
    quantAlt1.ends (b, s) = [] ∨
      ∃ c : Char, ∃ t b' X : Str, s = c :: t ∧ isQRE c = true ∧
        quantAlt1.ends (b, s) = quantTail.ends (b', X) := by
  unfold quantAlt1
  cases s with
  | nil => left; exact ends_cls_seq_nil _ _ _
  | cons c0 s1 =>
    rw [ends_cls_seq_cons]
    by_cases h0 : isQRE c0 = true
    · rw [if_pos h0]
      cases s1 with
      | nil => left; exact ends_cls_seq_nil _ _ _
      | cons c1 s2 =>
        rw [ends_cls_seq_cons]
        by_cases h1 : isDigitRE c1 = true
        · rw [if_pos h1]
          cases s2 with
          | nil => left; exact ends_cls_seq_nil _ _ _
          | cons c2 s3 =>
            rw [ends_cls_seq_cons]
            by_cases h2 : isSepRE c2 = true
            · rw [if_pos h2]
              right
              exact ⟨c0, _, _, _, rfl, h0, rfl⟩
            · rw [if_neg h2]; left; rfl
        · rw [if_neg h1]; left; rfl
    · rw [if_neg h0]; left; rfl

theorem quantAlt2_ends (b s : Str) :
    quantAlt2.ends (b, s) = [] ∨
      ∃ t b' X : Str, s = 'I' :: t ∧
        quantAlt2.ends (b, s) = starEnds isAlnumRE b' X := by
  unfold quantAlt2
  cases s with
  | nil => left; exact ends_cls_seq_nil _ _ _
  | cons c0 s1 =>
    rw [ends_cls_seq_cons]
    by_cases h0 : (c0 == 'I') = true
    · rw [if_pos h0]
      have hc0 : c0 = 'I' := by simpa using h0
      cases s1 with
      | nil => left; exact ends_cls_seq_nil _ _ _
      | cons c1 s2 =>
        rw [ends_cls_seq_cons]
        by_cases h1 : (c1 == 'Q') = true
        · rw [if_pos h1]
          cases s2 with
          | nil => left; exact ends_cls_seq_nil _ _ _
          | cons c2 s3 =>
            rw [ends_cls_seq_cons]
            by_cases h2 : isDigitRE c2 = true
            · rw [if_pos h2]
              cases s3 with
              | nil => left; exact ends_cls_seq_nil _ _ _
              | cons c3 s4 =>
                rw [ends_cls_seq_cons]
                by_cases h3 : isSepRE c3 = true
                · rw [if_pos h3]
                  right
                  exact ⟨_, _, _, by rw [hc0], rfl⟩
                · rw [if_neg h3]; left; rfl
            · rw [if_neg h2]; left; rfl
        · rw [if_neg h1]; left; rfl
    · rw [if_neg h0]; left; rfl

/-- The match of `quantRE` preferred at a position is the longest one there. -/
theorem quantRE_head_longest (q h e : Pos) (hh : (quantRE.ends q).head? = some h)
    (he : e ∈ quantRE.ends q) : h.2.length ≤ e.2.length := by
  obtain ⟨b, s⟩ := q
  have hex : quantRE.ends (b, s) = quantAlt1.ends (b, s) ++ quantAlt2.ends (b, s) := rfl
  rw [hex] at hh he
  rcases quantAlt1_ends b s with h1 | ⟨c, t, b', X, hs, hc, h1⟩
  · rw [h1, List.nil_append] at hh he
    rcases quantAlt2_ends b s with h2 | ⟨t, b', X, _, h2⟩
    · rw [h2] at he; simp at he
    · rw [h2] at hh he
      rw [starEnds_head _ _ _ _ hh]
      exact starEnds_len _ _ _ _ he
  · have h2 : quantAlt2.ends (b, s) = [] := by
      rcases quantAlt2_ends b s with h2 | ⟨t', _, _, hs', _⟩
      · exact h2
      · rw [hs] at hs'
        simp only [List.cons.injEq] at hs'
        rw [hs'.1] at hc
        exact absurd hc (by decide)
    rw [h2, List.append_nil, h1] at hh he
    rw [quantTail_head _ _ _ hh]
    exact quantTail_len _ _ _ he

theorem lang_quantRE_head (m : Str) (h : Lang quantRE m) :
    ∃ c : Char, ∃ t : Str, m = c :: t ∧ (c = 'Q' ∨ c = 'q' ∨ c = 'I') := by
  rcases h with h | h
  · obtain ⟨m1, m2, hm, ⟨c, hc, hm1⟩, _⟩ := h
    refine ⟨c, m2, by rw [hm, hm1]; rfl, ?_⟩
    have : c = 'Q' ∨ c = 'q' := by simpa [isQRE] using hc
    rcases this with h | h
    · exact Or.inl h
    · exact Or.inr (Or.inl h)
  · obtain ⟨m1, m2, hm, ⟨c, hc, hm1⟩, _⟩ := h
    refine ⟨c, m2, by rw [hm, hm1]; rfl, ?_⟩
    have : c = 'I' := by simpa using hc
    exact Or.inr (Or.inr this)

/-- What `buildFilenameTemplate` does, in terms of the language of `quantRE`. -/
theorem buildFilenameTemplate_cases (f : Str) :
    (buildFilenameTemplate f = f ∧
      ∀ pre m post : Str, f = pre ++ m ++ post → ¬ Lang quantRE m) ∨
    (buildFilenameTemplate f ≠ f ∧
      ∃ pre m post : Str, f = pre ++ m ++ post ∧
        LeftmostLongest (Lang quantRE) pre m post ∧
        buildFilenameTemplate f = pre ++ "\x7bquant\x7d".toList ++ post) := by
  unfold buildFilenameTemplate
  cases hfi : findIndex quantRE f with
  | none =>
    left
    exact ⟨rfl, findIndex_none_lang quantRE quantRE_lookFree f hfi⟩
  | some se =>
    obtain ⟨st, en⟩ := se
    right
    obtain ⟨pre, m, post, hf, hst, hen, hl, hhead, hleft⟩ :=
      findIndex_some_lang quantRE quantRE_lookFree f st en hfi
    have hres : (match (some (st, en) : Option (Pos × Pos)) with
        | none => f
        | some (st, en) => st.1.reverse ++ "\x7bquant\x7d".toList ++ en.2)
        = pre ++ "\x7bquant\x7d".toList ++ post := by
      simp only [hst, hen, List.reverse_reverse]
    rw [hres]
    refine ⟨?_, pre, m, post, hf, ⟨hl, ?_, ?_⟩, rfl⟩
    · intro heq
      rw [hf] at heq
      have h1 : "\x7bquant\x7d".toList ++ post = m ++ post :=
        List.append_cancel_left (by simpa only [List.append_assoc] using heq)
      have hm : m = "\x7bquant\x7d".toList := (List.append_cancel_right h1).symm
      obtain ⟨c, t, hc, hq⟩ := lang_quantRE_head m hl
      rw [hm] at hc
      have hc' : c = Char.ofNat 123 := by
        have := congrArg List.head? hc
        simpa using this.symm
      rcases hq with h | h | h <;> rw [h] at hc' <;> exact absurd hc' (by decide)
    · intro pre' m' post' hf' hl'
      exact hleft pre' m' post' (by rw [hf, hf']) hl'
    · intro m' post' hmp hl'
      have hm : Matches quantRE (pre.reverse, m' ++ post') (m'.reverse ++ pre.reverse, post') :=
        (matches_iff_lang quantRE quantRE_lookFree _ _).2 ⟨m', hl', rfl, rfl⟩
      have hmem := (mem_ends_iff quantRE _ _).2 hm
      rw [← hmp, ← hst] at hmem
      have := quantRE_head_longest st en _ hhead hmem
      rw [hen] at this
      simp only at this
      have hlen := congrArg List.length hmp
      simp only [List.length_append] at hlen
      omega

/-- C7: `buildFilenameTemplate f` is `f` itself exactly when no part of `f` matches
`quantRE`; otherwise it is `pre ++ "{quant}" ++ post` where `f = pre ++ m ++ post`
and `m` is the leftmost match of `quantRE` in `f` (no match starts further left, and
`m` is the longest match starting there): the text around the one replaced span is
kept verbatim, also when further labels follow. -/
theorem buildFilenameTemplate_replaces_leftmost :
    (∀ f : Str,
      (buildFilenameTemplate f = f ∧
        ∀ pre m post : Str, f = pre ++ m ++ post → ¬ Lang quantRE m) ∨
      (buildFilenameTemplate f ≠ f ∧
        ∃ pre m post : Str, f = pre ++ m ++ post ∧
          LeftmostLongest (Lang quantRE) pre m post ∧
          buildFilenameTemplate f = pre ++ "\x7bquant\x7d".toList ++ post)) ∧
    buildFilenameTemplate "Qwen3-8B-Q4_K_M.gguf".toList
      = "Qwen3-8B-\x7bquant\x7d.gguf".toList ∧
    buildFilenameTemplate "noQuant.gguf".toList = "noQuant.gguf".toList ∧
    buildFilenameTemplate "m-Q4_0-Q8_0.gguf".toList
      = "m-\x7bquant\x7d-Q8_0.gguf".toList :=
  ⟨buildFilenameTemplate_cases, by decide, by decide, by decide⟩

/-! ## The label grammar of the specification -/

theorem quantLabel_of_lang (m : Str) (h : Lang quantRE m) : QuantLabel m := by
  rcases h with h | h
  · left
    obtain ⟨m1, r1, hm, ⟨q, hq, hm1⟩, m2, r2, hr1, ⟨d, hd, hm2⟩, m3, r3, hr2, ⟨s, hs, hm3⟩,
      k, r4, hr3, hk, u, w, hr4, hu, hw⟩ := h
    refine ⟨q, d, s, k, u, w, ?_, by simpa [isQRE] using hq, hd, ?_, ?_, ?_, hw⟩
    · rw [hm, hm1, hr1, hm2, hr2, hm3, hr3, hr4]; simp
    · have : s = '_' ∨ s = '.' := by simpa [isSepRE] using hs
      exact this.symm
    · rcases hk with ⟨c, hc, hk⟩ | hk
      · have : c = 'K' ∨ c = 'k' := by simpa [isKRE] using hc
        rcases this with h | h
        · right; left; rw [hk, h]
        · right; right; rw [hk, h]
      · left; exact hk
    · rcases hu with ⟨c, hc, hu⟩ | hu
      · have : c = '_' := by simpa [isUnderscoreRE] using hc
        right; rw [hu, this]
      · left; exact hu
  · right
    obtain ⟨m1, r1, hm, ⟨i, hi, hm1⟩, m2, r2, hr1, ⟨q, hq, hm2⟩, m3, r3, hr2, ⟨d, hd, hm3⟩,
      m4, w, hr3, ⟨s, hs, hm4⟩, hw⟩ := h
    refine ⟨i, q, d, s, w, ?_, Or.inl (by simpa using hi), Or.inl (by simpa using hq), hd, ?_, hw⟩
    · rw [hm, hm1, hr1, hm2, hr2, hm3, hr3, hm4]; simp
    · have : s = '_' ∨ s = '.' := by simpa [isSepRE] using hs
      exact this.symm

theorem lang_of_quantLabel (m : Str) (h : QuantLabel m)
    (hiq : ∀ (i q : Char) (t : Str), m = i :: q :: t → (i = 'I' ∨ i = 'i') →
      (q = 'Q' ∨ q = 'q') → i = 'I' ∧ q = 'Q') : Lang quantRE m := by
  rcases h with ⟨q, d, s, k, u, w, hm, hq, hd, hs, hk, hu, hw⟩ |
    ⟨i, q, d, s, w, hm, hi, hq, hd, hs, hw⟩
  · left
    refine ⟨[q], d :: s :: (k ++ u ++ w), by rw [hm]; rfl, ⟨q, by simpa [isQRE] using hq, rfl⟩,
      [d], s :: (k ++ u ++ w), rfl, ⟨d, hd, rfl⟩,
      [s], k ++ u ++ w, rfl, ⟨s, ?_, rfl⟩,
      k, u ++ w, by simp, ?_, u, w, rfl, ?_, hw⟩
    · have : s = '_' ∨ s = '.' := hs.symm
      simpa [isSepRE] using this
    · rcases hk with hk | hk | hk
      · right; exact hk
      · left; exact ⟨'K', by decide, hk⟩
      · left; exact ⟨'k', by decide, hk⟩
    · rcases hu with hu | hu
      · right; exact hu
      · left; exact ⟨'_', by decide, hu⟩
  · right
    obtain ⟨hI, hQ⟩ := hiq i q _ hm hi hq
    refine ⟨[i], q :: d :: s :: w, by rw [hm]; rfl, ⟨i, by simp [hI], rfl⟩,
      [q], d :: s :: w, rfl, ⟨q, by simp [hQ], rfl⟩,
      [d], s :: w, rfl, ⟨d, hd, rfl⟩,
      [s], w, rfl, ⟨s, ?_, rfl⟩, hw⟩
    have : s = '_' ∨ s = '.' := hs.symm
    simpa [isSepRE] using this

theorem hasMixedCaseIQ_false (f : Str) (h : hasMixedCaseIQ f = false) :
    ∀ (pre : Str) (i q : Char) (post : Str), f = pre ++ i :: q :: post →
      (i = 'I' ∨ i = 'i') → (q = 'Q' ∨ q = 'q') → i = 'I' ∧ q = 'Q' := by
  induction f with
  | nil =>
    intro pre i q post hf
    simp at hf
  | cons c t ih =>
    intro pre i q post hf hi hq
    unfold hasMixedCaseIQ at h
    rw [Bool.or_eq_false_iff] at h
    cases pre with
    | nil =>
      simp only [List.nil_append, List.cons.injEq] at hf
      obtain ⟨hc, ht⟩ := hf
      subst hc
      subst ht
      have h1 := h.1
      simp only at h1
      by_contra hne
      have hne' : (c == 'I' && q == 'Q') = false := by
        rw [Bool.and_eq_false_iff]
        by_cases hcI : c = 'I'
        · right
          by_cases hqQ : q = 'Q'
          · exact absurd ⟨hcI, hqQ⟩ hne
          · simpa using hqQ
        · left; simpa using hcI
      have hi' : (c == 'I' || c == 'i') = true := by simpa using hi
      have hq' : (q == 'Q' || q == 'q') = true := by simpa using hq
      rw [hi', hq', hne'] at h1
      exact absurd h1 (by decide)
    | cons x pre =>
      simp only [List.cons_append, List.cons.injEq] at hf
      exact ih h.2 pre i q post hf.2 hi hq

theorem quantLabel_iff_lang (f : Str) (hiq : hasMixedCaseIQ f = false)
    (pre m post : Str) (hf : f = pre ++ m ++ post) : QuantLabel m ↔ Lang quantRE m := by
  constructor
  · intro h
    apply lang_of_quantLabel m h
    intro i q t hm hi hq
    exact hasMixedCaseIQ_false f hiq pre i q (t ++ post) (by rw [hf, hm]; simp) hi hq
  · exact quantLabel_of_lang m

/-- C8 (as stated, refuted): `Q4K` is a label of the specification's grammar, whose
separator is optional, yet `Q4K.gguf` receives no placeholder. -/
theorem buildFilenameTemplate_spec_grammar_fails :
    "Q4K.gguf".toList = [] ++ "Q4K".toList ++ ".gguf".toList ∧
    SpecQuantLabel "Q4K".toList ∧
    buildFilenameTemplate "Q4K.gguf".toList = "Q4K.gguf".toList := by
  refine ⟨by decide, ?_, by decide⟩
  left
  exact ⟨'Q', '4', [], ['K'], [], [], by decide, Or.inl rfl, by decide, Or.inl rfl,
    Or.inr (Or.inl rfl), Or.inl rfl, by simp⟩

/-- C8 (amended): for a filename that spells `iq` only as upper-case `IQ`, the span
replaced by the placeholder is the first part of the name that is a label of the
specification's grammar with the separator after the digit mandatory (leftmost, and
longest at that place); a name without such a part is returned unchanged and a name
with one always receives the placeholder. -/
theorem buildFilenameTemplate_label_grammar (f : Str) (hiq : hasMixedCaseIQ f = false) :
    (buildFilenameTemplate f = f ∧
      ∀ pre m post : Str, f = pre ++ m ++ post → ¬ QuantLabel m) ∨
    (buildFilenameTemplate f ≠ f ∧
      ∃ pre m post : Str, f = pre ++ m ++ post ∧
        LeftmostLongest QuantLabel pre m post ∧
        buildFilenameTemplate f = pre ++ "\x7bquant\x7d".toList ++ post) := by
  rcases buildFilenameTemplate_cases f with ⟨heq, hno⟩ | ⟨hne, pre, m, post, hf, hll, hres⟩
  · left
    refine ⟨heq, ?_⟩
    intro pre m post hf hl
    exact hno pre m post hf ((quantLabel_iff_lang f hiq pre m post hf).1 hl)
  · right
    obtain ⟨hl, hleft, hlong⟩ := hll
    refine ⟨hne, pre, m, post, hf, ⟨(quantLabel_iff_lang f hiq pre m post hf).2 hl, ?_, ?_⟩, hres⟩
    · intro pre' m' post' hf' hl'
      exact hleft pre' m' post' hf'
        ((quantLabel_iff_lang f hiq pre' m' post' (by rw [hf, hf'])).1 hl')
    · intro m' post' hmp hl'
      exact hlong m' post' hmp
        ((quantLabel_iff_lang f hiq pre m' post'
          (by rw [hf, List.append_assoc, hmp, List.append_assoc])).1 hl')

theorem buildFilenameTemplate_label_grammar_witness :
    (buildFilenameTemplate "model-IQ2_M.gguf".toList = "model-IQ2_M.gguf".toList ∧
      ∀ pre m post : Str, "model-IQ2_M.gguf".toList = pre ++ m ++ post → ¬ QuantLabel m) ∨
    (buildFilenameTemplate "model-IQ2_M.gguf".toList ≠ "model-IQ2_M.gguf".toList ∧
      ∃ pre m post : Str, "model-IQ2_M.gguf".toList = pre ++ m ++ post ∧
        LeftmostLongest QuantLabel pre m post ∧
        buildFilenameTemplate "model-IQ2_M.gguf".toList
          = pre ++ "\x7bquant\x7d".toList ++ post) :=
  buildFilenameTemplate_label_grammar "model-IQ2_M.gguf".toList (by decide)

/-! ## Lemmas on `float64` rounding -/

theorem roundHalfEven_sub_le (q : ℚ) : |(roundHalfEven q : ℚ) - q| ≤ 1 / 2 := by
  have h1 := Int.floor_le q
  have h2 := Int.lt_floor_add_one q
  unfold roundHalfEven
  rw [abs_le]
  split_ifs <;> push_cast <;> constructor <;> linarith

theorem roundHalfEven_eq_of_near (q : ℚ) (m : ℤ) (h : |q - m| < 1 / 2) : roundHalfEven q = m := by
  have h1 := roundHalfEven_sub_le q
  have h2 : |((roundHalfEven q - m : ℤ) : ℚ)| < 1 := by
    push_cast
    calc |(roundHalfEven q : ℚ) - m| = |((roundHalfEven q : ℚ) - q) + (q - m)| := by ring_nf
      _ ≤ |(roundHalfEven q : ℚ) - q| + |q - m| := abs_add _ _
      _ < 1 := by linarith
  have h3 : |roundHalfEven q - m| < 1 := by exact_mod_cast h2
  have := Int.abs_lt_one_iff.1 h3
  omega

theorem roundHalfEven_eq_of_tie (q : ℚ) (m : ℤ) (hm : m % 2 = 0) (h : |q - m| ≤ 1 / 2) :
    roundHalfEven q = m := by
  rw [abs_le] at h
  by_cases h1 : q - m = 1 / 2
  · have hf : Int.floor q = m := by
      rw [Int.floor_eq_iff]
      constructor <;> linarith
    unfold roundHalfEven
    rw [hf, if_neg (by linarith), if_neg (by linarith), if_pos hm]
  · by_cases h2 : q - m = -(1 / 2)
    · have hf : Int.floor q = m - 1 := by
        rw [Int.floor_eq_iff]
        push_cast
        constructor <;> linarith
      unfold roundHalfEven
      rw [hf]
      push_cast
      rw [if_neg (by linarith), if_neg (by linarith), if_neg (by omega)]
      ring
    · apply roundHalfEven_eq_of_near
      rw [abs_lt]
      constructor
      · exact lt_of_le_of_ne h.1 (fun h' => h2 h'.symm)
      · exact lt_of_le_of_ne h.2 h1

theorem ulpExp_ge (x : ℚ) : -1074 ≤ ulpExp x := le_max_right _ _

theorem ulpExp_le (x : ℚ) (K : ℤ) (hK : -1022 ≤ K) (h0 : x ≠ 0) (hx : |x| ≤ (2 : ℚ) ^ K) :
    ulpExp x ≤ K - 52 := by
  unfold ulpExp
  apply max_le
  · have hpos : 0 < |x| := abs_pos.2 h0
    have : |x| < ((2 : ℕ) : ℚ) ^ (K + 1) := by
      have : (2 : ℚ) ^ K < (2 : ℚ) ^ (K + 1) := zpow_lt_zpow_right₀ (by norm_num) (by omega)
      push_cast
      linarith
    have := (Int.lt_zpow_iff_log_lt (by norm_num : 1 < 2) hpos).1 this
    omega
  · omega

theorem ofRat_zero : F64.ofRat 0 = F64.fin 0 := by
  unfold F64.ofRat
  have : roundHalfEven 0 = 0 := roundHalfEven_eq_of_near 0 0 (by norm_num)
  simp [this]
  positivity

theorem ofRat_error (x : ℚ) (K : ℤ) (hK1 : -1022 ≤ K) (hK2 : K ≤ 1023) (hx : |x| ≤ (2 : ℚ) ^ K) :
    ∃ y : ℚ, F64.ofRat x = F64.fin y ∧ |y - x| ≤ (2 : ℚ) ^ (K - 53) := by
  by_cases h0 : x = 0
  · subst h0
    exact ⟨0, ofRat_zero, by simp; positivity⟩
  · have he := ulpExp_le x K hK1 h0 hx
    have hpe : (0 : ℚ) < (2 : ℚ) ^ ulpExp x := by positivity
    have hr := roundHalfEven_sub_le (x / (2 : ℚ) ^ ulpExp x)
    have herr : |(roundHalfEven (x / (2 : ℚ) ^ ulpExp x) : ℚ) * (2 : ℚ) ^ ulpExp x - x|
        ≤ (2 : ℚ) ^ (K - 53) := by
      have e1 : (roundHalfEven (x / (2 : ℚ) ^ ulpExp x) : ℚ) * (2 : ℚ) ^ ulpExp x - x
          = ((roundHalfEven (x / (2 : ℚ) ^ ulpExp x) : ℚ) - x / (2 : ℚ) ^ ulpExp x)
            * (2 : ℚ) ^ ulpExp x := by
        field_simp
      rw [e1, abs_mul, abs_of_pos hpe]
      have e2 : (2 : ℚ) ^ (K - 53) = 1 / 2 * (2 : ℚ) ^ (K - 52) := by
        rw [show K - 52 = (K - 53) + 1 by ring, zpow_add_one₀ (by norm_num)]
        ring
      rw [e2]
      have e3 : (2 : ℚ) ^ ulpExp x ≤ (2 : ℚ) ^ (K - 52) := zpow_le_zpow_right₀ (by norm_num) he
      exact mul_le_mul hr e3 hpe.le (by norm_num)
    refine ⟨_, ?_, herr⟩
    unfold F64.ofRat
    rw [if_neg]
    rw [not_le]
    have hle : (2 : ℚ) ^ (K - 53) ≤ (2 : ℚ) ^ K := zpow_le_zpow_right₀ (by norm_num) (by omega)
    have h2 : (2 : ℚ) ^ K + (2 : ℚ) ^ (K - 53) < (2 : ℚ) ^ (1024 : ℤ) := by
      have e4 : (2 : ℚ) ^ (K + 1) = 2 * (2 : ℚ) ^ K := by
        rw [zpow_add_one₀ (by norm_num)]; ring
      have e5 : (2 : ℚ) ^ (K + 1) ≤ (2 : ℚ) ^ (1024 : ℤ) :=
        zpow_le_zpow_right₀ (by norm_num) (by omega)
      have e6 : (2 : ℚ) ^ (K - 53) < (2 : ℚ) ^ K := zpow_lt_zpow_right₀ (by norm_num) (by omega)
      linarith
    have := abs_sub_abs_le_abs_sub
      ((roundHalfEven (x / (2 : ℚ) ^ ulpExp x) : ℚ) * (2 : ℚ) ^ ulpExp x) x
    linarith

theorem ofRat_eq_of_near (x : ℚ) (m e : ℤ) (he1 : -1074 ≤ e) (he2 : e ≤ 970)
    (hlo : (2 : ℚ) ^ (e + 52) ≤ |x|) (hhi : |x| < (2 : ℚ) ^ (e + 53))
    (hr : roundHalfEven (x / (2 : ℚ) ^ e) = m) :
    F64.ofRat x = F64.fin ((m : ℚ) * (2 : ℚ) ^ e) := by
  have hnear : |x / (2 : ℚ) ^ e - m| ≤ 1 / 2 := by
    have := roundHalfEven_sub_le (x / (2 : ℚ) ^ e)
    rw [hr, abs_sub_comm] at this
    exact this
  have hpos : 0 < |x| := lt_of_lt_of_le (by positivity) hlo
  have hlog : Int.log 2 |x| = e + 52 := by
    apply le_antisymm
    · have hlt : |x| < ((2 : ℕ) : ℚ) ^ (e + 53) := by push_cast; exact hhi
      have := (Int.lt_zpow_iff_log_lt (by norm_num : 1 < 2) hpos).1 hlt
      omega
    · exact (Int.zpow_le_iff_le_log (by norm_num : 1 < 2) hpos).1 (by push_cast; exact hlo)
  have hu : ulpExp x = e := by
    unfold ulpExp
    rw [hlog]
    simp only [add_sub_cancel_right]
    exact max_eq_left he1
  have hpe : (0 : ℚ) < (2 : ℚ) ^ e := by positivity
  unfold F64.ofRat
  rw [hu, hr, if_neg]
  rw [not_le, abs_mul, abs_of_pos hpe]
  have h1 : |(m : ℚ)| ≤ (2 : ℚ) ^ (53 : ℤ) + 1 / 2 := by
    have h3 : |x / (2 : ℚ) ^ e| < (2 : ℚ) ^ (53 : ℤ) := by
      rw [abs_div, abs_of_pos hpe, div_lt_iff₀ hpe, ← zpow_add₀ (by norm_num)]
      rw [show (53 : ℤ) + e = e + 53 by ring]
      exact hhi
    have h4 := abs_sub_abs_le_abs_sub (m : ℚ) (x / (2 : ℚ) ^ e)
    rw [abs_sub_comm] at h4
    linarith
  have h2 : |(m : ℚ)| ≤ (2 : ℚ) ^ (53 : ℤ) := by
    have : |m| < 2 ^ 53 + 1 := by
      have : ((|m| : ℤ) : ℚ) < ((2 ^ 53 + 1 : ℤ) : ℚ) := by
        push_cast
        norm_num at h1 ⊢
        linarith
      exact_mod_cast this
    have : |m| ≤ 2 ^ 53 := by omega
    have : ((|m| : ℤ) : ℚ) ≤ ((2 ^ 53 : ℤ) : ℚ) := by exact_mod_cast this
    push_cast at this
    norm_num at this ⊢
    exact this
  calc |(m : ℚ)| * (2 : ℚ) ^ e ≤ (2 : ℚ) ^ (53 : ℤ) * (2 : ℚ) ^ e :=
        mul_le_mul_of_nonneg_right h2 hpe.le
    _ = (2 : ℚ) ^ (53 + e) := by rw [zpow_add₀ (by norm_num)]
    _ < (2 : ℚ) ^ (1024 : ℤ) := zpow_lt_zpow_right₀ (by norm_num) (by omega)

theorem roundHalfEven_ge (q : ℚ) (n : ℤ) (h : (n : ℚ) ≤ q) : n ≤ roundHalfEven q := by
  have h1 := roundHalfEven_sub_le q
  rw [abs_le] at h1
  have : (n : ℚ) - 1 < roundHalfEven q := by linarith
  have : n - 1 < roundHalfEven q := by exact_mod_cast this
  omega

theorem roundHalfEven_le (q : ℚ) (n : ℤ) (h : q ≤ (n : ℚ)) : roundHalfEven q ≤ n := by
  have h1 := roundHalfEven_sub_le q
  rw [abs_le] at h1
  have : (roundHalfEven q : ℚ) < n + 1 := by linarith
  have : roundHalfEven q < n + 1 := by exact_mod_cast this
  omega

theorem ofRat_overflow (x : ℚ) (hx : (2 : ℚ) ^ (1024 : ℤ) ≤ x) : F64.ofRat x = F64.inf false := by
  have hpos : 0 < x := lt_of_lt_of_le (by positivity) hx
  have habs : |x| = x := abs_of_pos hpos
  have hlog : (1024 : ℤ) ≤ Int.log 2 |x| := by
    rw [habs]
    exact (Int.zpow_le_iff_le_log (by norm_num : 1 < 2) hpos).1 (by push_cast; exact hx)
  have hu : ulpExp x = Int.log 2 |x| - 52 := by
    unfold ulpExp
    exact max_eq_left (by omega)
  have hpe : (0 : ℚ) < (2 : ℚ) ^ ulpExp x := by positivity
  have hself : (2 : ℚ) ^ (Int.log 2 |x|) ≤ x := by
    have := Int.zpow_log_le_self (by norm_num : 1 < 2) (by rw [habs]; exact hpos : 0 < |x|)
    rw [habs] at this ⊢
    push_cast at this
    exact this
  have e52 : ((4503599627370496 : ℤ) : ℚ) = (2 : ℚ) ^ (52 : ℤ) := by norm_num
  have hq : ((4503599627370496 : ℤ) : ℚ) ≤ x / (2 : ℚ) ^ ulpExp x := by
    rw [le_div_iff₀ hpe, hu, e52, ← zpow_add₀ (by norm_num)]
    rw [show (52 : ℤ) + (Int.log 2 |x| - 52) = Int.log 2 |x| by ring]
    exact hself
  have hr := roundHalfEven_ge _ _ hq
  have hr' : ((2 : ℚ) ^ (52 : ℤ)) ≤ (roundHalfEven (x / (2 : ℚ) ^ ulpExp x) : ℚ) := by
    rw [← e52]
    exact_mod_cast hr
  have hy : (2 : ℚ) ^ (1024 : ℤ) ≤
      (roundHalfEven (x / (2 : ℚ) ^ ulpExp x) : ℚ) * (2 : ℚ) ^ ulpExp x := by
    calc (2 : ℚ) ^ (1024 : ℤ) ≤ (2 : ℚ) ^ (Int.log 2 |x|) :=
          zpow_le_zpow_right₀ (by norm_num) hlog
      _ = (2 : ℚ) ^ (52 : ℤ) * (2 : ℚ) ^ ulpExp x := by
          rw [hu, ← zpow_add₀ (by norm_num)]
          congr 1
          ring
      _ ≤ _ := mul_le_mul_of_nonneg_right hr' hpe.le
  unfold F64.ofRat
  rw [if_pos (le_trans hy (le_abs_self _))]
  simp [not_lt.2 hpos.le]

theorem ofRat_nonpos (x : ℚ) (hx : x ≤ 0) :
    F64.ofRat x = F64.inf true ∨ ∃ y : ℚ, y ≤ 0 ∧ F64.ofRat x = F64.fin y := by
  by_cases h0 : x = 0
  · subst h0
    exact Or.inr ⟨0, le_refl _, ofRat_zero⟩
  · have hneg : x < 0 := lt_of_le_of_ne hx h0
    unfold F64.ofRat
    split_ifs with h
    · left
      simp [hneg]
    · right
      refine ⟨_, ?_, rfl⟩
      have hpe : (0 : ℚ) < (2 : ℚ) ^ ulpExp x := by positivity
      have : roundHalfEven (x / (2 : ℚ) ^ ulpExp x) ≤ 0 :=
        roundHalfEven_le _ 0 (by
          push_cast
          exact div_nonpos_of_nonpos_of_nonneg hx hpe.le)
      have : (roundHalfEven (x / (2 : ℚ) ^ ulpExp x) : ℚ) ≤ 0 := by exact_mod_cast this
      exact mul_nonpos_of_nonpos_of_nonneg this hpe.le

theorem ofRat_nonneg (x : ℚ) (hx : 0 ≤ x) :
    F64.ofRat x = F64.inf false ∨ ∃ y : ℚ, 0 ≤ y ∧ F64.ofRat x = F64.fin y := by
  unfold F64.ofRat
  split_ifs with h
  · left
    simp [not_lt.2 hx]
  · right
    refine ⟨_, ?_, rfl⟩
    have hpe : (0 : ℚ) < (2 : ℚ) ^ ulpExp x := by positivity
    have : 0 ≤ roundHalfEven (x / (2 : ℚ) ^ ulpExp x) :=
      roundHalfEven_ge _ 0 (by
        push_cast
        exact div_nonneg hx hpe.le)
    have : (0 : ℚ) ≤ (roundHalfEven (x / (2 : ℚ) ^ ulpExp x) : ℚ) := by exact_mod_cast this
    exact mul_nonneg this hpe.le

theorem ofRat_eval_pos (x : ℚ) (m e : ℤ) (he1 : -1074 ≤ e) (he2 : e ≤ 970)
    (hlo : (2 : ℚ) ^ (e + 52) ≤ x) (hhi : x < (2 : ℚ) ^ (e + 53))
    (h1 : ((m : ℚ) - 1 / 2) * (2 : ℚ) ^ e < x) (h2 : x < ((m : ℚ) + 1 / 2) * (2 : ℚ) ^ e) :
    F64.ofRat x = F64.fin ((m : ℚ) * (2 : ℚ) ^ e) := by
  have hpos : 0 < x := lt_of_lt_of_le (by positivity) hlo
  have hpe : (0 : ℚ) < (2 : ℚ) ^ e := by positivity
  apply ofRat_eq_of_near x m e he1 he2
  · rw [abs_of_pos hpos]; exact hlo
  · rw [abs_of_pos hpos]; exact hhi
  · apply roundHalfEven_eq_of_near
    rw [abs_lt]
    constructor
    · have : (m : ℚ) - 1 / 2 < x / (2 : ℚ) ^ e := by
        rw [lt_div_iff₀ hpe]; exact h1
      linarith
    · have : x / (2 : ℚ) ^ e < (m : ℚ) + 1 / 2 := by
        rw [div_lt_iff₀ hpe]; exact h2
      linarith


theorem ofRat_eval_tie (x : ℚ) (m e : ℤ) (he1 : -1074 ≤ e) (he2 : e ≤ 970)
    (hlo : (2 : ℚ) ^ (e + 52) ≤ x) (hhi : x < (2 : ℚ) ^ (e + 53)) (hm : m % 2 = 0)
    (h1 : ((m : ℚ) - 1 / 2) * (2 : ℚ) ^ e ≤ x) (h2 : x ≤ ((m : ℚ) + 1 / 2) * (2 : ℚ) ^ e) :
    F64.ofRat x = F64.fin ((m : ℚ) * (2 : ℚ) ^ e) := by
  have hpos : 0 < x := lt_of_lt_of_le (by positivity) hlo
  have hpe : (0 : ℚ) < (2 : ℚ) ^ e := by positivity
  apply ofRat_eq_of_near x m e he1 he2
  · rw [abs_of_pos hpos]; exact hlo
  · rw [abs_of_pos hpos]; exact hhi
  · apply roundHalfEven_eq_of_tie _ _ hm
    rw [abs_le]
    constructor
    · have : (m : ℚ) - 1 / 2 ≤ x / (2 : ℚ) ^ e := by
        rw [le_div_iff₀ hpe]; exact h1
      linarith
    · have : x / (2 : ℚ) ^ e ≤ (m : ℚ) + 1 / 2 := by
        rw [div_le_iff₀ hpe]; exact h2
      linarith

theorem ofRat_three_fifths :
    F64.ofRat (3 / 5) = F64.fin (5404319552844595 / 9007199254740992) := by
  rw [ofRat_eval_pos (3 / 5) 5404319552844595 (-53) (by norm_num) (by norm_num)
      (by norm_num) (by norm_num) (by norm_num) (by norm_num)]
  norm_num

theorem ofRat_half :
    F64.ofRat (1 / 2) = F64.fin (1 / 2) := by
  rw [ofRat_eval_pos (1 / 2) 4503599627370496 (-53) (by norm_num) (by norm_num)
      (by norm_num) (by norm_num) (by norm_num) (by norm_num)]
  norm_num

theorem ofRat_one :
    F64.ofRat (1) = F64.fin (1) := by
  rw [ofRat_eval_pos (1) 4503599627370496 (-52) (by norm_num) (by norm_num)
      (by norm_num) (by norm_num) (by norm_num) (by norm_num)]
  norm_num

theorem ofRat_three :
    F64.ofRat (3) = F64.fin (3) := by
  rw [ofRat_eval_pos (3) 6755399441055744 (-51) (by norm_num) (by norm_num)
      (by norm_num) (by norm_num) (by norm_num) (by norm_num)]
  norm_num

theorem ofRat_ten :
    F64.ofRat (10) = F64.fin (10) := by
  rw [ofRat_eval_pos (10) 5629499534213120 (-49) (by norm_num) (by norm_num)
      (by norm_num) (by norm_num) (by norm_num) (by norm_num)]
  norm_num

theorem roundHalfAway_sub_le (x : ℚ) : |(roundHalfAway x : ℚ) - x| ≤ 1 / 2 := by
  unfold roundHalfAway
  split
  · have h1 := Int.floor_le (x + 1 / 2)
    have h2 := Int.lt_floor_add_one (x + 1 / 2)
    rw [abs_le]
    constructor <;> linarith
  · have h1 := Int.le_ceil (x - 1 / 2)
    have h2 := Int.ceil_lt_add_one (x - 1 / 2)
    rw [abs_le]
    constructor <;> linarith

theorem roundHalfAway_eq_of_near (q : ℚ) (m : ℤ) (h : |q - m| < 1 / 2) :
    roundHalfAway q = m := by
  have h1 := roundHalfAway_sub_le q
  have h2 : |((roundHalfAway q - m : ℤ) : ℚ)| < 1 := by
    push_cast
    calc |(roundHalfAway q : ℚ) - m| = |((roundHalfAway q : ℚ) - q) + (q - m)| := by ring_nf
      _ ≤ |(roundHalfAway q : ℚ) - q| + |q - m| := abs_add _ _
      _ < 1 := by linarith
  have h3 : |roundHalfAway q - m| < 1 := by exact_mod_cast h2
  have := Int.abs_lt_one_iff.1 h3
  omega

theorem roundHalfAway_eq_of_between (q : ℚ) (m : ℤ) (h1 : (m : ℚ) - 1 / 2 < q)
    (h2 : q < (m : ℚ) + 1 / 2) : roundHalfAway q = m :=
  roundHalfAway_eq_of_near q m (by rw [abs_lt]; constructor <;> linarith)

theorem ofRat_seven :
    F64.ofRat (7) = F64.fin (7) := by
  rw [ofRat_eval_pos (7) 7881299347898368 (-50) (by norm_num) (by norm_num)
      (by norm_num) (by norm_num) (by norm_num) (by norm_num)]
  norm_num

theorem ofRat_eight :
    F64.ofRat (8) = F64.fin (8) := by
  rw [ofRat_eval_pos (8) 4503599627370496 (-49) (by norm_num) (by norm_num)
      (by norm_num) (by norm_num) (by norm_num) (by norm_num)]
  norm_num

theorem ofRat_fourteen :
    F64.ofRat (14) = F64.fin (14) := by
  rw [ofRat_eval_pos (14) 7881299347898368 (-49) (by norm_num) (by norm_num)
      (by norm_num) (by norm_num) (by norm_num) (by norm_num)]
  norm_num

theorem ofRat_seventy :
    F64.ofRat (70) = F64.fin (70) := by
  rw [ofRat_eval_pos (70) 4925812092436480 (-46) (by norm_num) (by norm_num)
      (by norm_num) (by norm_num) (by norm_num) (by norm_num)]
  norm_num

theorem ofRat_three_halves :
    F64.ofRat (3 / 2) = F64.fin (3 / 2) := by
  rw [ofRat_eval_pos (3 / 2) 6755399441055744 (-52) (by norm_num) (by norm_num)
      (by norm_num) (by norm_num) (by norm_num) (by norm_num)]
  norm_num

theorem ofRat_budget_decimal :
    F64.ofRat (11666666666666667 / 1000000000000000) = F64.fin (3283874728290987 / 281474976710656) := by
  rw [ofRat_eval_pos (11666666666666667 / 1000000000000000) 6567749456581974 (-49) (by norm_num) (by norm_num)
      (by norm_num) (by norm_num) (by norm_num) (by norm_num)]
  norm_num

theorem ofRat_seven_div :
    F64.ofRat (7 / (5404319552844595 / 9007199254740992)) = F64.fin (3283874728290987 / 281474976710656) := by
  rw [ofRat_eval_pos (7 / (5404319552844595 / 9007199254740992)) 6567749456581974 (-49) (by norm_num) (by norm_num)
      (by norm_num) (by norm_num) (by norm_num) (by norm_num)]
  norm_num

theorem ofRat_eight_sub_one :
    F64.ofRat (8 + -1) = F64.fin (7) := by
  rw [ofRat_eval_pos (8 + -1) 7881299347898368 (-50) (by norm_num) (by norm_num)
      (by norm_num) (by norm_num) (by norm_num) (by norm_num)]
  norm_num

/-! ## The parameter pattern -/

/-- Searching with the capture group reported is searching for `g rest` itself:
the ends of the whole matches are those of the concatenation, in the same order. -/
theorem endsSub_snd (g rest : Regex) (q : Pos) :
    (endsSub g rest q).map Prod.snd = (Regex.seq g rest).ends q := by
  unfold endsSub
  simp only [Regex.ends, List.map_flatMap, List.map_map]
  congr 1
  funext m
  induction rest.ends m with
  | nil => rfl
  | cons e es ih => simp

theorem mem_endsSub (g rest : Regex) (q m e : Pos) :
    (m, e) ∈ endsSub g rest q ↔ Matches g q m ∧ Matches rest m e := by
  unfold endsSub
  simp only [List.mem_flatMap, List.mem_map, Prod.mk.injEq]
  constructor
  · rintro ⟨m', hm', e', he', hm, he⟩
    subst hm; subst he
    exact ⟨(mem_ends_iff g q m').1 hm', (mem_ends_iff rest m' e').1 he'⟩
  · rintro ⟨hm, he⟩
    exact ⟨m, (mem_ends_iff g q m).2 hm, e, (mem_ends_iff rest m e).2 he, rfl, rfl⟩

theorem lang_plus (p : Char → Bool) (m : Str) :
    Lang (Regex.plus p) m ↔ m ≠ [] ∧ ∀ c ∈ m, p c = true := by
  unfold Regex.plus
  simp only [Lang]
  constructor
  · rintro ⟨m1, m2, hm, ⟨c, hc, hm1⟩, hall⟩
    subst hm1; subst hm
    refine ⟨by simp, ?_⟩
    intro x hx
    rcases List.mem_append.1 hx with h | h
    · rw [List.mem_singleton] at h; rw [h]; exact hc
    · exact hall x h
  · rintro ⟨hne, hall⟩
    cases m with
    | nil => exact absurd rfl hne
    | cons c t =>
      exact ⟨[c], t, rfl, ⟨c, hall c (List.mem_cons_self _ _), rfl⟩,
        fun x hx => hall x (List.mem_cons_of_mem _ hx)⟩

theorem lang_paramGroup (num : Str) :
    Lang paramGroup num ↔ ∃ ip fp : Str, DecimalParts num ip fp := by
  unfold paramGroup DecimalParts
  constructor
  · rintro ⟨m1, m2, hm, h1, h2⟩
    obtain ⟨hne1, hall1⟩ := (lang_plus _ _).1 h1
    rcases h2 with ⟨d, fp, hm2, ⟨c, hc, hd⟩, hfp⟩ | h2
    · obtain ⟨hne2, hall2⟩ := (lang_plus _ _).1 hfp
      have hcd : c = '.' := by simpa using hc
      refine ⟨m1, fp, hne1, hall1, hall2, Or.inr ⟨hne2, ?_⟩⟩
      rw [hm, hm2, hd, hcd]; rfl
    · exact ⟨m1, [], hne1, hall1, by simp, Or.inl ⟨rfl, by rw [hm, h2]; simp⟩⟩
  · rintro ⟨ip, fp, hne, hall1, hall2, h | h⟩
    · refine ⟨ip, [], by rw [h.2]; simp, (lang_plus _ _).2 ⟨hne, hall1⟩, Or.inr rfl⟩
    · refine ⟨ip, '.' :: fp, h.2, (lang_plus _ _).2 ⟨hne, hall1⟩, Or.inl ?_⟩
      exact ⟨['.'], fp, rfl, ⟨'.', by simp, rfl⟩, (lang_plus _ _).2 ⟨h.1, hall2⟩⟩

theorem paramGroup_lookFree : paramGroup.lookFree := by
  simp [paramGroup, Regex.plus, Regex.lookFree]

theorem isDigit_not_dot : ('.' : Char).isDigit = false := by decide

theorem takeWhile_append_stop (p : Char → Bool) (a b : Str) (ha : ∀ c ∈ a, p c = true)
    (hb : ∀ c t, b = c :: t → p c = false) :
    (a ++ b).takeWhile p = a ∧ (a ++ b).dropWhile p = b := by
  induction a with
  | nil =>
    cases b with
    | nil => simp
    | cons c t =>
      have := hb c t rfl
      simp [List.takeWhile_cons, List.dropWhile_cons, this]
  | cons x a ih =>
    have hx := ha x (List.mem_cons_self _ _)
    have := ih (fun c hc => ha c (List.mem_cons_of_mem _ hc))
    simp [List.takeWhile_cons, List.dropWhile_cons, hx, this.1, this.2]

theorem ofRat_cases (x : ℚ) :
    (∃ y : ℚ, F64.ofRat x = F64.fin y) ∨ (∃ neg : Bool, F64.ofRat x = F64.inf neg) := by
  unfold F64.ofRat
  split_ifs
  · exact Or.inr ⟨_, rfl⟩
  · exact Or.inl ⟨_, rfl⟩

theorem floatOfDecimal_fin (v y : ℚ) (h : F64.ofRat v = F64.fin y) :
    floatOfDecimal v = some (F64.fin y) := by
  unfold floatOfDecimal
  rw [h]

theorem floatOfDecimal_inf (v : ℚ) (neg : Bool) (h : F64.ofRat v = F64.inf neg) :
    floatOfDecimal v = none := by
  unfold floatOfDecimal
  rw [h]

theorem parseFloat_decimal (num ip fp : Str) (h : DecimalParts num ip fp) :
    parseFloat num = floatOfDecimal (decimalValue ip fp) := by
  obtain ⟨hne, hall1, hall2, h | h⟩ := h
  · obtain ⟨hfp, hnum⟩ := h
    subst hfp; subst hnum
    have := takeWhile_append_stop Char.isDigit num [] hall1 (by intro c t h; simp at h)
    simp only [List.append_nil] at this
    unfold parseFloat
    simp only [this.1, this.2, hne, if_false, decimalValue, natOfDigits, List.foldl_nil,
      List.length_nil]
    simp
  · obtain ⟨hfp, hnum⟩ := h
    subst hnum
    have := takeWhile_append_stop Char.isDigit ip ('.' :: fp) hall1 (by
      intro c t h
      simp only [List.cons.injEq] at h
      rw [← h.1]; decide)
    unfold parseFloat
    simp only [this.1, this.2]
    have hall : fp.all Char.isDigit = true := by
      rw [List.all_eq_true]; exact hall2
    simp only [ne_eq, hne, not_false_eq_true, hfp, hall, and_self, if_true, decimalValue]

theorem wordBoundary_after_word (c : Char) (b t : Str) (hc : isWordRE c = true) :
    wordBoundary (c :: b, t) = true ↔ headIsWord t = false := by
  unfold wordBoundary
  simp only [headIsWord, hc]
  cases headIsWord t <;> simp

theorem matches_paramTail (m : Pos) :
    (∃ e : Pos, Matches paramTail m e) ↔
      ∃ ws rest' : Str, m.2 = ws ++ rest' ∧ (∀ c ∈ ws, isSpaceRE c = true) ∧
        MarkerAt rest' := by
  unfold paramTail
  constructor
  · rintro ⟨e, m1, ⟨ws, hws, h12, h11⟩, m2, ⟨b, hb, h22, h21⟩, m3, hopt, hfin⟩
    have hb' : b = 'B' ∨ b = 'b' := by simpa using hb
    have hbw : isWordRE b = true := by
      rcases hb' with h | h <;> rw [h] <;> decide
    refine ⟨ws, m1.2, h12, hws, b, m2.2, h22, hb', ?_⟩
    rcases hopt with hill | hnone
    · obtain ⟨h32, h31⟩ := (matches_lit _ _ _).1 hill
      right
      refine ⟨m3.2, h32, ?_⟩
      rcases hfin with ⟨_, hwb⟩ | ⟨c, hc, h42, _⟩
      · left
        have h31' : m3.1 = 'n' :: ("illio".toList.reverse ++ m2.1) := by
          rw [h31]; rfl
        have hwb' : wordBoundary ('n' :: ("illio".toList.reverse ++ m2.1), m3.2) = true := by
          rw [← h31']; exact hwb
        exact (wordBoundary_after_word 'n' _ _ (by decide)).1 hwb'
      · right
        have : c = '_' := by simpa using hc
        exact ⟨e.2, by rw [h42, this]⟩
    · left
      rcases hfin with ⟨_, hwb⟩ | ⟨c, hc, h42, _⟩
      · left
        rw [hnone] at hwb
        have hwb' : wordBoundary (b :: m1.1, m2.2) = true := by
          rw [← h21]; exact hwb
        exact (wordBoundary_after_word b _ _ hbw).1 hwb'
      · right
        have : c = '_' := by simpa using hc
        rw [hnone] at h42
        exact ⟨e.2, by rw [h42, this]⟩
  · rintro ⟨ws, rest', h2, hws, b, tail, hrest, hb, hend⟩
    have hbw : isWordRE b = true := by
      rcases hb with h | h <;> rw [h] <;> decide
    have hbB : (b == 'B' || b == 'b') = true := by simpa using hb
    rcases hend with hme | ⟨t2, htail, hme⟩
    · rcases hme with hnw | ⟨t', ht'⟩
      · refine ⟨(b :: (ws.reverse ++ m.1), tail), (ws.reverse ++ m.1, rest'),
          ⟨ws, hws, h2, rfl⟩, (b :: (ws.reverse ++ m.1), tail), ⟨b, hbB, hrest, rfl⟩,
          (b :: (ws.reverse ++ m.1), tail), Or.inr rfl, Or.inl ⟨rfl, ?_⟩⟩
        exact (wordBoundary_after_word b _ _ hbw).2 hnw
      · refine ⟨('_' :: b :: (ws.reverse ++ m.1), t'), (ws.reverse ++ m.1, rest'),
          ⟨ws, hws, h2, rfl⟩, (b :: (ws.reverse ++ m.1), tail), ⟨b, hbB, hrest, rfl⟩,
          (b :: (ws.reverse ++ m.1), tail), Or.inr rfl, Or.inr ⟨'_', by simp, ht', rfl⟩⟩
    · rcases hme with hnw | ⟨t', ht'⟩
      · refine ⟨("illion".toList.reverse ++ b :: (ws.reverse ++ m.1), t2),
          (ws.reverse ++ m.1, rest'),
          ⟨ws, hws, h2, rfl⟩, (b :: (ws.reverse ++ m.1), tail), ⟨b, hbB, hrest, rfl⟩,
          ("illion".toList.reverse ++ b :: (ws.reverse ++ m.1), t2),
          Or.inl ((matches_lit _ _ _).2 ⟨htail, rfl⟩), Or.inl ⟨rfl, ?_⟩⟩
        exact (wordBoundary_after_word 'n' _ _ (by decide)).2 hnw
      · refine ⟨('_' :: ("illion".toList.reverse ++ b :: (ws.reverse ++ m.1)), t'),
          (ws.reverse ++ m.1, rest'),
          ⟨ws, hws, h2, rfl⟩, (b :: (ws.reverse ++ m.1), tail), ⟨b, hbB, hrest, rfl⟩,
          ("illion".toList.reverse ++ b :: (ws.reverse ++ m.1), t2),
          Or.inl ((matches_lit _ _ _).2 ⟨htail, rfl⟩), Or.inr ⟨'_', by simp, ht', rfl⟩⟩

theorem isSpaceRE_cases (c : Char) (h : isSpaceRE c = true) :
    c.isDigit = false ∧ c ≠ '.' := by
  have : c = Char.ofNat 9 ∨ c = Char.ofNat 10 ∨ c = Char.ofNat 12 ∨ c = Char.ofNat 13 ∨
      c = Char.ofNat 32 := by
    simpa [isSpaceRE, or_assoc] using h
  rcases this with h | h | h | h | h <;> subst h <;> decide

theorem markerAt_head (rest : Str) (h : MarkerAt rest) :
    ∃ c t, rest = c :: t ∧ c.isDigit = false ∧ c ≠ '.' := by
  obtain ⟨b, tail, hrest, hb, _⟩ := h
  refine ⟨b, tail, hrest, ?_⟩
  rcases hb with h | h <;> subst h <;> decide

theorem paramToken_head (num rest : Str) (h : ParamToken num rest) :
    ∃ c t, rest = c :: t ∧ c.isDigit = false ∧ c ≠ '.' := by
  obtain ⟨_, ws, rest', hrest, hws, hm⟩ := h
  cases ws with
  | nil =>
    obtain ⟨c, t, hc, h1, h2⟩ := markerAt_head rest' hm
    exact ⟨c, t, by rw [hrest, hc]; rfl, h1, h2⟩
  | cons w ws =>
    obtain ⟨h1, h2⟩ := isSpaceRE_cases w (hws w (List.mem_cons_self _ _))
    exact ⟨w, ws ++ rest', by rw [hrest]; rfl, h1, h2⟩

/-- The decimal number of a token is determined by where the token starts. -/
theorem paramToken_unique (num rest num' rest' : Str) (h : ParamToken num rest)
    (h' : ParamToken num' rest') (heq : num ++ rest = num' ++ rest') : num = num' := by
  have key : ∀ (n r : Str), ParamToken n r →
      ∀ ip fp, DecimalParts n ip fp →
        ip = (n ++ r).takeWhile Char.isDigit ∧
        ((fp = [] ∧ ∀ c t, (n ++ r).dropWhile Char.isDigit = c :: t → c ≠ '.') ∨
         (fp ≠ [] ∧ ∃ t, (n ++ r).dropWhile Char.isDigit = '.' :: t ∧
            fp = t.takeWhile Char.isDigit)) := by
    intro n r hp ip fp hd
    obtain ⟨c, t, hr, hcd, hcdot⟩ := paramToken_head n r hp
    obtain ⟨hne, hall1, hall2, hcase | hcase⟩ := hd
    · obtain ⟨hfp, hn⟩ := hcase
      have := takeWhile_append_stop Char.isDigit ip r hall1 (by
        intro c' t' h; rw [hr] at h
        simp only [List.cons.injEq] at h
        rw [← h.1]; exact hcd)
      rw [hn]
      refine ⟨this.1.symm, Or.inl ⟨hfp, ?_⟩⟩
      intro c' t' h
      rw [this.2, hr] at h
      simp only [List.cons.injEq] at h
      rw [← h.1]; exact hcdot
    · obtain ⟨hfp, hn⟩ := hcase
      have := takeWhile_append_stop Char.isDigit ip ('.' :: fp ++ r) hall1 (by
        intro c' t' h
        simp only [List.cons_append, List.cons.injEq] at h
        rw [← h.1]; decide)
      have hnr : n ++ r = ip ++ ('.' :: fp ++ r) := by rw [hn]; simp
      rw [hnr]
      refine ⟨this.1.symm, Or.inr ⟨hfp, fp ++ r, by rw [this.2]; rfl, ?_⟩⟩
      have h2 := takeWhile_append_stop Char.isDigit fp r hall2 (by
        intro c' t' h; rw [hr] at h
        simp only [List.cons.injEq] at h
        rw [← h.1]; exact hcd)
      exact h2.1.symm
  obtain ⟨⟨ip, fp, hd⟩, _⟩ := id h
  obtain ⟨⟨ip', fp', hd'⟩, _⟩ := id h'
  obtain ⟨hip, hfrac⟩ := key num rest h ip fp hd
  obtain ⟨hip', hfrac'⟩ := key num' rest' h' ip' fp' hd'
  rw [← heq] at hip' hfrac'
  have hipeq : ip = ip' := by rw [hip, hip']
  have hfpeq : fp = fp' := by
    rcases hfrac with ⟨hf, hnd⟩ | ⟨hf, t, ht, hft⟩
    · rcases hfrac' with ⟨hf', _⟩ | ⟨_, t', ht', _⟩
      · rw [hf, hf']
      · exact absurd rfl (hnd _ _ ht')
    · rcases hfrac' with ⟨_, hnd'⟩ | ⟨_, t', ht', hft'⟩
      · exact absurd rfl (hnd' _ _ ht)
      · rw [ht] at ht'
        simp only [List.cons.injEq, true_and] at ht'
        rw [hft, hft', ht']
  obtain ⟨_, _, _, hc | hc⟩ := hd
  · obtain ⟨_, _, _, hc' | hc'⟩ := hd'
    · rw [hc.2, hc'.2, hipeq]
    · exact absurd (hfpeq ▸ hc.1) hc'.1
  · obtain ⟨_, _, _, hc' | hc'⟩ := hd'
    · exact absurd (hfpeq ▸ hc'.1) hc.1
    · rw [hc.2, hc'.2, hipeq, hfpeq]

theorem paramToken_iff_endsSub (pre num rest : Str) :
    ParamToken num rest ↔
      ∃ e : Pos, ((num.reverse ++ pre.reverse, rest), e) ∈
        endsSub paramGroup paramTail (pre.reverse, num ++ rest) := by
  simp only [mem_endsSub]
  constructor
  · rintro ⟨hdec, htail⟩
    have hg : Matches paramGroup (pre.reverse, num ++ rest) (num.reverse ++ pre.reverse, rest) :=
      (matches_iff_lang _ paramGroup_lookFree _ _).2 ⟨num, (lang_paramGroup num).2 hdec, rfl, rfl⟩
    obtain ⟨e, he⟩ := (matches_paramTail (num.reverse ++ pre.reverse, rest)).2 htail
    exact ⟨e, hg, he⟩
  · rintro ⟨e, hg, he⟩
    obtain ⟨num', hl, h2, _⟩ := (matches_iff_lang _ paramGroup_lookFree _ _).1 hg
    have : num = num' := by simpa using h2
    rw [← this] at hl
    exact ⟨(lang_paramGroup num).1 hl, (matches_paramTail _).1 ⟨e, he⟩⟩

/-- What `parseParamBillions` does, in terms of the tokens of the name. -/
theorem parseParamBillions_cases (f : Str) :
    (parseParamBillions f = F64.fin 0 ∧
      ∀ pre num rest : Str, f = pre ++ num ++ rest → ¬ ParamToken num rest) ∨
    (∃ pre num rest ip fp : Str, f = pre ++ num ++ rest ∧ ParamToken num rest ∧
      DecimalParts num ip fp ∧
      (∀ pre' num' rest' : Str, f = pre' ++ num' ++ rest' → ParamToken num' rest' →
        pre.length ≤ pre'.length) ∧
      (∀ num' rest' : Str, num ++ rest = num' ++ rest' → ParamToken num' rest' →
        num' = num) ∧
      (∀ y : ℚ, F64.ofRat (decimalValue ip fp) = F64.fin y →
        parseParamBillions f = F64.fin y) ∧
      (∀ neg : Bool, F64.ofRat (decimalValue ip fp) = F64.inf neg →
        parseParamBillions f = F64.fin 0)) := by
  unfold parseParamBillions findParamGroup findSubFrom
  cases hs : searchFrom (fun q => (endsSub paramGroup paramTail q).head?) [] f with
  | none =>
    left
    refine ⟨ofRat_zero, ?_⟩
    intro pre num rest hf hp
    have h0 := (searchFrom_none_iff _ f []).1 hs pre (num ++ rest) (by rw [hf]; simp)
    simp only [List.append_nil, List.head?_eq_none_iff] at h0
    obtain ⟨e, he⟩ := (paramToken_iff_endsSub pre num rest).1 hp
    rw [h0] at he
    simp at he
  | some r =>
    obtain ⟨st, m, e⟩ := r
    right
    obtain ⟨pre, t, hf, hst, hhead, hleft⟩ := searchFrom_some _ f [] st (m, e) hs
    simp only [List.append_nil] at hst hleft
    have hmem : (m, e) ∈ endsSub paramGroup paramTail st := List.mem_of_mem_head? hhead
    obtain ⟨hg, ht⟩ := (mem_endsSub _ _ _ _ _).1 hmem
    obtain ⟨num, hl, h2, h1⟩ := (matches_iff_lang _ paramGroup_lookFree _ _).1 hg
    rw [hst] at h2 h1
    simp only at h2 h1
    obtain ⟨ip, fp, hd⟩ := (lang_paramGroup num).1 hl
    have hp : ParamToken num m.2 := ⟨⟨ip, fp, hd⟩, (matches_paramTail m).1 ⟨e, ht⟩⟩
    have hbetween : between st m = num := by
      unfold between
      rw [hst]
      simp only [h2, List.length_append, Nat.add_sub_cancel, List.take_left']
    refine ⟨pre, num, m.2, ip, fp, by rw [hf, h2]; simp, hp, hd, ?_, ?_, ?_, ?_⟩
    · intro pre' num' rest' hf' hp'
      by_contra hlt
      have h0 := hleft pre' (num' ++ rest') (by rw [hf']; simp) (not_le.1 hlt)
      rw [List.head?_eq_none_iff] at h0
      obtain ⟨e', he'⟩ := (paramToken_iff_endsSub pre' num' rest').1 hp'
      rw [h0] at he'
      simp at he'
    · intro num' rest' heq hp'
      exact paramToken_unique num' rest' num m.2 hp' hp heq.symm
    · intro y hy
      simp only [Option.map_some', hbetween, parseFloat_decimal num ip fp hd,
        floatOfDecimal_fin _ y hy]
    · intro neg hy
      simp only [Option.map_some', hbetween, parseFloat_decimal num ip fp hd,
        floatOfDecimal_inf _ neg hy, ofRat_zero]

theorem parseParamBillions_eval (f g ip fp : Str) (y : ℚ) (hg : findParamGroup f = some g)
    (hd : DecimalParts g ip fp) (hy : F64.ofRat (decimalValue ip fp) = F64.fin y) :
    parseParamBillions f = F64.fin y := by
  unfold parseParamBillions
  simp only [hg, parseFloat_decimal g ip fp hd, floatOfDecimal_fin _ y hy]

theorem parseParamBillions_range (f g ip fp : Str) (hg : findParamGroup f = some g)
    (hd : DecimalParts g ip fp) (hy : (2 : ℚ) ^ (1024 : ℤ) ≤ decimalValue ip fp) :
    parseParamBillions f = F64.fin 0 := by
  unfold parseParamBillions
  simp only [hg, parseFloat_decimal g ip fp hd,
    floatOfDecimal_inf _ false (ofRat_overflow _ hy), ofRat_zero]

theorem parseParamBillions_none (f : Str) (hg : findParamGroup f = none) :
    parseParamBillions f = F64.fin 0 := by
  unfold parseParamBillions
  simp only [hg, ofRat_zero]

/-- The count is a finite value that is not negative. -/
theorem parseParamBillions_fin (f : Str) :
    ∃ p : ℚ, 0 ≤ p ∧ parseParamBillions f = F64.fin p := by
  rcases parseParamBillions_cases f with ⟨h, _⟩ | ⟨_, _, _, ip, fp, _, _, _, _, _, h1, h2⟩
  · exact ⟨0, le_refl _, h⟩
  · have hv : 0 ≤ decimalValue ip fp := by
      unfold decimalValue
      positivity
    rcases ofRat_nonneg _ hv with h | ⟨y, hy, h⟩
    · exact ⟨0, le_refl _, h2 _ h⟩
    · exact ⟨y, hy, h1 _ h⟩

theorem decimalValue_int (ip : Str) : decimalValue ip [] = (natOfDigits ip : ℚ) := by
  simp [decimalValue, natOfDigits]

theorem decimalParts_last (num ip fp : Str) (h : DecimalParts num ip fp) :
    ∃ (init : Str) (d : Char), num = init ++ [d] ∧ d.isDigit = true := by
  obtain ⟨hne, hall1, hall2, hc | hc⟩ := h
  · refine ⟨ip.dropLast, ip.getLast hne, ?_, hall1 _ (List.getLast_mem hne)⟩
    rw [hc.2, List.dropLast_append_getLast hne]
  · refine ⟨ip ++ '.' :: fp.dropLast, fp.getLast hc.1, ?_, hall2 _ (List.getLast_mem hc.1)⟩
    have hfp := List.dropLast_append_getLast hc.1
    calc num = ip ++ '.' :: fp := hc.2
      _ = ip ++ '.' :: (fp.dropLast ++ [fp.getLast hc.1]) := by rw [hfp]
      _ = ip ++ '.' :: fp.dropLast ++ [fp.getLast hc.1] := by simp

theorem digitThenB_of (x : Str) (d b : Char) (y : Str) (hd : d.isDigit = true)
    (hb : b = 'B' ∨ b = 'b') : digitThenB (x ++ d :: b :: y) = true := by
  induction x with
  | nil =>
    have hb' : (b == 'B' || b == 'b') = true := by simpa using hb
    simp [digitThenB, hd, hb']
  | cons c x ih =>
    simp only [List.cons_append]
    unfold digitThenB
    rw [ih]
    simp

theorem digitThenB_of_spec (f pre num rest : Str) (hf : f = pre ++ num ++ rest)
    (h : ParamTokenSpec num rest) : digitThenB f = true := by
  obtain ⟨⟨ip, fp, hd⟩, b, tail, hrest, hb, _⟩ := h
  obtain ⟨init, d, hnum, hdig⟩ := decimalParts_last num ip fp hd
  have : f = (pre ++ init) ++ d :: b :: tail := by
    rw [hf, hnum, hrest]; simp
  rw [this]
  exact digitThenB_of _ d b tail hdig hb

theorem natOfDigits_append_singleton (a : Str) (c : Char) :
    natOfDigits (a ++ [c]) = 10 * natOfDigits a + (c.toNat - 48) := by
  simp [natOfDigits, List.foldl_append]

theorem natOfDigits_replicate_nine (n : Nat) :
    natOfDigits (List.replicate n '9') + 1 = 10 ^ n := by
  induction n with
  | zero => rfl
  | succ n ih =>
    rw [List.replicate_succ', natOfDigits_append_singleton]
    have : ('9' : Char).toNat - 48 = 9 := by decide
    rw [this, pow_succ]
    omega

theorem decimalValue_nines (n : Nat) :
    decimalValue (List.replicate n '9') [] = 10 ^ n - 1 := by
  rw [decimalValue_int, eq_sub_iff_add_eq]
  exact_mod_cast natOfDigits_replicate_nine n

set_option maxRecDepth 100000 in
theorem findParamGroup_nines :
    findParamGroup (List.replicate 400 '9' ++ "B".toList) = some (List.replicate 400 '9') := by
  decide

theorem parseParamBillions_nines :
    parseParamBillions (List.replicate 400 '9' ++ "B".toList) = F64.fin 0 := by
  refine parseParamBillions_range _ _ (List.replicate 400 '9') [] findParamGroup_nines ?_ ?_
  · refine ⟨by decide, ?_, by simp, Or.inl ⟨rfl, rfl⟩⟩
    intro c hc
    rw [List.eq_of_mem_replicate hc]
    rfl
  · rw [decimalValue_nines 400]
    norm_num

/-- C10 (as stated, refuted): in `7 B` no decimal number is immediately followed by
the marker, yet `parseParamBillions` returns 7, not 0; and the name made of four
hundred digits `9` and `B` is a number immediately followed by the marker at a word
boundary, of value `10^400 - 1`, for which `parseParamBillions` returns 0. -/
theorem parseParamBillions_skips_space :
    (parseParamBillions "7 B".toList = F64.fin 7 ∧
      ∀ pre num rest : Str, "7 B".toList = pre ++ num ++ rest → ¬ ParamTokenSpec num rest) ∧
    (ParamTokenSpec (List.replicate 400 '9') "B".toList ∧
      decimalValue (List.replicate 400 '9') [] = 10 ^ 400 - 1 ∧
      parseParamBillions (List.replicate 400 '9' ++ "B".toList) = F64.fin 0) := by
  refine ⟨⟨?_, ?_⟩, ?_, ?_, ?_⟩
  · rw [parseParamBillions_eval "7 B".toList "7".toList "7".toList [] 7 (by decide)
      (by unfold DecimalParts; decide)]
    rw [decimalValue_int]
    have : (natOfDigits "7".toList : ℚ) = 7 := by simp [natOfDigits]
    rw [this]
    exact ofRat_seven
  · intro pre num rest hf h
    have := digitThenB_of_spec _ pre num rest hf h
    exact absurd this (by decide)
  · refine ⟨⟨List.replicate 400 '9', [], by decide, ?_, by simp, Or.inl ⟨rfl, rfl⟩⟩,
      'B', [], rfl, Or.inl rfl, Or.inl (Or.inl rfl)⟩
    intro c hc
    rw [List.eq_of_mem_replicate hc]
    rfl
  · exact decimalValue_nines 400
  · exact parseParamBillions_nines

/-- C10 (amended): `parseParamBillions` returns the `float64` nearest to the value of
the first decimal number (digits with an optional `.`-fraction) that is followed,
after any run of white space, by `B` or `b` (optionally continued by `illion`) and
then by a word boundary or `_`: no such token starts further left, and the number is
the only one of a token starting there; it returns 0 when that nearest `float64` is an
infinity, as for every value from `2^1024` on, and when the name has no such token.
The names of the test suite give 8, 1.5, 0.5 and 0. -/
theorem parseParamBillions_first_token :
    (∀ f : Str,
      (parseParamBillions f = F64.fin 0 ∧
        ∀ pre num rest : Str, f = pre ++ num ++ rest → ¬ ParamToken num rest) ∨
      (∃ pre num rest ip fp : Str, f = pre ++ num ++ rest ∧ ParamToken num rest ∧
        DecimalParts num ip fp ∧
        (∀ pre' num' rest' : Str, f = pre' ++ num' ++ rest' → ParamToken num' rest' →
          pre.length ≤ pre'.length) ∧
        (∀ num' rest' : Str, num ++ rest = num' ++ rest' → ParamToken num' rest' →
          num' = num) ∧
        (∀ y : ℚ, F64.ofRat (decimalValue ip fp) = F64.fin y →
          parseParamBillions f = F64.fin y) ∧
        (∀ neg : Bool, F64.ofRat (decimalValue ip fp) = F64.inf neg →
          parseParamBillions f = F64.fin 0))) ∧
    (∀ v : ℚ, (∃ y : ℚ, F64.ofRat v = F64.fin y) ∨ (∃ neg : Bool, F64.ofRat v = F64.inf neg)) ∧
    (∀ v : ℚ, |v| ≤ (2 : ℚ) ^ (1023 : ℤ) →
      ∃ y : ℚ, F64.ofRat v = F64.fin y ∧ |y - v| ≤ (2 : ℚ) ^ (970 : ℤ)) ∧
    (∀ v : ℚ, (2 : ℚ) ^ (1024 : ℤ) ≤ v → F64.ofRat v = F64.inf false) ∧
    parseParamBillions "Qwen3-8B-GGUF".toList = F64.fin 8 ∧
    parseParamBillions "Phi-3.5-mini-1.5B-instruct".toList = F64.fin (3 / 2) ∧
    parseParamBillions "model-0.5B-tiny".toList = F64.fin (1 / 2) ∧
    parseParamBillions "no-match-here".toList = F64.fin 0 := by
  refine ⟨parseParamBillions_cases, ofRat_cases, ?_, ofRat_overflow, ?_, ?_, ?_, ?_⟩
  · intro v hv
    exact ofRat_error v 1023 (by norm_num) (by norm_num) hv
  · rw [parseParamBillions_eval _ "8".toList "8".toList [] 8 (by decide)
      (by unfold DecimalParts; decide)]
    rw [decimalValue_int]
    have : (natOfDigits "8".toList : ℚ) = 8 := by simp [natOfDigits]
    rw [this]
    exact ofRat_eight
  · rw [parseParamBillions_eval _ "1.5".toList "1".toList "5".toList (3 / 2) (by decide)
      (by unfold DecimalParts; decide)]
    have : decimalValue "1".toList "5".toList = 3 / 2 := by
      simp [decimalValue, natOfDigits]
      norm_num
    rw [this]
    exact ofRat_three_halves
  · rw [parseParamBillions_eval _ "0.5".toList "0".toList "5".toList (1 / 2) (by decide)
      (by unfold DecimalParts; decide)]
    have : decimalValue "0".toList "5".toList = 1 / 2 := by
      simp [decimalValue, natOfDigits]
      norm_num
    rw [this]
    exact ofRat_half
  · exact parseParamBillions_none _ (by decide)

/-! ## Candidate pipeline: lemmas -/

theorem dedup_values_mem (arrivals : List Model) :
    ∀ m ∈ mapValues (dedup arrivals), m ∈ arrivals := by
  intro m hm
  obtain ⟨p, hp, hpm⟩ := List.mem_map.1 hm
  have hget := mapGet_of_mem (dedup arrivals) (dedup_keys_nodup arrivals) p hp
  rcases dedup_get arrivals p.1 with ⟨hnone, _⟩ | ⟨e, hsome, hfm⟩
  · rw [hnone] at hget
    exact Option.noConfusion hget
  · rw [hsome] at hget
    have : e = p.2 := by simpa using hget
    rw [← hpm, ← this]
    exact firstMax_mem hfm

theorem fetchResult_mem {arrivals out : List Model} (h : FetchResult arrivals out) :
    ∀ m ∈ out, m ∈ arrivals := by
  intro m hm
  exact dedup_values_mem arrivals m ((fetchResult_perm h).subset hm)

theorem processRepo_some (lower : Char → Char) (cat : Catalog) (b : F64) (org : Str)
    (repo : ApiModel) (m : Model) (h : processRepo lower cat b org repo = some m) :
    overBudget b repo.ID = false ∧ m.Repo = repo.ID := by
  unfold processRepo at h
  simp only at h
  by_cases hob : overBudget b repo.ID = true
  · rw [if_pos hob] at h
    exact Option.noConfusion h
  · rw [if_neg hob] at h
    refine ⟨by simpa using hob, ?_⟩
    cases hd : cat.detail repo.ID with
    | none => rw [hd] at h; exact Option.noConfusion h
    | some siblings =>
      rw [hd] at h
      simp only at h
      cases hs : selectRepresentative siblings with
      | none => rw [hs] at h; exact Option.noConfusion h
      | some rep =>
        rw [hs] at h
        simp only [Option.some.injEq] at h
        rw [← h]

theorem mem_produced (lower : Char → Char) (cat : Catalog) (orgs tags : List Str) (b : F64)
    (m : Model) (h : m ∈ produced lower cat orgs tags b) :
    ∃ (org : Str) (repo : ApiModel), processRepo lower cat b org repo = some m := by
  unfold produced at h
  simp only [List.mem_flatMap] at h
  obtain ⟨org, _, size, _, hw⟩ := h
  unfold worker at hw
  cases hs : cat.search org size with
  | none => rw [hs] at hw; simp at hw
  | some results =>
    rw [hs] at hw
    simp only [List.mem_filterMap] at hw
    obtain ⟨repo, _, hrepo⟩ := hw
    exact ⟨org, repo, hrepo⟩

theorem fetchModelsResult_within_budget (lower : Char → Char) (cat : Catalog)
    (orgs tags : List Str) (b : F64) (out : List Model)
    (h : FetchModelsResult lower cat orgs tags b out) :
    ∀ m ∈ out, overBudget b m.Repo = false := by
  obtain ⟨arrivals, hperm, hres⟩ := h
  intro m hm
  have h1 := hperm.subset (fetchResult_mem hres m hm)
  obtain ⟨org, repo, hrepo⟩ := mem_produced lower cat orgs tags b m h1
  obtain ⟨hob, hr⟩ := processRepo_some lower cat b org repo m hrepo
  rw [hr]; exact hob

theorem overBudget_iff (b : F64) (id : Str) :
    overBudget b id = true ↔
      F64.lt (F64.fin 0) (parseParamBillions id) = true ∧
        F64.lt b (parseParamBillions id) = true := by
  unfold overBudget
  rw [ofRat_zero, Bool.and_eq_true]

theorem fetchModels_fetchModelsResult (lower : Char → Char) (cat : Catalog)
    (orgs tags : List Str) (b : F64) :
    FetchModelsResult lower cat orgs tags b (fetchModels lower cat orgs tags b) :=
  ⟨produced lower cat orgs tags b, List.Perm.refl _, aggregate_fetchResult _⟩

theorem maxParamBOf_fin (M : ℚ) :
    maxParamBOf (F64.fin M) =
      F64.div (F64.ofRat (M + -1)) (F64.fin (5404319552844595 / 9007199254740992)) := by
  unfold maxParamBOf
  rw [ofRat_one, ofRat_three_fifths]
  rfl

theorem maxParamBOf_eight :
    maxParamBOf (F64.fin 8) = F64.fin (3283874728290987 / 281474976710656) := by
  rw [maxParamBOf_fin, ofRat_eight_sub_one]
  simp only [F64.div]
  rw [if_neg (by norm_num), ofRat_seven_div]

theorem parse_model14 : parseParamBillions "org/Model-14B-GGUF".toList = F64.fin 14 := by
  rw [parseParamBillions_eval _ "14".toList "14".toList [] 14 (by decide)
    (by unfold DecimalParts; decide)]
  rw [decimalValue_int]
  have : (natOfDigits "14".toList : ℚ) = 14 := by simp [natOfDigits]
  rw [this]
  exact ofRat_fourteen

theorem parse_qwen8 : parseParamBillions "Qwen/Qwen3-8B-GGUF".toList = F64.fin 8 := by
  rw [parseParamBillions_eval _ "8".toList "8".toList [] 8 (by decide)
    (by unfold DecimalParts; decide)]
  rw [decimalValue_int]
  have : (natOfDigits "8".toList : ℚ) = 8 := by simp [natOfDigits]
  rw [this]
  exact ofRat_eight

/-- A name whose count is a decimal just above `35/3`: its nearest `float64` is the
budget of a memory of 8. -/
theorem parse_budget_decimal :
    parseParamBillions "o/M-11.666666666666667B-GGUF".toList = maxParamBOf (F64.fin 8) := by
  rw [maxParamBOf_eight]
  rw [parseParamBillions_eval _ "11.666666666666667".toList "11".toList
    "666666666666667".toList (3283874728290987 / 281474976710656) (by decide)
    (by unfold DecimalParts; decide)]
  have : decimalValue "11".toList "666666666666667".toList
      = 11666666666666667 / 1000000000000000 := by
    simp [decimalValue, natOfDigits]
    norm_num
  rw [this]
  exact ofRat_budget_decimal

theorem overBudget_model14 :
    overBudget (maxParamBOf (F64.fin 8)) "org/Model-14B-GGUF".toList = true := by
  rw [overBudget_iff, parse_model14, maxParamBOf_eight]
  simp only [F64.lt, decide_eq_true_eq]
  constructor <;> norm_num

theorem overBudget_qwen8 :
    overBudget (maxParamBOf (F64.fin 8)) "Qwen/Qwen3-8B-GGUF".toList = false := by
  cases hob : overBudget (maxParamBOf (F64.fin 8)) "Qwen/Qwen3-8B-GGUF".toList with
  | false => rfl
  | true =>
    have := ((overBudget_iff _ _).1 hob).2
    rw [parse_qwen8, maxParamBOf_eight] at this
    simp only [F64.lt, decide_eq_true_eq] at this
    norm_num at this

theorem overBudget_budget_decimal :
    overBudget (maxParamBOf (F64.fin 8)) "o/M-11.666666666666667B-GGUF".toList = false := by
  cases hob : overBudget (maxParamBOf (F64.fin 8)) "o/M-11.666666666666667B-GGUF".toList with
  | false => rfl
  | true =>
    have := ((overBudget_iff _ _).1 hob).2
    rw [parse_budget_decimal, maxParamBOf_eight] at this
    simp only [F64.lt, decide_eq_true_eq] at this
    exact absurd this (lt_irrefl _)

theorem aggregate_singleton (m : Model) : aggregate [m] = [m] := by
  simp [aggregate, dedup, dedupStep, mapGet, mapSet, mapValues, sortSlice, insertByLess]

theorem testCatalog_result (lower : Char → Char) :
    (fetchModels lower testCatalog ["org".toList] (sizeTags 8)
      (maxParamBOf (F64.fin 8))).map Model.Repo = ["Qwen/Qwen3-8B-GGUF".toList] := by
  have hsel : selectRepresentative ["m-Q4_K_M.gguf".toList] = some "m-Q4_K_M.gguf".toList := by
    decide
  have hp14 : ∀ org : Str, processRepo lower testCatalog (maxParamBOf (F64.fin 8)) org
      ⟨"org/Model-14B-GGUF".toList, 500, 1⟩ = none := by
    intro org
    unfold processRepo
    simp only [overBudget_model14, if_true]
  have hp8 : ∃ m, processRepo lower testCatalog (maxParamBOf (F64.fin 8)) "org".toList
      ⟨"Qwen/Qwen3-8B-GGUF".toList, 100, 2⟩ = some m := by
    unfold processRepo
    simp only [overBudget_qwen8, Bool.false_eq_true, if_false, testCatalog, hsel]
    exact ⟨_, rfl⟩
  obtain ⟨m, hp8⟩ := hp8
  have hr := (processRepo_some _ _ _ _ _ _ hp8).2
  have htags : sizeTags 8 = ["1b".toList, "3b".toList, "7b".toList, "8b".toList] := by
    unfold sizeTags
    norm_num
  have hs : ∀ size : Str, testCatalog.search "org".toList size =
      (if size = "8b".toList then some
        [⟨"org/Model-14B-GGUF".toList, 500, 1⟩, ⟨"Qwen/Qwen3-8B-GGUF".toList, 100, 2⟩]
      else some []) := fun _ => rfl
  have : produced lower testCatalog ["org".toList] (sizeTags 8) (maxParamBOf (F64.fin 8))
      = [m] := by
    rw [htags]
    have e1 : ("1b".toList = "8b".toList) = False := by decide
    have e3 : ("3b".toList = "8b".toList) = False := by decide
    have e7 : ("7b".toList = "8b".toList) = False := by decide
    simp only [produced, worker, hs, List.flatMap_cons, List.flatMap_nil, List.append_nil,
      List.filterMap_cons, hp14, hp8, List.filterMap_nil, e1, e3, e7, if_false, if_true,
      List.nil_append]
  unfold fetchModels
  rw [this, aggregate_singleton]
  simpa using hr

/-- C5: the budget filter skips a candidate exactly when `parseParamBillions` of its
repository identifier is greater than 0 and greater than the budget, so never when
the count is unknown (0); no entry of any result of `fetchModels` has a repository
whose extracted count exceeds the budget; with total memory 8 the budget is
`(8-1)/0.6`, which in `float64` is 11.666666666666668, a repository with count 14 is
skipped and absent from every result, and one with count 8 passes the filter, as in
the run on `testCatalog`; a repository named with the decimal 11.666666666666667 has
the budget itself as its count and passes the filter. -/
theorem budget_filter_excludes_oversized :
    (∀ (b : F64) (id : Str),
      overBudget b id = true ↔
        F64.lt (F64.fin 0) (parseParamBillions id) = true ∧
          F64.lt b (parseParamBillions id) = true) ∧
    (∀ (b : F64) (id : Str), parseParamBillions id = F64.fin 0 → overBudget b id = false) ∧
    (∀ (lower : Char → Char) (cat : Catalog) (b : F64) (org : Str) (repo : ApiModel),
      overBudget b repo.ID = true → processRepo lower cat b org repo = none) ∧
    (∀ (lower : Char → Char) (cat : Catalog) (orgs tags : List Str) (b : F64)
      (out : List Model), FetchModelsResult lower cat orgs tags b out →
      ∀ m ∈ out, ¬ (F64.lt (F64.fin 0) (parseParamBillions m.Repo) = true ∧
        F64.lt b (parseParamBillions m.Repo) = true)) ∧
    maxParamBOf (F64.fin 8) = F64.div (F64.sub (F64.fin 8) (F64.fin 1)) (F64.ofRat (3 / 5)) ∧
    maxParamBOf (F64.fin 8) = F64.fin (3283874728290987 / 281474976710656) ∧
    parseParamBillions "org/Model-14B-GGUF".toList = F64.fin 14 ∧
    overBudget (maxParamBOf (F64.fin 8)) "org/Model-14B-GGUF".toList = true ∧
    (∀ (lower : Char → Char) (cat : Catalog) (orgs : List Str) (out : List Model),
      FetchModelsResult lower cat orgs (sizeTags 8) (maxParamBOf (F64.fin 8)) out →
      ∀ m ∈ out, parseParamBillions m.Repo ≠ F64.fin 14) ∧
    parseParamBillions "Qwen/Qwen3-8B-GGUF".toList = F64.fin 8 ∧
    overBudget (maxParamBOf (F64.fin 8)) "Qwen/Qwen3-8B-GGUF".toList = false ∧
    (∀ lower : Char → Char,
      (fetchModels lower testCatalog ["org".toList] (sizeTags 8)
        (maxParamBOf (F64.fin 8))).map Model.Repo = ["Qwen/Qwen3-8B-GGUF".toList]) ∧
    parseParamBillions "o/M-11.666666666666667B-GGUF".toList = maxParamBOf (F64.fin 8) ∧
    overBudget (maxParamBOf (F64.fin 8)) "o/M-11.666666666666667B-GGUF".toList = false := by
  refine ⟨overBudget_iff, ?_, ?_, ?_, ?_, maxParamBOf_eight, parse_model14,
    overBudget_model14, ?_, parse_qwen8, overBudget_qwen8, testCatalog_result,
    parse_budget_decimal, overBudget_budget_decimal⟩
  · intro b id h0
    cases hob : overBudget b id with
    | false => rfl
    | true =>
      have := ((overBudget_iff b id).1 hob).1
      rw [h0] at this
      simp only [F64.lt, decide_eq_true_eq] at this
      exact absurd this (lt_irrefl _)
  · intro lower cat b org repo hob
    unfold processRepo
    simp only [hob, if_true]
  · intro lower cat orgs tags b out hres m hm hgt
    have := fetchModelsResult_within_budget lower cat orgs tags b out hres m hm
    rw [(overBudget_iff b m.Repo).2 hgt] at this
    exact Bool.noConfusion this
  · unfold maxParamBOf
    rw [ofRat_one]
  · intro lower cat orgs out hres m hm h14'
    have := fetchModelsResult_within_budget lower cat orgs _ _ out hres m hm
    have hob : overBudget (maxParamBOf (F64.fin 8)) m.Repo = true := by
      rw [overBudget_iff, h14', maxParamBOf_eight]
      simp only [F64.lt, decide_eq_true_eq]
      constructor <;> norm_num
    rw [hob] at this
    exact Bool.noConfusion this

/-! ## Representative file -/

theorem keepFile_iff (fn : Str) :
    keepFile fn = true ↔
      ".gguf".toList <:+ fn ∧ ¬ ".".toList <+: fn ∧ filterSharded fn = false := by
  unfold keepFile hasSuffix hasPrefix
  rw [Bool.and_eq_true, Bool.not_eq_true', Bool.or_eq_false_iff, Bool.not_eq_false',
    List.isSuffixOf_iff_suffix, Bool.not_eq_true', ← Bool.not_eq_true, List.isPrefixOf_iff_prefix]
  exact and_assoc

theorem contains_iff (s sub : Str) : contains s sub = true ↔ sub <:+: s := by
  unfold contains
  rw [List.any_eq_true]
  constructor
  · rintro ⟨t, ht, hp⟩
    rw [List.mem_tails] at ht
    rw [List.isPrefixOf_iff_prefix] at hp
    exact List.infix_iff_prefix_suffix.2 ⟨t, hp, ht⟩
  · intro h
    obtain ⟨t, hp, ht⟩ := List.infix_iff_prefix_suffix.1 h
    exact ⟨t, (List.mem_tails _ _).2 ht, List.isPrefixOf_iff_prefix.2 hp⟩

theorem prefersFile_nil : prefersFile [] = false := by decide

theorem pickRep_spec (g : List Str) (hne : g ≠ []) :
    pickRep g ∈ g ∧
    ((∃ pre post : List Str, g = pre ++ pickRep g :: post ∧ prefersFile (pickRep g) = true ∧
        ∀ x ∈ pre, prefersFile x = false) ∨
     ((∀ x ∈ g, prefersFile x = false) ∧ g.head? = some (pickRep g))) := by
  unfold pickRep
  cases hf : g.find? prefersFile with
  | some fn =>
    have hp : prefersFile fn = true := List.find?_some hf
    have hfn : fn ≠ [] := by
      intro h
      rw [h, prefersFile_nil] at hp
      exact Bool.noConfusion hp
    simp only [Option.getD_some, hfn, if_false]
    refine ⟨List.mem_of_find?_eq_some hf, Or.inl ?_⟩
    obtain ⟨_, pre, post, hg, hpre⟩ := List.find?_eq_some.1 hf
    refine ⟨pre, post, hg, hp, ?_⟩
    intro x hx
    simpa using hpre x hx
  | none =>
    simp only [Option.getD_none, if_true]
    cases g with
    | nil => exact absurd rfl hne
    | cons x xs =>
      refine ⟨by simp, Or.inr ⟨?_, by simp⟩⟩
      intro y hy
      have := List.find?_eq_none.1 hf y hy
      simpa using this

theorem selectRepresentative_none (manifest : List Str)
    (h : manifest.filter keepFile = []) : selectRepresentative manifest = none := by
  unfold selectRepresentative
  simp [h]

theorem selectRepresentative_some (manifest : List Str)
    (h : manifest.filter keepFile ≠ []) :
    selectRepresentative manifest = some (pickRep (manifest.filter keepFile)) := by
  unfold selectRepresentative
  have : (manifest.filter keepFile).length ≠ 0 := by
    intro h0
    exact h (List.length_eq_zero.1 h0)
  simp only [this, if_false]

theorem processRepo_none_of_select (lower : Char → Char) (cat : Catalog) (b : F64) (org : Str)
    (repo : ApiModel) (manifest : List Str) (hd : cat.detail repo.ID = some manifest)
    (hs : selectRepresentative manifest = none) :
    processRepo lower cat b org repo = none := by
  unfold processRepo
  simp only [hd, hs]
  split <;> rfl

/-- C6: for every manifest, with the retained filenames being those, in manifest
order, that end with `.gguf`, do not start with `.` and are not shard-marked: when
none is retained no entry is produced; otherwise the representative is the first
retained filename whose form with `-` replaced by `_` and upper-cased contains
`Q4_K_M`, or the first retained filename when no retained one does, and it is a
member of the manifest that ends with `.gguf`, does not start with `.` and is not a
shard. -/
theorem selectRepresentative_spec (manifest : List Str) :
    (∀ fn : Str, keepFile fn = true ↔
      ".gguf".toList <:+ fn ∧ ¬ ".".toList <+: fn ∧ filterSharded fn = false) ∧
    (∀ fn : Str, prefersFile fn = true ↔
      "Q4_K_M".toList <:+: toUpper (fn.map (fun c => if c = '-' then '_' else c))) ∧
    (manifest.filter keepFile = [] →
      selectRepresentative manifest = none ∧
      ∀ (lower : Char → Char) (cat : Catalog) (b : F64) (org : Str) (repo : ApiModel),
        cat.detail repo.ID = some manifest → processRepo lower cat b org repo = none) ∧
    (manifest.filter keepFile ≠ [] →
      ∃ rep : Str, selectRepresentative manifest = some rep ∧
        ((∃ pre post : List Str, manifest.filter keepFile = pre ++ rep :: post ∧
            prefersFile rep = true ∧ ∀ x ∈ pre, prefersFile x = false) ∨
         ((∀ x ∈ manifest.filter keepFile, prefersFile x = false) ∧
            (manifest.filter keepFile).head? = some rep)) ∧
        rep ∈ manifest ∧ ".gguf".toList <:+ rep ∧ ¬ ".".toList <+: rep ∧
        filterSharded rep = false) := by
  refine ⟨keepFile_iff, fun fn => contains_iff _ _, ?_, ?_⟩
  · intro h
    refine ⟨selectRepresentative_none manifest h, ?_⟩
    intro lower cat b org repo hd
    exact processRepo_none_of_select lower cat b org repo manifest hd
      (selectRepresentative_none manifest h)
  · intro h
    obtain ⟨hmem, hsel⟩ := pickRep_spec (manifest.filter keepFile) h
    obtain ⟨hm, hk⟩ := List.mem_filter.1 hmem
    exact ⟨_, selectRepresentative_some manifest h, hsel, hm, (keepFile_iff _).1 hk⟩

/-! ## The memory estimate and the size tags -/

theorem roundHalfAway_tie (x : ℚ) :
    |(roundHalfAway x : ℚ) - x| < 1 / 2 ∨
    (|(roundHalfAway x : ℚ) - x| = 1 / 2 ∧ |x| < |(roundHalfAway x : ℚ)|) := by
  unfold roundHalfAway
  split
  · rename_i hx
    have h1 := Int.floor_le (x + 1 / 2)
    have h2 := Int.lt_floor_add_one (x + 1 / 2)
    by_cases he : ((⌊x + 1 / 2⌋ : ℤ) : ℚ) = x + 1 / 2
    · right
      rw [he]
      constructor
      · rw [abs_of_nonneg (by linarith)]; linarith
      · rw [abs_of_nonneg hx, abs_of_nonneg (by linarith)]; linarith
    · left
      have h3 : ((⌊x + 1 / 2⌋ : ℤ) : ℚ) < x + 1 / 2 := lt_of_le_of_ne h1 he
      rw [abs_lt]
      constructor <;> linarith
  · rename_i hx
    have hx' : x < 0 := not_le.1 hx
    have h1 := Int.le_ceil (x - 1 / 2)
    have h2 := Int.ceil_lt_add_one (x - 1 / 2)
    by_cases he : ((⌈x - 1 / 2⌉ : ℤ) : ℚ) = x - 1 / 2
    · right
      rw [he]
      constructor
      · rw [abs_of_nonpos (by linarith)]; linarith
      · rw [abs_of_neg hx', abs_of_neg (by linarith)]; linarith
    · left
      have h3 : x - 1 / 2 < ((⌈x - 1 / 2⌉ : ℤ) : ℚ) := lt_of_le_of_ne h1 (Ne.symm he)
      rw [abs_lt]
      constructor <;> linarith

theorem estimateQ4GB_fin (q t1 t2 t3 : ℚ) (k : ℤ) (y : ℚ)
    (h1 : F64.ofRat (q * (5404319552844595 / 9007199254740992)) = F64.fin t1)
    (h2 : F64.ofRat (t1 + 1 / 2) = F64.fin t2)
    (h3 : F64.ofRat (t2 * 10) = F64.fin t3)
    (hk : roundHalfAway t3 = k)
    (h4 : F64.ofRat ((k : ℚ) / 10) = F64.fin y) :
    estimateQ4GB (F64.fin q) = F64.fin y := by
  unfold estimateQ4GB
  rw [ofRat_three_fifths, ofRat_half, ofRat_ten]
  simp only [F64.mul, h1, F64.add, h2, h3, F64.round, hk, F64.div]
  rw [if_neg (by norm_num), h4]

theorem estimateQ4GB_eight :
    estimateQ4GB (F64.fin (8)) = F64.fin (5967269506265907 / 1125899906842624) := by
  refine estimateQ4GB_fin (8) (5404319552844595 / 1125899906842624) (5967269506265907 / 1125899906842624) (53) 53 (5967269506265907 / 1125899906842624) ?_ ?_ ?_ ?_ ?_
  · rw [ofRat_eval_pos (8 * (5404319552844595 / 9007199254740992)) 5404319552844595 (-50) (by norm_num) (by norm_num)
      (by norm_num) (by norm_num) (by norm_num) (by norm_num)]
    norm_num
  · rw [ofRat_eval_pos (5404319552844595 / 1125899906842624 + 1 / 2) 5967269506265907 (-50) (by norm_num) (by norm_num)
      (by norm_num) (by norm_num) (by norm_num) (by norm_num)]
    norm_num
  · rw [ofRat_eval_pos (5967269506265907 / 1125899906842624 * 10) 7459086882832384 (-47) (by norm_num) (by norm_num)
      (by norm_num) (by norm_num) (by norm_num) (by norm_num)]
    norm_num
  · exact roundHalfAway_eq_of_between _ _ (by norm_num) (by norm_num)
  · rw [ofRat_eval_pos (((53 : ℤ) : ℚ) / 10) 5967269506265907 (-50) (by norm_num) (by norm_num)
      (by norm_num) (by norm_num) (by norm_num) (by norm_num)]
    norm_num

theorem estimateQ4GB_one :
    estimateQ4GB (F64.fin (1)) = F64.fin (2476979795053773 / 2251799813685248) := by
  refine estimateQ4GB_fin (1) (5404319552844595 / 9007199254740992) (2476979795053773 / 2251799813685248) (11) 11 (2476979795053773 / 2251799813685248) ?_ ?_ ?_ ?_ ?_
  · rw [ofRat_eval_pos (1 * (5404319552844595 / 9007199254740992)) 5404319552844595 (-53) (by norm_num) (by norm_num)
      (by norm_num) (by norm_num) (by norm_num) (by norm_num)]
    norm_num
  · rw [ofRat_eval_tie (5404319552844595 / 9007199254740992 + 1 / 2) 4953959590107546 (-52) (by norm_num) (by norm_num)
      (by norm_num) (by norm_num) (by decide) (by norm_num) (by norm_num)]
    norm_num
  · rw [ofRat_eval_tie (2476979795053773 / 2251799813685248 * 10) 6192449487634432 (-49) (by norm_num) (by norm_num)
      (by norm_num) (by norm_num) (by decide) (by norm_num) (by norm_num)]
    norm_num
  · exact roundHalfAway_eq_of_between _ _ (by norm_num) (by norm_num)
  · rw [ofRat_eval_pos (((11 : ℤ) : ℚ) / 10) 4953959590107546 (-52) (by norm_num) (by norm_num)
      (by norm_num) (by norm_num) (by norm_num) (by norm_num)]
    norm_num

theorem estimateQ4GB_seventy :
    estimateQ4GB (F64.fin (70)) = F64.fin (85 / 2) := by
  refine estimateQ4GB_fin (70) (42) (85 / 2) (425) 425 (85 / 2) ?_ ?_ ?_ ?_ ?_
  · rw [ofRat_eval_pos (70 * (5404319552844595 / 9007199254740992)) 5910974510923776 (-47) (by norm_num) (by norm_num)
      (by norm_num) (by norm_num) (by norm_num) (by norm_num)]
    norm_num
  · rw [ofRat_eval_pos (42 + 1 / 2) 5981343255101440 (-47) (by norm_num) (by norm_num)
      (by norm_num) (by norm_num) (by norm_num) (by norm_num)]
    norm_num
  · rw [ofRat_eval_pos (85 / 2 * 10) 7476679068876800 (-44) (by norm_num) (by norm_num)
      (by norm_num) (by norm_num) (by norm_num) (by norm_num)]
    norm_num
  · exact roundHalfAway_eq_of_between _ _ (by norm_num) (by norm_num)
  · rw [ofRat_eval_pos (((425 : ℤ) : ℚ) / 10) 5981343255101440 (-47) (by norm_num) (by norm_num)
      (by norm_num) (by norm_num) (by norm_num) (by norm_num)]
    norm_num

theorem estimateQ4GB_three :
    estimateQ4GB (F64.fin (3)) = F64.fin (2589569785738035 / 1125899906842624) := by
  refine estimateQ4GB_fin (3) (2026619832316723 / 1125899906842624) (2589569785738035 / 1125899906842624) (23) 23 (2589569785738035 / 1125899906842624) ?_ ?_ ?_ ?_ ?_
  · rw [ofRat_eval_tie (3 * (5404319552844595 / 9007199254740992)) 8106479329266892 (-52) (by norm_num) (by norm_num)
      (by norm_num) (by norm_num) (by decide) (by norm_num) (by norm_num)]
    norm_num
  · rw [ofRat_eval_pos (2026619832316723 / 1125899906842624 + 1 / 2) 5179139571476070 (-51) (by norm_num) (by norm_num)
      (by norm_num) (by norm_num) (by norm_num) (by norm_num)]
    norm_num
  · rw [ofRat_eval_tie (2589569785738035 / 1125899906842624 * 10) 6473924464345088 (-48) (by norm_num) (by norm_num)
      (by norm_num) (by norm_num) (by decide) (by norm_num) (by norm_num)]
    norm_num
  · exact roundHalfAway_eq_of_between _ _ (by norm_num) (by norm_num)
  · rw [ofRat_eval_pos (((23 : ℤ) : ℚ) / 10) 5179139571476070 (-51) (by norm_num) (by norm_num)
      (by norm_num) (by norm_num) (by norm_num) (by norm_num)]
    norm_num

theorem estimateQ4GB_seven_three_quarters :
    estimateQ4GB (F64.fin (31 / 4)) = F64.fin (2871044762448691 / 562949953421312) := by
  refine estimateQ4GB_fin (31 / 4) (5235434566818201 / 1125899906842624) (5798384520239513 / 1125899906842624) (7247980650299391 / 140737488355328) 51 (2871044762448691 / 562949953421312) ?_ ?_ ?_ ?_ ?_
  · rw [ofRat_eval_pos (31 / 4 * (5404319552844595 / 9007199254740992)) 5235434566818201 (-50) (by norm_num) (by norm_num)
      (by norm_num) (by norm_num) (by norm_num) (by norm_num)]
    norm_num
  · rw [ofRat_eval_pos (5235434566818201 / 1125899906842624 + 1 / 2) 5798384520239513 (-50) (by norm_num) (by norm_num)
      (by norm_num) (by norm_num) (by norm_num) (by norm_num)]
    norm_num
  · rw [ofRat_eval_pos (5798384520239513 / 1125899906842624 * 10) 7247980650299391 (-47) (by norm_num) (by norm_num)
      (by norm_num) (by norm_num) (by norm_num) (by norm_num)]
    norm_num
  · exact roundHalfAway_eq_of_between _ _ (by norm_num) (by norm_num)
  · rw [ofRat_eval_pos (((51 : ℤ) : ℚ) / 10) 5742089524897382 (-50) (by norm_num) (by norm_num)
      (by norm_num) (by norm_num) (by norm_num) (by norm_num)]
    norm_num

theorem ofRat_fifty_three_tenths :
    F64.ofRat (53 / 10) = F64.fin (5967269506265907 / 1125899906842624) := by
  rw [ofRat_eval_pos (53 / 10) 5967269506265907 (-50) (by norm_num) (by norm_num)
      (by norm_num) (by norm_num) (by norm_num) (by norm_num)]
  norm_num

theorem ofRat_eleven_tenths :
    F64.ofRat (11 / 10) = F64.fin (2476979795053773 / 2251799813685248) := by
  rw [ofRat_eval_pos (11 / 10) 4953959590107546 (-52) (by norm_num) (by norm_num)
      (by norm_num) (by norm_num) (by norm_num) (by norm_num)]
  norm_num

theorem ofRat_eighty_five_halves :
    F64.ofRat (425 / 10) = F64.fin (85 / 2) := by
  rw [ofRat_eval_pos (425 / 10) 5981343255101440 (-47) (by norm_num) (by norm_num)
      (by norm_num) (by norm_num) (by norm_num) (by norm_num)]
  norm_num

theorem ofRat_twenty_three_tenths :
    F64.ofRat (23 / 10) = F64.fin (2589569785738035 / 1125899906842624) := by
  rw [ofRat_eval_pos (23 / 10) 5179139571476070 (-51) (by norm_num) (by norm_num)
      (by norm_num) (by norm_num) (by norm_num) (by norm_num)]
  norm_num

theorem ofRat_fifty_one_tenths :
    F64.ofRat (51 / 10) = F64.fin (2871044762448691 / 562949953421312) := by
  rw [ofRat_eval_pos (51 / 10) 5742089524897382 (-50) (by norm_num) (by norm_num)
      (by norm_num) (by norm_num) (by norm_num) (by norm_num)]
  norm_num

theorem ofRat_fifty_two_tenths :
    F64.ofRat (52 / 10) = F64.fin (5854679515581645 / 1125899906842624) := by
  rw [ofRat_eval_pos (52 / 10) 5854679515581645 (-50) (by norm_num) (by norm_num)
      (by norm_num) (by norm_num) (by norm_num) (by norm_num)]
  norm_num

/-- The rounding errors of the four operations of `estimateQ4GB` on a count of at
most a million. -/
theorem estimateQ4GB_error (q : ℚ) (h0 : 0 ≤ q) (h1 : q ≤ 1000000) :
    ∃ (k : ℤ) (y : ℚ), estimateQ4GB (F64.fin q) = F64.fin y ∧
      F64.ofRat ((k : ℚ) / 10) = F64.fin y ∧
      |y - (q * (3 / 5) + 1 / 2)| ≤ 1 / 20 + 1 / 1000000000 := by
  have hq : |q| = q := abs_of_nonneg h0
  obtain ⟨t1, e1, b1⟩ := ofRat_error (q * (5404319552844595 / 9007199254740992)) 20
    (by norm_num) (by norm_num) (by
      rw [abs_mul, hq, abs_of_pos (by norm_num)]
      norm_num
      linarith)
  rw [abs_le] at b1
  obtain ⟨t2, e2, b2⟩ := ofRat_error (t1 + 1 / 2) 21 (by norm_num) (by norm_num) (by
    rw [abs_le]
    norm_num at b1 ⊢
    constructor <;> linarith)
  rw [abs_le] at b2
  obtain ⟨t3, e3, b3⟩ := ofRat_error (t2 * 10) 24 (by norm_num) (by norm_num) (by
    rw [abs_le]
    norm_num at b1 b2 ⊢
    constructor <;> linarith)
  rw [abs_le] at b3
  have hr := roundHalfAway_sub_le t3
  rw [abs_le] at hr
  obtain ⟨y, e4, b4⟩ := ofRat_error ((roundHalfAway t3 : ℚ) / 10) 21 (by norm_num)
    (by norm_num) (by
      rw [abs_le]
      norm_num at b1 b2 b3 ⊢
      constructor <;> linarith)
  rw [abs_le] at b4
  refine ⟨roundHalfAway t3, y, estimateQ4GB_fin q t1 t2 t3 _ y e1 e2 e3 rfl e4, e4, ?_⟩
  rw [abs_le]
  norm_num at b1 b2 b3 b4 ⊢
  constructor <;> linarith

/-- C14 (as stated, refuted): for the count 7.75 the exact value of `b*0.6+0.5` is
5.15, which rounds to 5.2 with halves away from zero, but the `float64` product
`(7.75*0.6+0.5)*10` lies below 51.5 and `estimateQ4GB` returns the `float64` of 5.1,
which is further than 0.05 from 5.15. -/
theorem estimateQ4GB_half_below :
    (roundHalfAway (((31 / 4 : ℚ) * (3 / 5) + 1 / 2) * 10) : ℚ) / 10 = 52 / 10 ∧
    estimateQ4GB (F64.fin (31 / 4)) = F64.ofRat (51 / 10) ∧
    F64.ofRat (51 / 10) ≠ F64.ofRat (52 / 10) ∧
    estimateQ4GB (F64.fin (31 / 4)) = F64.fin (2871044762448691 / 562949953421312) ∧
    1 / 20 < |(2871044762448691 / 562949953421312 : ℚ) - ((31 / 4) * (3 / 5) + 1 / 2)| := by
  refine ⟨?_, ?_, ?_, estimateQ4GB_seven_three_quarters, ?_⟩
  · have h1 : ((31 / 4 : ℚ) * (3 / 5) + 1 / 2) * 10 = 103 / 2 := by norm_num
    have h2 : (103 / 2 + 1 / 2 : ℚ) = ((52 : ℤ) : ℚ) := by norm_num
    rw [h1]
    unfold roundHalfAway
    rw [if_pos (by norm_num), h2, Int.floor_intCast]
    norm_num
  · rw [estimateQ4GB_seven_three_quarters, ofRat_fifty_one_tenths]
  · rw [ofRat_fifty_one_tenths, ofRat_fifty_two_tenths]
    intro h
    have := F64.fin.inj h
    norm_num at this
  · rw [abs_of_neg (by norm_num)]
    norm_num

/-- C14 (amended): `estimateQ4GB b` is `round((b*0.6+0.5)*10)/10` computed in
`float64`, every operation giving the nearest `float64` and `round` the nearest
integer, a half going away from zero: for every count `b` with `0 ≤ b ≤ 1000000` the
result is the `float64` nearest to `k/10` for an integer `k`, and it differs from
`b*0.6+0.5` by at most `0.05 + 10^-9`; the inputs 8, 1, 70, 3 give the `float64`
values of 5.3, 1.1, 42.5, 2.3. -/
theorem estimateQ4GB_rounds_to_tenth :
    (∀ b : ℚ, 0 ≤ b → b ≤ 1000000 →
      ∃ (k : ℤ) (y : ℚ), estimateQ4GB (F64.fin b) = F64.fin y ∧
        F64.ofRat ((k : ℚ) / 10) = F64.fin y ∧
        |y - (b * (3 / 5) + 1 / 2)| ≤ 1 / 20 + 1 / 1000000000) ∧
    (∀ x : ℚ, |(roundHalfAway x : ℚ) - x| < 1 / 2 ∨
      (|(roundHalfAway x : ℚ) - x| = 1 / 2 ∧ |x| < |(roundHalfAway x : ℚ)|)) ∧
    estimateQ4GB (F64.fin 8) = F64.ofRat (53 / 10) ∧
    estimateQ4GB (F64.fin 1) = F64.ofRat (11 / 10) ∧
    estimateQ4GB (F64.fin 70) = F64.ofRat (425 / 10) ∧
    estimateQ4GB (F64.fin 3) = F64.ofRat (23 / 10) := by
  refine ⟨estimateQ4GB_error, roundHalfAway_tie, ?_, ?_, ?_, ?_⟩
  · rw [estimateQ4GB_eight, ofRat_fifty_three_tenths]
  · rw [estimateQ4GB_one, ofRat_eleven_tenths]
  · rw [estimateQ4GB_seventy, ofRat_eighty_five_halves]
  · rw [estimateQ4GB_three, ofRat_twenty_three_tenths]

theorem sizeTags_cases (m : ℚ) :
    sizeTags m =
      if m < 8 then ["1b".toList, "3b".toList]
      else if m < 16 then ["1b".toList, "3b".toList, "7b".toList, "8b".toList]
      else if m < 32 then
        ["1b".toList, "3b".toList, "7b".toList, "8b".toList, "14b".toList]
      else if m < 64 then
        ["1b".toList, "3b".toList, "7b".toList, "8b".toList, "14b".toList,
          "30b".toList, "32b".toList, "34b".toList]
      else
        ["1b".toList, "3b".toList, "7b".toList, "8b".toList, "14b".toList,
          "30b".toList, "32b".toList, "34b".toList, "70b".toList, "72b".toList] := by
  unfold sizeTags
  by_cases h8 : m < 8
  · have a1 : ¬ m ≥ 8 := not_le.2 h8
    have a2 : ¬ m ≥ 16 := by intro h; linarith
    have a3 : ¬ m ≥ 32 := by intro h; linarith
    have a4 : ¬ m ≥ 64 := by intro h; linarith
    simp only [a1, a2, a3, a4, h8, if_true, if_false]
  · have a1 : m ≥ 8 := not_lt.1 h8
    by_cases h16 : m < 16
    · have a2 : ¬ m ≥ 16 := not_le.2 h16
      have a3 : ¬ m ≥ 32 := by intro h; linarith
      have a4 : ¬ m ≥ 64 := by intro h; linarith
      simp only [a1, a2, a3, a4, h8, h16, if_true, if_false]
      rfl
    · have a2 : m ≥ 16 := not_lt.1 h16
      by_cases h32 : m < 32
      · have a3 : ¬ m ≥ 32 := not_le.2 h32
        have a4 : ¬ m ≥ 64 := by intro h; linarith
        simp only [a1, a2, a3, a4, h8, h16, h32, if_true, if_false]
        rfl
      · have a3 : m ≥ 32 := not_lt.1 h32
        by_cases h64 : m < 64
        · have a4 : ¬ m ≥ 64 := not_le.2 h64
          simp only [a1, a2, a3, a4, h8, h16, h32, h64, if_true, if_false]
          rfl
        · have a4 : m ≥ 64 := not_lt.1 h64
          simp only [a1, a2, a3, a4, h8, h16, h32, h64, if_true, if_false]
          rfl

theorem sizeTags_mono (m1 m2 : ℚ) (h : m1 ≤ m2) : sizeTags m1 <+: sizeTags m2 := by
  rw [sizeTags_cases m1, sizeTags_cases m2]
  split_ifs <;> first | (exfalso; linarith) | decide

/-- C15: `sizeTags` grows with the memory: for `m1 ≤ m2` the tags of `m1` are a prefix
of the tags of `m2`, so every tag offered at `m1` is offered at `m2`; two memory
values on the same side of each of the thresholds 8, 16, 32, 64 get the same tags;
and below 8 the tags are exactly `1b`, `3b`. -/
theorem sizeTags_monotone :
    (∀ m1 m2 : ℚ, m1 ≤ m2 → sizeTags m1 <+: sizeTags m2) ∧
    (∀ (m1 m2 : ℚ) (tag : Str), m1 ≤ m2 → tag ∈ sizeTags m1 → tag ∈ sizeTags m2) ∧
    (∀ m1 m2 : ℚ, (m1 < 8 ↔ m2 < 8) → (m1 < 16 ↔ m2 < 16) → (m1 < 32 ↔ m2 < 32) →
      (m1 < 64 ↔ m2 < 64) → sizeTags m1 = sizeTags m2) ∧
    (∀ m : ℚ, m < 8 → sizeTags m = ["1b".toList, "3b".toList]) ∧
    sizeTags 4 = ["1b".toList, "3b".toList] := by
  refine ⟨sizeTags_mono, ?_, ?_, ?_, ?_⟩
  · intro m1 m2 tag h ht
    exact (sizeTags_mono m1 m2 h).subset ht
  · intro m1 m2 h8 h16 h32 h64
    rw [sizeTags_cases m1, sizeTags_cases m2]
    simp only [h8, h16, h32, h64]
  · intro m h
    rw [sizeTags_cases m, if_pos h]
  · rw [sizeTags_cases 4, if_pos (by norm_num)]

theorem sizeTags_ge_64 (m : ℚ) (h : 64 ≤ m) :
    sizeTags m =
      ["1b".toList, "3b".toList, "7b".toList, "8b".toList, "14b".toList,
        "30b".toList, "32b".toList, "34b".toList, "70b".toList, "72b".toList] := by
  rw [sizeTags_cases m, if_neg (by intro h'; linarith), if_neg (by intro h'; linarith),
    if_neg (by intro h'; linarith), if_neg (by intro h'; linarith)]

/-- C16 (as stated, refuted): at memory 64 `sizeTags` yields ten tags, not nine. -/
theorem sizeTags_sixty_four_not_nine :
    (sizeTags 64).length = 10 ∧ (sizeTags 64).length ≠ 9 := by
  rw [sizeTags_ge_64 64 (le_refl _)]
  decide

/-- C16 (amended): for every memory of at least 64, `sizeTags` yields all ten size
tags: its result has exactly ten elements, without duplicates, and no memory value
yields a tag that is not among them. -/
theorem sizeTags_all_ten (m : ℚ) (h : 64 ≤ m) :
    sizeTags m =
      ["1b".toList, "3b".toList, "7b".toList, "8b".toList, "14b".toList,
        "30b".toList, "32b".toList, "34b".toList, "70b".toList, "72b".toList] ∧
    (sizeTags m).length = 10 ∧ (sizeTags m).Nodup ∧
    ∀ (m' : ℚ) (tag : Str), tag ∈ sizeTags m' → tag ∈ sizeTags m := by
  refine ⟨sizeTags_ge_64 m h, ?_, ?_, ?_⟩
  · rw [sizeTags_ge_64 m h]; rfl
  · rw [sizeTags_ge_64 m h]; decide
  · intro m' tag ht
    rcases le_total m' m with hle | hle
    · exact (sizeTags_mono m' m hle).subset ht
    · rw [sizeTags_ge_64 m h, ← sizeTags_ge_64 m' (le_trans h hle)]
      exact ht

theorem sizeTags_all_ten_witness :
    (64 : ℚ) ≤ 64 ∧
    (sizeTags 64 =
      ["1b".toList, "3b".toList, "7b".toList, "8b".toList, "14b".toList,
        "30b".toList, "32b".toList, "34b".toList, "70b".toList, "72b".toList] ∧
    (sizeTags 64).length = 10 ∧ (sizeTags 64).Nodup ∧
    ∀ (m' : ℚ) (tag : Str), tag ∈ sizeTags m' → tag ∈ sizeTags 64) :=
  ⟨le_refl _, sizeTags_all_ten 64 (le_refl _)⟩

/-! ## Hardware fit -/

theorem processRepo_minVRAM (lower : Char → Char) (cat : Catalog) (b : F64) (org : Str)
    (repo : ApiModel) (m : Model) (h : processRepo lower cat b org repo = some m) :
    m.MinVRAMGB =
      if F64.lt (F64.fin 0) (parseParamBillions repo.ID) = true then
        estimateQ4GB (parseParamBillions repo.ID)
      else F64.fin 3 := by
  unfold processRepo at h
  simp only at h
  by_cases hob : overBudget b repo.ID = true
  · rw [if_pos hob] at h
    exact Option.noConfusion h
  · rw [if_neg hob] at h
    cases hd : cat.detail repo.ID with
    | none => rw [hd] at h; exact Option.noConfusion h
    | some siblings =>
      rw [hd] at h
      simp only at h
      cases hs : selectRepresentative siblings with
      | none => rw [hs] at h; exact Option.noConfusion h
      | some rep =>
        rw [hs] at h
        simp only [Option.some.injEq] at h
        rw [← h, ofRat_zero, ofRat_three]

/-- Below one unit of memory the budget is negative, zero or minus infinity: every
positive count exceeds it. -/
theorem maxParamBOf_lt_of_lt_one (M p : ℚ) (hM : M < 1) (hp : 0 < p) :
    F64.lt (maxParamBOf (F64.fin M)) (F64.fin p) = true := by
  rw [maxParamBOf_fin]
  rcases ofRat_nonpos (M + -1) (by linarith) with h | ⟨s, hs, h⟩
  · rw [h]
    simp [F64.div, F64.lt]
    norm_num
  · rw [h]
    simp only [F64.div]
    rw [if_neg (by norm_num)]
    rcases ofRat_nonpos (s / (5404319552844595 / 9007199254740992))
      (div_nonpos_of_nonpos_of_nonneg hs (by norm_num)) with h' | ⟨b, hb, h'⟩
    · rw [h']; rfl
    · rw [h']
      simp only [F64.lt, decide_eq_true_eq]
      linarith

/-- The budget of a memory between 1 and 100000, with the rounding errors of its two
operations. -/
theorem maxParamBOf_error (M : ℚ) (h1 : 1 ≤ M) (h2 : M ≤ 100000) :
    ∃ b : ℚ, maxParamBOf (F64.fin M) = F64.fin b ∧
      b * (5404319552844595 / 9007199254740992) ≤ M - 1 + 1 / 10000000000 := by
  rw [maxParamBOf_fin]
  obtain ⟨s, es, bs⟩ := ofRat_error (M + -1) 17 (by norm_num) (by norm_num) (by
    rw [abs_le]
    norm_num
    constructor <;> linarith)
  rw [abs_le] at bs
  have hx : s / (5404319552844595 / 9007199254740992) * (5404319552844595 / 9007199254740992)
      = s := div_mul_cancel₀ s (by norm_num)
  obtain ⟨b, eb, bb⟩ := ofRat_error (s / (5404319552844595 / 9007199254740992)) 18
    (by norm_num) (by norm_num) (by
      rw [abs_div, abs_of_pos (by norm_num : (0 : ℚ) < 5404319552844595 / 9007199254740992),
        div_le_iff₀ (by norm_num)]
      rw [abs_le]
      norm_num at bs ⊢
      constructor <;> linarith)
  rw [abs_le] at bb
  refine ⟨b, ?_, ?_⟩
  · rw [es]
    simp only [F64.div]
    rw [if_neg (by norm_num), eb]
  · have hb : b ≤ s / (5404319552844595 / 9007199254740992) + (2 : ℚ) ^ ((18 : ℤ) - 53) := by
      linarith
    have := mul_le_mul_of_nonneg_right hb
      (by norm_num : (0 : ℚ) ≤ 5404319552844595 / 9007199254740992)
    rw [add_mul, hx] at this
    norm_num at bs this ⊢
    linarith

/-- A positive count within the budget of a memory of at most 100000 has an estimate
within that memory. -/
theorem estimateQ4GB_le_of_within_budget (M p : ℚ) (hM : M ≤ 100000) (hp : 0 < p)
    (hb : F64.lt (maxParamBOf (F64.fin M)) (F64.fin p) = false) :
    ∃ y : ℚ, estimateQ4GB (F64.fin p) = F64.fin y ∧ y ≤ M := by
  by_cases h1 : M < 1
  · rw [maxParamBOf_lt_of_lt_one M p h1 hp] at hb
    exact Bool.noConfusion hb
  · obtain ⟨b, eb, bb⟩ := maxParamBOf_error M (not_lt.1 h1) hM
    rw [eb] at hb
    have hpb : p ≤ b := by
      simpa [F64.lt] using hb
    have hpc := mul_le_mul_of_nonneg_right hpb
      (by norm_num : (0 : ℚ) ≤ 5404319552844595 / 9007199254740992)
    have hp6 : p ≤ 1000000 := by
      by_contra hgt
      have := mul_le_mul_of_nonneg_right (not_le.1 hgt).le
        (by norm_num : (0 : ℚ) ≤ 5404319552844595 / 9007199254740992)
      norm_num at this hpc bb
      linarith
    obtain ⟨k, y, ey, _, by1⟩ := estimateQ4GB_error p hp.le hp6
    rw [abs_le] at by1
    refine ⟨y, ey, ?_⟩
    norm_num at hpc bb by1
    linarith

theorem parse_model70 : parseParamBillions "org/Model-70B-GGUF".toList = F64.fin 70 := by
  rw [parseParamBillions_eval _ "70".toList "70".toList [] 70 (by decide)
    (by unfold DecimalParts; decide)]
  rw [decimalValue_int]
  have : (natOfDigits "70".toList : ℚ) = 70 := by simp [natOfDigits]
  rw [this]
  exact ofRat_seventy

theorem natOfDigits_five_zeros (n : Nat) :
    natOfDigits ('5' :: List.replicate n '0') = 5 * 10 ^ n := by
  induction n with
  | zero => rfl
  | succ n ih =>
    rw [List.replicate_succ', ← List.cons_append, natOfDigits_append_singleton, ih]
    have : ('0' : Char).toNat - 48 = 0 := by decide
    rw [this, pow_succ]
    ring

theorem decimalValue_five_zeros (n : Nat) :
    decimalValue ('5' :: List.replicate n '0') [] = 5 * 10 ^ n := by
  rw [decimalValue_int]
  exact_mod_cast natOfDigits_five_zeros n

set_option maxRecDepth 100000 in
theorem findParamGroup_five_zeros :
    findParamGroup ("m-5".toList ++ List.replicate 307 '0' ++ "B".toList)
      = some ('5' :: List.replicate 307 '0') := by
  decide

/-- The count of a name with the number 5 followed by 307 zeros. -/
theorem parse_five_zeros :
    ∃ p : ℚ, parseParamBillions ("m-5".toList ++ List.replicate 307 '0' ++ "B".toList)
        = F64.fin p ∧
      |p - 5 * 10 ^ 307| ≤ (2 : ℚ) ^ (970 : ℤ) := by
  have hv : decimalValue ('5' :: List.replicate 307 '0') [] = 5 * 10 ^ 307 :=
    decimalValue_five_zeros 307
  obtain ⟨y, hy, hb⟩ := ofRat_error (5 * 10 ^ 307) 1023 (by norm_num) (by norm_num) (by
    rw [abs_of_pos (by norm_num)]
    norm_num)
  refine ⟨y, ?_, hb⟩
  refine parseParamBillions_eval _ _ ('5' :: List.replicate 307 '0') [] y
    findParamGroup_five_zeros ?_ (by rw [hv]; exact hy)
  refine ⟨List.cons_ne_nil _ _, ?_, fun c hc => absurd hc (List.not_mem_nil c),
    Or.inl ⟨rfl, rfl⟩⟩
  intro c hc
  rcases List.mem_cons.1 hc with h | h
  · rw [h]; rfl
  · rw [List.eq_of_mem_replicate h]; rfl

/-- The budget of the memory `2^1022`. -/
theorem maxParamBOf_huge :
    ∃ b : ℚ, maxParamBOf (F64.fin ((2 : ℚ) ^ (1022 : ℤ))) = F64.fin b ∧
      7 * 10 ^ 307 - (2 : ℚ) ^ (970 : ℤ) ≤ b := by
  rw [maxParamBOf_fin]
  obtain ⟨s, es, bs⟩ := ofRat_error ((2 : ℚ) ^ (1022 : ℤ) + -1) 1022 (by norm_num)
    (by norm_num) (by
      rw [abs_of_pos (by norm_num)]
      norm_num)
  rw [abs_le] at bs
  obtain ⟨b, eb, bb⟩ := ofRat_error (s / (5404319552844595 / 9007199254740992)) 1023
    (by norm_num) (by norm_num) (by
      rw [abs_div, abs_of_pos (by norm_num : (0 : ℚ) < 5404319552844595 / 9007199254740992),
        div_le_iff₀ (by norm_num)]
      rw [abs_le]
      norm_num at bs ⊢
      constructor <;> linarith)
  rw [abs_le] at bb
  refine ⟨b, ?_, ?_⟩
  · rw [es]
    simp only [F64.div]
    rw [if_neg (by norm_num), eb]
  · have hT : (7 * 10 ^ 307 : ℚ) ≤ s / (5404319552844595 / 9007199254740992) := by
      rw [le_div_iff₀ (by norm_num)]
      norm_num at bs ⊢
      linarith
    linarith

/-- The estimate of a count near `5 * 10^307` is the positive infinity. -/
theorem estimateQ4GB_huge (p : ℚ) (hp : |p - 5 * 10 ^ 307| ≤ (2 : ℚ) ^ (970 : ℤ)) :
    estimateQ4GB (F64.fin p) = F64.inf false := by
  rw [abs_le] at hp
  obtain ⟨t1, e1, b1⟩ := ofRat_error (p * (5404319552844595 / 9007199254740992)) 1023
    (by norm_num) (by norm_num) (by
      rw [abs_le]
      norm_num at hp ⊢
      constructor <;> linarith)
  rw [abs_le] at b1
  obtain ⟨t2, e2, b2⟩ := ofRat_error (t1 + 1 / 2) 1023 (by norm_num) (by norm_num) (by
    rw [abs_le]
    norm_num at hp b1 ⊢
    constructor <;> linarith)
  rw [abs_le] at b2
  have e3 : F64.ofRat (t2 * 10) = F64.inf false := by
    apply ofRat_overflow
    norm_num at hp b1 b2 ⊢
    linarith
  unfold estimateQ4GB
  rw [ofRat_three_fifths, ofRat_half, ofRat_ten]
  simp only [F64.mul, e1, F64.add, e2, e3, F64.round, F64.div]
  norm_num

/-- C20 (as stated, refuted): when the total memory is not a number, so is the budget,
no comparison with it holds and no candidate is skipped: the entry of a 70B
repository is emitted with the estimate 42.5, which is not at most the memory.  And
with the memory `2^1022` a name whose count is 5 followed by 307 zeros passes the
filter, while its estimate overflows to the positive infinity. -/
theorem estimate_exceeds_memory :
    (maxParamBOf F64.nan = F64.nan ∧
      F64.lt (F64.fin 0) (parseParamBillions "org/Model-70B-GGUF".toList) = true ∧
      overBudget (maxParamBOf F64.nan) "org/Model-70B-GGUF".toList = false ∧
      estimateQ4GB (parseParamBillions "org/Model-70B-GGUF".toList) = F64.fin (85 / 2) ∧
      F64.le (F64.fin (85 / 2)) F64.nan = false ∧
      ∀ (lower : Char → Char) (org : Str), ∃ m : Model,
        processRepo lower testCatalog (maxParamBOf F64.nan) org
          ⟨"org/Model-70B-GGUF".toList, 500, 1⟩ = some m ∧
        m.MinVRAMGB = F64.fin (85 / 2)) ∧
    (F64.lt (F64.fin 0)
        (parseParamBillions ("m-5".toList ++ List.replicate 307 '0' ++ "B".toList)) = true ∧
      overBudget (maxParamBOf (F64.fin ((2 : ℚ) ^ (1022 : ℤ))))
        ("m-5".toList ++ List.replicate 307 '0' ++ "B".toList) = false ∧
      estimateQ4GB (parseParamBillions ("m-5".toList ++ List.replicate 307 '0' ++ "B".toList))
        = F64.inf false ∧
      F64.le (F64.inf false) (F64.fin ((2 : ℚ) ^ (1022 : ℤ))) = false) := by
  have hnan : maxParamBOf F64.nan = F64.nan := by
    unfold maxParamBOf F64.sub
    simp [F64.add, F64.div]
  have hob : overBudget (maxParamBOf F64.nan) "org/Model-70B-GGUF".toList = false := by
    unfold overBudget
    rw [hnan, parse_model70]
    simp [F64.lt]
  have hest : estimateQ4GB (parseParamBillions "org/Model-70B-GGUF".toList)
      = F64.fin (85 / 2) := by
    rw [parse_model70, estimateQ4GB_seventy]
  have hlt : F64.lt (F64.fin 0) (parseParamBillions "org/Model-70B-GGUF".toList) = true := by
    rw [parse_model70]
    simp [F64.lt]
  refine ⟨⟨hnan, hlt, hob, hest, rfl, ?_⟩, ?_⟩
  · intro lower org
    have hsel : selectRepresentative ["m-Q4_K_M.gguf".toList]
        = some "m-Q4_K_M.gguf".toList := by decide
    have hp : ∃ m, processRepo lower testCatalog (maxParamBOf F64.nan) org
        ⟨"org/Model-70B-GGUF".toList, 500, 1⟩ = some m := by
      unfold processRepo
      simp only [hob, Bool.false_eq_true, if_false, testCatalog, hsel]
      exact ⟨_, rfl⟩
    obtain ⟨m, hm⟩ := hp
    refine ⟨m, hm, ?_⟩
    rw [processRepo_minVRAM lower _ _ org _ m hm, if_pos hlt, hest]
  · obtain ⟨p, hp, hpb⟩ := parse_five_zeros
    obtain ⟨b, hb, hbb⟩ := maxParamBOf_huge
    have hpb' := abs_le.1 hpb
    rw [hp, hb]
    refine ⟨?_, ?_, estimateQ4GB_huge p hpb, rfl⟩
    · simp only [F64.lt, decide_eq_true_eq]
      norm_num at hpb' ⊢
      linarith
    · unfold overBudget
      have : F64.lt (F64.fin b) (F64.fin p) = false := by
        simp only [F64.lt, decide_eq_false_iff_not, not_lt]
        norm_num at hpb' hbb ⊢
        linarith
      rw [hp, this, Bool.and_false]

/-- C20 (amended): in `float64`, for every finite total memory `M` of at most 100000,
when the repository identifier yields a parameter count `p > 0` that passes the budget
filter with the budget `(M-1)/0.6` computed by `main`, the estimate `estimateQ4GB p`
is at most `M`, and so is the `MinVRAMGB` of the entry emitted for such a candidate. -/
theorem emitted_estimate_fits_memory (M : ℚ) (id : Str) (hM : M ≤ 100000)
    (hp : F64.lt (F64.fin 0) (parseParamBillions id) = true)
    (hb : overBudget (maxParamBOf (F64.fin M)) id = false) :
    F64.le (estimateQ4GB (parseParamBillions id)) (F64.fin M) = true ∧
    ∀ (lower : Char → Char) (cat : Catalog) (org : Str) (repo : ApiModel) (m : Model),
      repo.ID = id → processRepo lower cat (maxParamBOf (F64.fin M)) org repo = some m →
      m.MinVRAMGB = estimateQ4GB (parseParamBillions id) ∧
        F64.le m.MinVRAMGB (F64.fin M) = true := by
  obtain ⟨p, _, hpe⟩ := parseParamBillions_fin id
  rw [hpe] at hp ⊢
  have hp0 : 0 < p := by simpa [F64.lt] using hp
  have hnot : F64.lt (maxParamBOf (F64.fin M)) (F64.fin p) = false := by
    cases hlt : F64.lt (maxParamBOf (F64.fin M)) (F64.fin p) with
    | false => rfl
    | true =>
      rw [(overBudget_iff _ _).2 ⟨by rw [hpe]; exact hp, by rw [hpe]; exact hlt⟩] at hb
      exact Bool.noConfusion hb
  obtain ⟨y, hy, hle⟩ := estimateQ4GB_le_of_within_budget M p hM hp0 hnot
  have hle' : F64.le (estimateQ4GB (F64.fin p)) (F64.fin M) = true := by
    rw [hy]
    simpa [F64.le] using hle
  refine ⟨hle', ?_⟩
  intro lower cat org repo m hid hm
  have := processRepo_minVRAM lower cat _ org repo m hm
  rw [hid, hpe, if_pos hp] at this
  rw [this]
  exact ⟨rfl, hle'⟩

theorem emitted_estimate_fits_memory_witness :
    (8 : ℚ) ≤ 100000 ∧
    F64.lt (F64.fin 0) (parseParamBillions "Qwen/Qwen3-8B-GGUF".toList) = true ∧
    overBudget (maxParamBOf (F64.fin 8)) "Qwen/Qwen3-8B-GGUF".toList = false ∧
    (F64.le (estimateQ4GB (parseParamBillions "Qwen/Qwen3-8B-GGUF".toList)) (F64.fin 8) = true ∧
    ∀ (lower : Char → Char) (cat : Catalog) (org : Str) (repo : ApiModel) (m : Model),
      repo.ID = "Qwen/Qwen3-8B-GGUF".toList →
      processRepo lower cat (maxParamBOf (F64.fin 8)) org repo = some m →
      m.MinVRAMGB = estimateQ4GB (parseParamBillions "Qwen/Qwen3-8B-GGUF".toList) ∧
        F64.le m.MinVRAMGB (F64.fin 8) = true) :=
  ⟨by norm_num, by rw [parse_qwen8]; simp [F64.lt], overBudget_qwen8,
    emitted_estimate_fits_memory 8 "Qwen/Qwen3-8B-GGUF".toList (by norm_num)
      (by rw [parse_qwen8]; simp [F64.lt]) overBudget_qwen8⟩

/-! ## Number formatting -/

theorem digitChar_isDigit (m : Nat) (h : m < 10) :
    (Nat.digitChar m).isDigit = true ∧ (Nat.digitChar m).toNat - 48 = m := by
  interval_cases m <;> exact ⟨by decide, by decide⟩

theorem toDigitsCore_append (f n : Nat) (ds : List Char) :
    Nat.toDigitsCore 10 f n ds = Nat.toDigitsCore 10 f n [] ++ ds := by
  induction f generalizing n ds with
  | zero => simp [Nat.toDigitsCore]
  | succ f ih =>
    simp only [Nat.toDigitsCore]
    split
    · simp
    · rw [ih (n / 10) (Nat.digitChar (n % 10) :: ds), ih (n / 10) [Nat.digitChar (n % 10)]]
      simp

theorem toDigitsCore_isDigit (f n : Nat) :
    ∀ c ∈ Nat.toDigitsCore 10 f n [], c.isDigit = true := by
  induction f generalizing n with
  | zero => simp [Nat.toDigitsCore]
  | succ f ih =>
    intro c hc
    simp only [Nat.toDigitsCore] at hc
    have hd := (digitChar_isDigit (n % 10) (Nat.mod_lt _ (by norm_num))).1
    split at hc
    · rw [List.mem_singleton] at hc
      rw [hc]; exact hd
    · rw [toDigitsCore_append] at hc
      rcases List.mem_append.1 hc with h | h
      · exact ih _ c h
      · rw [List.mem_singleton] at h
        rw [h]; exact hd

theorem natOfDigits_toDigitsCore (f n : Nat) (h : n < f) :
    natOfDigits (Nat.toDigitsCore 10 f n []) = n := by
  induction f generalizing n with
  | zero => exact absurd h (Nat.not_lt_zero _)
  | succ f ih =>
    simp only [Nat.toDigitsCore]
    have hd := (digitChar_isDigit (n % 10) (Nat.mod_lt _ (by norm_num))).2
    split
    · rename_i h0
      have hn : n % 10 = n := by omega
      simp only [natOfDigits, List.foldl_cons, List.foldl_nil, Nat.mul_zero, Nat.zero_add]
      rw [hd, hn]
    · rename_i h0
      rw [toDigitsCore_append, natOfDigits_append_singleton, ih (n / 10) (by omega), hd]
      omega

theorem toDigits_isDigit (k : Nat) : ∀ c ∈ Nat.toDigits 10 k, c.isDigit = true :=
  toDigitsCore_isDigit (k + 1) k

theorem natOfDigits_toDigits (k : Nat) : natOfDigits (Nat.toDigits 10 k) = k :=
  natOfDigits_toDigitsCore (k + 1) k (Nat.lt_succ_self k)

theorem toDigits_ne_nil (k : Nat) : Nat.toDigits 10 k ≠ [] := by
  unfold Nat.toDigits
  simp only [Nat.toDigitsCore]
  split
  · simp
  · rw [toDigitsCore_append]
    simp

theorem toDigits_length_le (k e : Nat) (h : k < 10 ^ e) (he : 0 < e) :
    (Nat.toDigits 10 k).length ≤ e :=
  Nat.toDigitsCore_length 10 (by norm_num) (k + 1) k e h he

theorem intercalate_cons_cons (sep a b : Str) (t : List Str) :
    List.intercalate sep (a :: b :: t) = a ++ sep ++ List.intercalate sep (b :: t) := by
  simp [List.intercalate, List.intersperse_cons_cons]

theorem intercalate_singleton (sep a : Str) : List.intercalate sep [a] = a := by
  simp [List.intercalate]

/-- The loop of `formatNumber` writes the digits in groups: a first group of one to
three digits, then groups of three, with a comma in front of each later group (and
in front of the first one when the loop starts inside the string at a group
boundary). -/
theorem formatLoop_groups (len : Nat) (s : Str) (hs : s ≠ []) :
    ∀ i : Nat, len = i + s.length →
      ∃ (g0 : Str) (rest : List Str),
        formatLoop len i s =
          (if i > 0 ∧ s.length % 3 = 0 then [','] else []) ++
            List.intercalate [','] (g0 :: rest) ∧
        (g0 :: rest).flatten = s ∧ g0.length = (s.length - 1) % 3 + 1 ∧
        ∀ g ∈ rest, g.length = 3 := by
  induction s with
  | nil => exact absurd rfl hs
  | cons c t ih =>
    intro i hlen
    have hcond : (len - i) % 3 = (c :: t).length % 3 := by rw [hlen]; simp
    cases t with
    | nil =>
      refine ⟨[c], [], ?_, by simp, by simp, by simp⟩
      simp only [formatLoop, hcond, intercalate_singleton, List.append_nil]
    | cons c' t' =>
      obtain ⟨g0, rest, hfl, hjoin, hg0, hrest⟩ :=
        ih (by simp) (i + 1) (by rw [hlen]; simp; omega)
      have hfl' : formatLoop len i (c :: c' :: t') =
          (if i > 0 ∧ (c :: c' :: t').length % 3 = 0 then [','] else []) ++
            c :: formatLoop len (i + 1) (c' :: t') := by
        rw [formatLoop, hcond]
      have hl2 : (c :: c' :: t').length = (c' :: t').length + 1 := rfl
      have hl1 : (c' :: t').length = t'.length + 1 := rfl
      by_cases h3 : (c' :: t').length % 3 = 0
      · have hin : (if i + 1 > 0 ∧ (c' :: t').length % 3 = 0 then [','] else [])
            = [','] := if_pos ⟨by omega, h3⟩
        refine ⟨[c], g0 :: rest, ?_, ?_, ?_, ?_⟩
        · rw [hfl', hfl, hin, intercalate_cons_cons]
          simp
        · simp only [List.flatten_cons] at hjoin ⊢
          rw [hjoin]; rfl
        · rw [hl2, List.length_singleton]
          omega
        · intro g hg
          rcases List.mem_cons.1 hg with h | h
          · rw [h, hg0]
            omega
          · exact hrest g h
      · have hin : (if i + 1 > 0 ∧ (c' :: t').length % 3 = 0 then [','] else [])
            = ([] : Str) := if_neg (fun h => h3 h.2)
        refine ⟨c :: g0, rest, ?_, ?_, ?_, hrest⟩
        · rw [hfl', hfl, hin]
          cases rest with
          | nil => simp [intercalate_singleton]
          | cons g1 rest' => simp [intercalate_cons_cons]
        · simp only [List.flatten_cons] at hjoin ⊢
          rw [← hjoin]; rfl
        · rw [List.length_cons, hg0, hl2]
          omega

theorem filter_intercalate_comma (gs : List Str) (h : ∀ g ∈ gs, ∀ c ∈ g, c ≠ ',') :
    (List.intercalate [','] gs).filter (fun c => c != ',') = gs.flatten := by
  induction gs with
  | nil => simp [List.intercalate]
  | cons g rest ih =>
    have hg : g.filter (fun c => c != ',') = g := by
      rw [List.filter_eq_self]
      intro c hc
      simpa using h g (List.mem_cons_self _ _) c hc
    cases rest with
    | nil => simp [intercalate_singleton, hg]
    | cons g1 rest' =>
      rw [intercalate_cons_cons]
      simp only [List.filter_append, hg, List.flatten_cons]
      rw [ih (fun g' hg' => h g' (List.mem_cons_of_mem _ hg'))]
      simp

theorem isDigit_ne_comma (c : Char) (h : c.isDigit = true) : c ≠ ',' := by
  intro hc
  rw [hc] at h
  exact absurd h (by decide)

theorem formatNumber_nat_groups (k : Nat) :
    ∃ (g0 : Str) (rest : List Str),
      formatNumber (Int.ofNat k) = List.intercalate [','] (g0 :: rest) ∧
      (g0 :: rest).flatten = Nat.toDigits 10 k ∧
      1 ≤ g0.length ∧ g0.length ≤ 3 ∧ ∀ g ∈ rest, g.length = 3 := by
  unfold formatNumber
  simp only [itoa]
  by_cases hlen : (Nat.toDigits 10 k).length ≤ 3
  · rw [if_pos hlen]
    refine ⟨Nat.toDigits 10 k, [], by rw [intercalate_singleton], by simp, ?_, hlen, by simp⟩
    have := toDigits_ne_nil k
    cases h : Nat.toDigits 10 k with
    | nil => exact absurd h this
    | cons c t => simp
  · rw [if_neg hlen]
    obtain ⟨g0, rest, hfl, hjoin, hg0, hrest⟩ :=
      formatLoop_groups (Nat.toDigits 10 k).length (Nat.toDigits 10 k) (toDigits_ne_nil k) 0
        (by simp)
    refine ⟨g0, rest, ?_, hjoin, by omega, by omega, hrest⟩
    rw [hfl]
    simp

theorem formatNumber_of_short (n : Int) (h : (itoa n).length ≤ 3) :
    formatNumber n = itoa n := by
  unfold formatNumber
  simp only [h, if_true]

theorem itoa_small_length (n : Int) (h1 : -100 < n) (h2 : n < 1000) :
    (itoa n).length ≤ 3 ∧ ',' ∉ itoa n := by
  cases n with
  | ofNat k =>
    have hk : k < 10 ^ 3 := by
      have : (k : Int) < 1000 := h2
      omega
    refine ⟨toDigits_length_le k 3 hk (by norm_num), ?_⟩
    intro hc
    exact isDigit_ne_comma _ (toDigits_isDigit k _ hc) rfl
  | negSucc k =>
    have hk : k + 1 < 10 ^ 2 := by
      have : -100 < Int.negSucc k := h1
      rw [Int.negSucc_eq] at this
      omega
    have := toDigits_length_le (k + 1) 2 hk (by norm_num)
    refine ⟨by simp only [itoa, List.length_cons]; omega, ?_⟩
    intro hc
    simp only [itoa, List.mem_cons] at hc
    rcases hc with hc | hc
    · exact absurd hc (by decide)
    · exact isDigit_ne_comma _ (toDigits_isDigit (k + 1) _ hc) rfl

/-- C12 (as stated, refuted): `-1000` and `-100` are below 1000, yet their renderings
`-1,000` and `-,100` contain a comma. -/
theorem formatNumber_negative_has_comma :
    ((-1000 : Int) < 1000 ∧ formatNumber (-1000) = "-1,000".toList ∧
      ',' ∈ formatNumber (-1000)) ∧
    ((-100 : Int) < 1000 ∧ formatNumber (-100) = "-,100".toList ∧
      ',' ∈ formatNumber (-100)) := by
  decide

/-- C12 (amended): for every integer `n` with `-100 < n < 1000`, `formatNumber n`
contains no `,` and equals the plain decimal rendering of `n`; `formatNumber 999` is
`999` and `formatNumber 0` is `0`. -/
theorem formatNumber_small_plain :
    (∀ n : Int, -100 < n → n < 1000 → formatNumber n = itoa n ∧ ',' ∉ formatNumber n) ∧
    formatNumber 999 = "999".toList ∧ formatNumber 0 = "0".toList := by
  refine ⟨?_, by decide, by decide⟩
  intro n h1 h2
  obtain ⟨hlen, hc⟩ := itoa_small_length n h1 h2
  rw [formatNumber_of_short n hlen]
  exact ⟨rfl, hc⟩

/-- C13: for every integer `n ≥ 0`, `formatNumber n` is the decimal rendering of `n`
cut into groups joined by `,`: the groups put together are the decimal digits of `n`
(whose value is `n`), the first group has between 1 and 3 digits and every later
group has exactly 3, and deleting the commas gives the digits back; 1234567 gives
`1,234,567` and 1000 gives `1,000`. -/
theorem formatNumber_groups_of_three :
    (∀ n : Int, 0 ≤ n →
      ∃ (g0 : Str) (rest : List Str),
        formatNumber n = List.intercalate [','] (g0 :: rest) ∧
        (g0 :: rest).flatten = itoa n ∧
        1 ≤ g0.length ∧ g0.length ≤ 3 ∧ (∀ g ∈ rest, g.length = 3) ∧
        (∀ c ∈ itoa n, c.isDigit = true) ∧ (natOfDigits (itoa n) : Int) = n ∧
        (formatNumber n).filter (fun c => c != ',') = itoa n) ∧
    formatNumber 1234567 = "1,234,567".toList ∧
    formatNumber 1000 = "1,000".toList := by
  refine ⟨?_, by decide, by decide⟩
  intro n hn
  cases n with
  | negSucc k => exact absurd hn (by simp)
  | ofNat k =>
    obtain ⟨g0, rest, hf, hjoin, h1, h3, hrest⟩ := formatNumber_nat_groups k
    have hdig : ∀ c ∈ itoa (Int.ofNat k), c.isDigit = true := toDigits_isDigit k
    refine ⟨g0, rest, hf, hjoin, h1, h3, hrest, hdig, ?_, ?_⟩
    · simp only [itoa, natOfDigits_toDigits]
      rfl
    · rw [hf, filter_intercalate_comma, hjoin]
      · rfl
      · intro g hg c hc
        apply isDigit_ne_comma
        apply hdig
        show c ∈ Nat.toDigits 10 k
        rw [← hjoin]
        exact List.mem_flatten.2 ⟨g, hg, hc⟩

/-! ## Identifier derivation -/

theorem toLower_char (c : Char) :
    c.toLower.isUpper = false ∧ (c ≠ '/' → c.toLower ≠ '/') := by
  unfold Char.toLower
  simp only
  by_cases h : c.toNat ≥ 65 ∧ c.toNat ≤ 90
  · rw [if_pos h]
    obtain ⟨h1, h2⟩ := h
    generalize c.toNat = n at h1 h2
    interval_cases n <;> exact ⟨by decide, fun _ => by decide⟩
  · rw [if_neg h]
    refine ⟨?_, fun h => h⟩
    unfold Char.isUpper
    unfold Char.toNat at h
    rw [Bool.and_eq_false_iff]
    by_contra hc
    push_neg at hc
    apply h
    simp only [ne_eq, Bool.not_eq_false, decide_eq_true_eq] at hc
    exact ⟨hc.1, hc.2⟩

theorem isUpper_eq_false (d : Char) (h : ¬ (d.toNat ≥ 65 ∧ d.toNat ≤ 90)) :
    d.isUpper = false := by
  unfold Char.isUpper
  unfold Char.toNat at h
  rw [Bool.and_eq_false_iff]
  by_contra hc
  push_neg at hc
  apply h
  simp only [ne_eq, Bool.not_eq_false, decide_eq_true_eq] at hc
  exact ⟨hc.1, hc.2⟩

theorem isLower_range (d : Char) (h : d.isLower = true) : 97 ≤ d.toNat ∧ d.toNat ≤ 122 := by
  unfold Char.isLower at h
  simp only [Bool.and_eq_true, decide_eq_true_eq] at h
  unfold Char.toNat
  exact ⟨h.1, h.2⟩

/-- A case table never yields an ASCII capital, and yields `/` for `/` only. -/
theorem unicodeToLower_char (lower : Char → Char) (h : UnicodeToLower lower) (c : Char) :
    (lower c).isUpper = false ∧ (c ≠ '/' → lower c ≠ '/') := by
  by_cases hc : c.toNat < 128
  · rw [h.1 c hc]
    exact toLower_char c
  · rcases h.2 c (not_lt.1 hc) with h2 | h2
    · refine ⟨isUpper_eq_false _ (by omega), ?_⟩
      intro _ he
      rw [he] at h2
      exact absurd h2 (by decide)
    · have := isLower_range _ h2
      refine ⟨isUpper_eq_false _ (by omega), ?_⟩
      intro _ he
      rw [he] at this
      exact absurd this.1 (by decide)

theorem unicodeToLower_latinLower : UnicodeToLower latinLower := by
  constructor
  · intro c hc
    unfold latinLower
    rw [if_pos hc]
  · intro c hc
    unfold latinLower
    rw [if_neg (by omega)]
    split_ifs with h1 h2 h3
    · left
      obtain ⟨h1, h2, _⟩ := h1
      generalize c.toNat = n at h1 h2
      interval_cases n <;> decide
    · right; rfl
    · right; rfl
    · left; exact hc

theorem lastSegment_no_slash (s : Str) : ∀ c ∈ lastSegment s, c ≠ '/' := by
  intro c hc
  unfold lastSegment at hc
  rw [List.mem_reverse] at hc
  have := List.mem_takeWhile_imp hc
  simpa using this

theorem lastSegment_subset (s : Str) : ∀ c ∈ lastSegment s, c ∈ s := by
  intro c hc
  unfold lastSegment at hc
  rw [List.mem_reverse] at hc
  exact List.mem_reverse.1 ((List.takeWhile_sublist _).subset hc)

theorem toLower_ascii (lower : Char → Char) (h : UnicodeToLower lower) (s : Str)
    (hs : ∀ c ∈ s, c.toNat < 128) : toLower lower s = toLower Char.toLower s := by
  unfold toLower
  exact List.map_congr_left (fun c hc => h.1 c (hs c hc))

/-- On an ASCII path the identifier is the one of the ASCII lower-casing. -/
theorem deriveCliID_ascii (lower : Char → Char) (h : UnicodeToLower lower) (repoID : Str)
    (hs : ∀ c ∈ repoID, c.toNat < 128) :
    deriveCliID lower repoID = deriveCliID Char.toLower repoID := by
  unfold deriveCliID
  simp only
  rw [toLower_ascii lower h _ (fun c hc => hs c (lastSegment_subset _ c hc))]

theorem removeAllAux_sublist (pat : Str) (s : Str) :
    ∀ k : Nat, (removeAllAux pat k s).Sublist s := by
  induction s with
  | nil => intro k; cases k <;> simp [removeAllAux]
  | cons c t ih =>
    intro k
    cases k with
    | zero =>
      unfold removeAllAux
      split
      · exact (ih _).cons c
      · exact (ih 0).cons₂ c
    | succ k =>
      unfold removeAllAux
      exact (ih k).cons c

theorem removeAll_sublist (pat s : Str) : (removeAll pat s).Sublist s :=
  removeAllAux_sublist pat s 0

theorem stripSuffix_sublist (suffix s : Str) : (stripSuffix suffix s).Sublist s := by
  unfold stripSuffix
  split
  · exact List.take_sublist _ _
  · exact List.Sublist.refl _

theorem collapseDashes_sublist (s : Str) : (collapseDashes s).Sublist s := by
  induction s with
  | nil => simp [collapseDashes]
  | cons c t ih =>
    unfold collapseDashes
    split
    · exact ih.cons c
    · exact ih.cons₂ c

theorem collapseDashes_head (s : Str) : (collapseDashes s).head? = s.head? := by
  induction s with
  | nil => simp [collapseDashes]
  | cons c t ih =>
    unfold collapseDashes
    split
    · rename_i h
      rw [ih, h.2, h.1]
      rfl
    · rfl

theorem collapseDashes_chain (s : Str) :
    List.Chain' (fun a b : Char => ¬ (a = '-' ∧ b = '-')) (collapseDashes s) := by
  induction s with
  | nil => simp [collapseDashes]
  | cons c t ih =>
    unfold collapseDashes
    split
    · exact ih
    · rename_i h
      rw [List.chain'_cons']
      refine ⟨?_, ih⟩
      intro y hy
      rw [collapseDashes_head] at hy
      intro hcy
      apply h
      refine ⟨hcy.1, ?_⟩
      rw [← hcy.2]
      exact hy

theorem dropWhile_head_not (p : Char → Bool) (l : Str) (c : Char) (t : Str)
    (h : l.dropWhile p = c :: t) : p c = false := by
  have := List.head?_dropWhile_not p l
  rw [h] at this
  simpa using this

theorem trimDashes_inside (s : Str) : trimDashes s <:+: s := by
  unfold trimDashes
  have h1 : s.dropWhile (fun c => c == '-') <:+ s := List.dropWhile_suffix _
  have h2 : ((s.dropWhile (fun c => c == '-')).reverse.dropWhile (fun c => c == '-')).reverse
      <+: s.dropWhile (fun c => c == '-') := by
    have := List.dropWhile_suffix (fun c => c == '-')
      (l := (s.dropWhile (fun c => c == '-')).reverse)
    have h3 := List.reverse_prefix.2 this
    simpa using h3
  exact List.infix_iff_prefix_suffix.2 ⟨_, h2, h1⟩

theorem trimDashes_ends (s : Str) :
    (trimDashes s).head? ≠ some '-' ∧ (trimDashes s).getLast? ≠ some '-' := by
  unfold trimDashes
  constructor
  · intro hh
    cases hu : s.dropWhile (fun c => c == '-') with
    | nil => rw [hu] at hh; simp at hh
    | cons c t =>
      have hc : (c == '-') = false := dropWhile_head_not _ s c t hu
      have hpre : ((s.dropWhile (fun c => c == '-')).reverse.dropWhile
          (fun c => c == '-')).reverse <+: s.dropWhile (fun c => c == '-') := by
        have := List.dropWhile_suffix (fun c => c == '-')
          (l := (s.dropWhile (fun c => c == '-')).reverse)
        have h3 := List.reverse_prefix.2 this
        simpa using h3
      obtain ⟨r, hr⟩ := hpre
      cases hv : ((s.dropWhile (fun c => c == '-')).reverse.dropWhile
          (fun c => c == '-')).reverse with
      | nil => rw [hv] at hh; simp at hh
      | cons x v =>
        rw [hv] at hh hr
        rw [hu] at hr
        simp only [List.cons_append, List.cons.injEq] at hr
        simp only [List.head?_cons, Option.some.injEq] at hh
        rw [← hr.1, hh] at hc
        exact absurd hc (by decide)
  · intro hl
    rw [List.getLast?_reverse] at hl
    cases hv : (s.dropWhile (fun c => c == '-')).reverse.dropWhile (fun c => c == '-') with
    | nil => rw [hv] at hl; simp at hl
    | cons x v =>
      have hx : (x == '-') = false := dropWhile_head_not _ _ x v hv
      rw [hv] at hl
      simp only [List.head?_cons, Option.some.injEq] at hl
      rw [hl] at hx
      exact absurd hx (by decide)

theorem deriveCliID_chars (lower : Char → Char) (h : UnicodeToLower lower) (repoID : Str) :
    ∀ c ∈ deriveCliID lower repoID, c ≠ '/' ∧ c ≠ '.' ∧ c ≠ '_' ∧ c.isUpper = false := by
  intro c hc
  unfold deriveCliID at hc
  simp only at hc
  have h5 := (trimDashes_inside _).sublist.subset hc
  have h4 := (collapseDashes_sublist _).subset h5
  obtain ⟨c3, hc3, hmap⟩ := List.mem_map.1 h4
  have h2 := (stripSuffix_sublist _ _).subset ((removeAll_sublist _ _).subset hc3)
  unfold toLower at h2
  obtain ⟨c0, hc0, hlow⟩ := List.mem_map.1 h2
  have hslash := lastSegment_no_slash repoID c0 hc0
  obtain ⟨hup, hns⟩ := unicodeToLower_char lower h c0
  rw [hlow] at hup
  have hc3s : c3 ≠ '/' := by rw [← hlow]; exact hns hslash
  by_cases hsep : c3 = '.' ∨ c3 = '_'
  · rw [if_pos hsep] at hmap
    rw [← hmap]
    exact ⟨by decide, by decide, by decide, by decide⟩
  · rw [if_neg hsep] at hmap
    rw [← hmap]
    exact ⟨hc3s, fun h => hsep (Or.inl h), fun h => hsep (Or.inr h), hup⟩

theorem deriveCliID_no_double_dash (lower : Char → Char) (repoID : Str) :
    ¬ ("--".toList <:+: deriveCliID lower repoID) := by
  intro h
  unfold deriveCliID at h
  simp only at h
  have hchain := List.Chain'.infix (collapseDashes_chain _) (h.trans (trimDashes_inside _))
  have h2 : List.Chain' (fun a b : Char => ¬ (a = '-' ∧ b = '-')) ['-', '-'] := hchain
  rw [List.chain'_cons] at h2
  exact h2.1 ⟨rfl, rfl⟩

/-- C11: for every repository path the identifier returned by `deriveCliID` is a slug:
it contains no `/`, no `.`, no `_` and no ASCII upper-case letter, it contains no two
adjacent `-`, and it neither begins nor ends with `-`; this holds whatever the case
table of `strings.ToLower` does outside ASCII, as long as it yields no ASCII
character but a lower-case letter there.  The two repository paths of the claim give
`qwen3-8b` and `model-name-v2`, and `org/ÉCOLE-7B-GGUF` gives `école-7b`. -/
theorem deriveCliID_is_slug :
    (∀ lower : Char → Char, UnicodeToLower lower → ∀ repoID : Str,
      '/' ∉ deriveCliID lower repoID ∧ '.' ∉ deriveCliID lower repoID ∧
      '_' ∉ deriveCliID lower repoID ∧
      (∀ c ∈ deriveCliID lower repoID, c.isUpper = false) ∧
      ¬ ("--".toList <:+: deriveCliID lower repoID) ∧
      (deriveCliID lower repoID).head? ≠ some '-' ∧
      (deriveCliID lower repoID).getLast? ≠ some '-') ∧
    (∀ lower : Char → Char, UnicodeToLower lower →
      deriveCliID lower "Qwen/Qwen3-8B-GGUF".toList = "qwen3-8b".toList ∧
      deriveCliID lower "user/Model.Name_v2-GGUF".toList = "model-name-v2".toList) ∧
    UnicodeToLower latinLower ∧
    deriveCliID latinLower "org/ÉCOLE-7B-GGUF".toList = "école-7b".toList := by
  refine ⟨?_, ?_, unicodeToLower_latinLower, by decide⟩
  · intro lower h repoID
    have hch := deriveCliID_chars lower h repoID
    refine ⟨fun h => (hch _ h).1 rfl, fun h => (hch _ h).2.1 rfl, fun h => (hch _ h).2.2.1 rfl,
      fun c hc => (hch c hc).2.2.2, deriveCliID_no_double_dash lower repoID, ?_, ?_⟩
    · unfold deriveCliID
      exact (trimDashes_ends _).1
    · unfold deriveCliID
      exact (trimDashes_ends _).2
  · intro lower h
    constructor
    · rw [deriveCliID_ascii lower h _ (by decide)]
      decide
    · rw [deriveCliID_ascii lower h _ (by decide)]
      decide

/-! ## Deleting `-instruct` -/

theorem lastSegment_after_slash (p y : Str) (hy : '/' ∉ y) :
    lastSegment (p ++ '/' :: y) = y := by
  unfold lastSegment
  have hrev : (p ++ '/' :: y).reverse = y.reverse ++ '/' :: p.reverse := by simp
  rw [hrev]
  have := takeWhile_append_stop (fun c => c != '/') y.reverse ('/' :: p.reverse)
    (by
      intro c hc
      rw [List.mem_reverse] at hc
      have : c ≠ '/' := fun h => hy (h ▸ hc)
      simpa using this)
    (by
      intro c t h
      simp only [List.cons.injEq] at h
      rw [← h.1]; decide)
  rw [this.1, List.reverse_reverse]

theorem stripSuffix_append (suffix a : Str) : stripSuffix suffix (a ++ suffix) = a := by
  unfold stripSuffix
  have : suffix.isSuffixOf (a ++ suffix) = true :=
    List.isSuffixOf_iff_suffix.2 (List.suffix_append a suffix)
  rw [if_pos this]
  simp

/-- A text that starts with `-` and has no other `-` cannot begin inside a shorter
text and run over into a copy of itself. -/
theorem no_straddle (w a : Str) (hw : '-' ∉ w) (ha : a ≠ [])
    (hlen : a.length < ('-' :: w).length) : ¬ ('-' :: w) <+: a ++ '-' :: w := by
  rintro ⟨r, hr⟩
  cases a with
  | nil => exact ha rfl
  | cons c t =>
    simp only [List.cons_append, List.cons.injEq] at hr
    obtain ⟨_, hr⟩ := hr
    simp only [List.length_cons] at hlen
    rcases List.append_eq_append_iff.1 hr with ⟨a', ht, _⟩ | ⟨c', hw', hc'⟩
    · have := congrArg List.length ht
      simp only [List.length_append] at this
      omega
    · cases c' with
      | nil =>
        have := congrArg List.length hw'
        simp only [List.length_append, List.length_nil] at this
        omega
      | cons x c'' =>
        simp only [List.cons_append, List.cons.injEq] at hc'
        apply hw
        rw [hw', ← hc'.1]
        simp

theorem removeAllAux_zero_cons (pat : Str) (c : Char) (t : Str) :
    removeAllAux pat 0 (c :: t) =
      if pat.isPrefixOf (c :: t) then removeAllAux pat (pat.length - 1) t
      else c :: removeAllAux pat 0 t := by
  rw [removeAllAux]

theorem removeAllAux_succ_cons (pat : Str) (k : Nat) (c : Char) (t : Str) :
    removeAllAux pat (k + 1) (c :: t) = removeAllAux pat k t := by
  rw [removeAllAux]

/-- Skipping the rest of an occurrence is dropping it. -/
theorem removeAllAux_skip (pat : Str) :
    ∀ (s : Str) (k : Nat), removeAllAux pat k s = removeAllAux pat 0 (s.drop k) := by
  intro s
  induction s with
  | nil => intro k; cases k <;> simp [removeAllAux]
  | cons c t ih =>
    intro k
    cases k with
    | zero => rfl
    | succ k =>
      rw [List.drop_succ_cons, removeAllAux_succ_cons]
      exact ih k

/-- A text without an occurrence is left as it is. -/
theorem removeAll_of_not_inside (pat s : Str) (h : ¬ pat <:+: s) : removeAll pat s = s := by
  unfold removeAll
  induction s with
  | nil => rfl
  | cons c t ih =>
    have hp : ¬ pat.isPrefixOf (c :: t) = true := by
      intro hp
      exact h (List.isPrefixOf_iff_prefix.1 hp).isInfix
    rw [removeAllAux_zero_cons, if_neg hp,
      ih (fun ht => h (ht.trans (List.suffix_cons c t).isInfix))]

/-- The first occurrence is deleted, and the scan goes on behind it. -/
theorem removeAll_first (w a b : Str) (hw : '-' ∉ w) (ha : ¬ ('-' :: w) <:+: a) :
    removeAll ('-' :: w) (a ++ ('-' :: w) ++ b) = a ++ removeAll ('-' :: w) b := by
  unfold removeAll
  induction a with
  | nil =>
    simp only [List.nil_append, List.cons_append]
    have hp : ('-' :: w).isPrefixOf ('-' :: (w ++ b)) = true :=
      List.isPrefixOf_iff_prefix.2 ⟨b, by simp⟩
    rw [removeAllAux_zero_cons, if_pos hp, removeAllAux_skip]
    simp
  | cons c t ih =>
    have ht : ¬ ('-' :: w) <:+: t := fun h => ha (h.trans (List.suffix_cons c t).isInfix)
    have hp : ¬ ('-' :: w).isPrefixOf (c :: (t ++ ('-' :: w) ++ b)) = true := by
      intro hp
      have hpre : ('-' :: w) <+: (c :: t ++ '-' :: w) ++ b := by
        have := List.isPrefixOf_iff_prefix.1 hp
        simpa using this
      by_cases hlen : (c :: t).length < ('-' :: w).length
      · have h2 : ('-' :: w) <+: c :: t ++ '-' :: w :=
          List.prefix_of_prefix_length_le hpre (List.prefix_append _ _) (by simp; omega)
        exact no_straddle w (c :: t) hw (by simp) hlen h2
      · have h2 : ('-' :: w) <+: c :: t := by
          refine List.prefix_of_prefix_length_le hpre ?_ (not_lt.1 hlen)
          exact ⟨('-' :: w) ++ b, by simp⟩
        exact ha h2.isInfix
    simp only [List.cons_append] at hp ⊢
    rw [removeAllAux_zero_cons, if_neg hp]
    have := ih ht
    simp only [List.cons_append, List.append_assoc] at this ⊢
    rw [this]

/-- An occurrence has a first one. -/
theorem first_occurrence (pat : Str) (hpat : pat ≠ []) :
    ∀ (n : Nat) (s : Str), s.length ≤ n → pat <:+: s →
      ∃ a b : Str, s = a ++ pat ++ b ∧ ¬ pat <:+: a := by
  intro n
  induction n with
  | zero =>
    intro s hn hs
    obtain ⟨a, b, hab⟩ := hs
    have := congrArg List.length hab
    simp only [List.length_append] at this
    have hl : 0 < pat.length := List.length_pos.2 hpat
    omega
  | succ n ih =>
    intro s hn hs
    obtain ⟨a, b, hab⟩ := hs
    by_cases ha : pat <:+: a
    · have hl : 0 < pat.length := List.length_pos.2 hpat
      have hlen : a.length ≤ n := by
        have := congrArg List.length hab
        simp only [List.length_append] at this
        omega
      obtain ⟨a', b', hab', hna⟩ := ih a hlen ha
      refine ⟨a', b' ++ pat ++ b, ?_, hna⟩
      rw [← hab, hab']
      simp
    · exact ⟨a, b, hab.symm, ha⟩

/-- The text is cut at the occurrences of `-instruct` met by one scan from the left,
and what stands between them is what the deletion leaves. -/
theorem removeAll_instruct_parts :
    ∀ (n : Nat) (s : Str), s.length ≤ n →
      ∃ parts : List Str, parts ≠ [] ∧ s = List.intercalate "-instruct".toList parts ∧
        (∀ p ∈ parts, ¬ "-instruct".toList <:+: p) ∧
        removeAll "-instruct".toList s = parts.flatten := by
  intro n
  induction n with
  | zero =>
    intro s hn
    have : s = [] := List.length_eq_zero.1 (Nat.le_zero.1 hn)
    subst this
    refine ⟨[[]], by simp, by simp [List.intercalate], ?_, rfl⟩
    intro p hp
    rw [List.mem_singleton.1 hp]
    decide
  | succ n ih =>
    intro s hn
    by_cases hs : "-instruct".toList <:+: s
    · obtain ⟨a, b, hab, hna⟩ := first_occurrence "-instruct".toList (by decide) _ s
        (le_refl _) hs
      have hlen : b.length ≤ n := by
        have := congrArg List.length hab
        simp only [List.length_append] at this
        have h9 : "-instruct".toList.length = 9 := rfl
        omega
      obtain ⟨parts, hne, hb, hparts, hrem⟩ := ih b hlen
      cases parts with
      | nil => exact absurd rfl hne
      | cons p0 rest =>
        refine ⟨a :: p0 :: rest, by simp, ?_, ?_, ?_⟩
        · rw [intercalate_cons_cons, ← hb, hab]
        · intro p hp
          rcases List.mem_cons.1 hp with h | h
          · rw [h]; exact hna
          · exact hparts p h
        · rw [hab]
          have := removeAll_first "instruct".toList a b (by decide) hna
          rw [show "-instruct".toList = '-' :: "instruct".toList from rfl, this]
          rw [show '-' :: "instruct".toList = "-instruct".toList from rfl, hrem]
          simp
    · refine ⟨[s], by simp, by simp [List.intercalate], ?_, ?_⟩
      · intro p hp
        rw [List.mem_singleton.1 hp]
        exact hs
      · rw [removeAll_of_not_inside _ _ hs]
        simp

theorem removeAllAux_append_self (w : Str) (hw : '-' ∉ w)
    (hself : removeAllAux ('-' :: w) 0 ('-' :: w) = []) (a : Str) :
    ∀ k : Nat, k ≤ a.length →
      removeAllAux ('-' :: w) k (a ++ '-' :: w) = removeAllAux ('-' :: w) k a := by
  induction a with
  | nil =>
    intro k hk
    have : k = 0 := by simpa using hk
    rw [this, List.nil_append, hself]
    rfl
  | cons c t ih =>
    intro k hk
    cases k with
    | succ k' =>
      simp only [List.cons_append, removeAllAux]
      exact ih k' (by simpa using hk)
    | zero =>
      have hiff : ('-' :: w).isPrefixOf (c :: t ++ '-' :: w) = ('-' :: w).isPrefixOf (c :: t) := by
        rw [Bool.eq_iff_iff, List.isPrefixOf_iff_prefix, List.isPrefixOf_iff_prefix]
        constructor
        · intro h
          by_cases hlen : (c :: t).length < ('-' :: w).length
          · exact absurd h (no_straddle w (c :: t) hw (by simp) hlen)
          · exact List.prefix_of_prefix_length_le h (List.prefix_append _ _) (not_lt.1 hlen)
        · intro h
          exact h.trans (List.prefix_append _ _)
      simp only [List.cons_append] at hiff ⊢
      unfold removeAllAux
      rw [hiff]
      by_cases hp : ('-' :: w).isPrefixOf (c :: t) = true
      · rw [if_pos hp, if_pos hp]
        apply ih
        have := (List.isPrefixOf_iff_prefix.1 hp).length_le
        simp only [List.length_cons] at this ⊢
        omega
      · rw [if_neg hp, if_neg hp, ih 0 (Nat.zero_le _)]

theorem removeAll_instruct_append (a : Str) :
    removeAll "-instruct".toList (a ++ "-instruct".toList) = removeAll "-instruct".toList a :=
  removeAllAux_append_self "instruct".toList (by decide) (by decide) a 0 (Nat.zero_le _)

theorem toLower_append (lower : Char → Char) (a b : Str) :
    toLower lower (a ++ b) = toLower lower a ++ toLower lower b := by
  simp [toLower]

theorem deriveCliID_instruct_variant (lower : Char → Char) (h : UnicodeToLower lower)
    (pub X : Str) (hX : '/' ∉ X) :
    deriveCliID lower (pub ++ '/' :: (X ++ "-Instruct-GGUF".toList)) =
      deriveCliID lower (pub ++ '/' :: (X ++ "-GGUF".toList)) := by
  have h1 : '/' ∉ X ++ "-Instruct-GGUF".toList := by
    intro h
    rcases List.mem_append.1 h with h | h
    · exact hX h
    · exact absurd h (by decide)
  have h2 : '/' ∉ X ++ "-GGUF".toList := by
    intro h
    rcases List.mem_append.1 h with h | h
    · exact hX h
    · exact absurd h (by decide)
  have e1 : toLower lower (X ++ "-Instruct-GGUF".toList)
      = (toLower lower X ++ "-instruct".toList) ++ "-gguf".toList := by
    rw [toLower_append, List.append_assoc, toLower_ascii lower h "-Instruct-GGUF".toList
      (by decide)]
    rfl
  have e2 : toLower lower (X ++ "-GGUF".toList) = toLower lower X ++ "-gguf".toList := by
    rw [toLower_append, toLower_ascii lower h "-GGUF".toList (by decide)]
    rfl
  unfold deriveCliID
  simp only [lastSegment_after_slash _ _ h1, lastSegment_after_slash _ _ h2, e1, e2,
    stripSuffix_append, removeAll_instruct_append]

/-- A text without `-` that stands at the head of the collapsed text stood at the
head before. -/
theorem prefix_of_prefix_collapseDashes (w : Str) (hw : '-' ∉ w) :
    ∀ s : Str, w <+: collapseDashes s → w <+: s := by
  induction w with
  | nil => intro s _; exact List.nil_prefix
  | cons x w ih =>
    intro s h
    have hx : x ≠ '-' := fun he => hw (he ▸ List.mem_cons_self _ _)
    have hw' : '-' ∉ w := fun hm => hw (List.mem_cons_of_mem _ hm)
    have hhead : (collapseDashes s).head? = some x := by
      obtain ⟨r, hr⟩ := h
      rw [← hr]
      rfl
    rw [collapseDashes_head] at hhead
    cases s with
    | nil => simp at hhead
    | cons c t =>
      simp only [List.head?_cons, Option.some.injEq] at hhead
      subst hhead
      unfold collapseDashes at h
      rw [if_neg (fun hc => hx hc.1)] at h
      obtain ⟨r, hr⟩ := h
      simp only [List.cons_append, List.cons.injEq, true_and] at hr
      obtain ⟨r', hr'⟩ := ih hw' t ⟨r, hr⟩
      exact ⟨r', by simp [hr']⟩

/-- A text without `-` that stands in the collapsed text stood in the text. -/
theorem inside_of_inside_collapseDashes (w : Str) (hw : '-' ∉ w) :
    ∀ s : Str, w <:+: collapseDashes s → w <:+: s := by
  intro s
  induction s with
  | nil => intro h; simpa [collapseDashes] using h
  | cons c t ih =>
    intro h
    unfold collapseDashes at h
    split at h
    · exact (ih h).trans (List.suffix_cons c t).isInfix
    · rename_i hc
      rcases List.infix_cons_iff.1 h with hp | hi
      · have : w <+: collapseDashes (c :: t) := by
          unfold collapseDashes
          rw [if_neg hc]
          exact hp
        exact (prefix_of_prefix_collapseDashes w hw _ this).isInfix
      · exact (ih hi).trans (List.suffix_cons c t).isInfix

/-- A text without `-` that stands in the text after `.` and `_` became `-` stood in
the text. -/
theorem inside_of_inside_map (w : Str) (hw : '-' ∉ w) (s : Str)
    (h : w <:+: s.map (fun c => if c = '.' ∨ c = '_' then '-' else c)) : w <:+: s := by
  obtain ⟨a, b, hab⟩ := h
  obtain ⟨ab', b', hs, hab', hb'⟩ := List.map_eq_append_iff.1 hab.symm
  obtain ⟨a', w', hs', ha', hw''⟩ := List.map_eq_append_iff.1 hab'
  have key : ∀ l : Str,
      '-' ∉ l.map (fun c => if c = '.' ∨ c = '_' then '-' else c) →
      l.map (fun c => if c = '.' ∨ c = '_' then '-' else c) = l := by
    intro l
    induction l with
    | nil => intro _; rfl
    | cons x t ih =>
      intro hl
      simp only [List.map_cons, List.mem_cons, not_or] at hl
      have hx : ¬ (x = '.' ∨ x = '_') := by
        intro hx
        rw [if_pos hx] at hl
        exact hl.1 rfl
      simp only [List.map_cons, if_neg hx]
      rw [ih hl.2]
  have : w' = w := by
    rw [← hw''] at hw ⊢
    exact (key w' hw).symm
  rw [hs, hs', this]
  exact ⟨a', b', rfl⟩

/-- When what the deletion leaves has no `instruct`, the identifier has none. -/
theorem deriveCliID_no_instruct (lower : Char → Char) (repoID : Str)
    (h : ¬ "instruct".toList <:+:
      removeAll "-instruct".toList
        (stripSuffix "-gguf".toList (toLower lower (lastSegment repoID)))) :
    ¬ "-instruct".toList <:+: deriveCliID lower repoID := by
  intro hi
  apply h
  have h1 : "instruct".toList <:+: deriveCliID lower repoID :=
    List.IsInfix.trans ⟨['-'], [], rfl⟩ hi
  unfold deriveCliID at h1
  simp only at h1
  have h2 := h1.trans (trimDashes_inside _)
  have h3 := inside_of_inside_collapseDashes _ (by decide) _ h2
  exact inside_of_inside_map _ (by decide) _ h3

theorem deriveCliID_dot_instruct (lower : Char → Char) (hl : UnicodeToLower lower) :
    deriveCliID lower "org/Llama.Instruct-GGUF".toList = "llama-instruct".toList := by
  rw [deriveCliID_ascii lower hl _ (by decide)]
  decide

/-- C18 (as stated, refuted): for `org/Llama.Instruct-GGUF` the `.` becomes `-` only
after the deletion of `-instruct`, so the identifier `llama-instruct` contains it; the
path is ASCII, and every case table gives this identifier. -/
theorem deriveCliID_keeps_dot_instruct :
    (deriveCliID latinLower "org/Llama.Instruct-GGUF".toList = "llama-instruct".toList ∧
      "-instruct".toList <:+: deriveCliID latinLower "org/Llama.Instruct-GGUF".toList) ∧
    (∀ lower : Char → Char, UnicodeToLower lower →
      deriveCliID lower "org/Llama.Instruct-GGUF".toList = "llama-instruct".toList ∧
      "-instruct".toList <:+: deriveCliID lower "org/Llama.Instruct-GGUF".toList) := by
  have hin : "-instruct".toList <:+: "llama-instruct".toList := ⟨"llama".toList, [], by decide⟩
  refine ⟨?_, ?_⟩
  · have h := deriveCliID_dot_instruct latinLower unicodeToLower_latinLower
    rw [h]
    exact ⟨rfl, hin⟩
  · intro lower hl
    rw [deriveCliID_dot_instruct lower hl]
    exact ⟨rfl, hin⟩

/-- C18 (amended): `deriveCliID` deletes from the lower-cased repository segment,
after the trailing `-gguf` is stripped and before `.` and `_` are turned into `-`,
every occurrence of `-instruct` met by one scan from the left: the segment is
`p0 -instruct p1 ... -instruct pn` with no `-instruct` inside a `pi`, and the
identifier is derived from `p0 p1 ... pn`; so the identifier contains no `-instruct`
whenever `p0 p1 ... pn` contains no `instruct`, and for every publisher and every
repository name `X` the instruct variant `X-Instruct-GGUF` and its base `X-GGUF`
collapse to the same identifier.  `meta-llama/Llama-3-8B-Instruct-GGUF` gives
`llama-3-8b`, `org/Some-Model-Instruct-GGUF` gives `some-model`, and
`org/Llama-3-Instruct-v2-GGUF` gives `llama-3-v2`. -/
theorem deriveCliID_instruct_collapses :
    (∀ (lower : Char → Char) (repoID : Str), ∃ parts : List Str,
      stripSuffix "-gguf".toList (toLower lower (lastSegment repoID))
        = List.intercalate "-instruct".toList parts ∧
      (∀ p ∈ parts, ¬ "-instruct".toList <:+: p) ∧
      deriveCliID lower repoID = trimDashes (collapseDashes
        (parts.flatten.map (fun c => if c = '.' ∨ c = '_' then '-' else c))) ∧
      (¬ "instruct".toList <:+: parts.flatten →
        ¬ "-instruct".toList <:+: deriveCliID lower repoID)) ∧
    (∀ lower : Char → Char, UnicodeToLower lower → ∀ pub X : Str, '/' ∉ X →
      deriveCliID lower (pub ++ '/' :: (X ++ "-Instruct-GGUF".toList)) =
        deriveCliID lower (pub ++ '/' :: (X ++ "-GGUF".toList))) ∧
    (∀ lower : Char → Char, UnicodeToLower lower →
      deriveCliID lower "meta-llama/Llama-3-8B-Instruct-GGUF".toList = "llama-3-8b".toList ∧
      deriveCliID lower "meta-llama/Llama-3-8B-GGUF".toList = "llama-3-8b".toList ∧
      deriveCliID lower "org/Some-Model-Instruct-GGUF".toList = "some-model".toList ∧
      deriveCliID lower "org/Some-Model-GGUF".toList = "some-model".toList ∧
      deriveCliID lower "org/Llama-3-Instruct-v2-GGUF".toList = "llama-3-v2".toList) ∧
    deriveCliID latinLower "org/model-İnstruct".toList = "model".toList := by
  refine ⟨?_, deriveCliID_instruct_variant, ?_, by decide⟩
  · intro lower repoID
    obtain ⟨parts, _, hs, hparts, hrem⟩ := removeAll_instruct_parts _
      (stripSuffix "-gguf".toList (toLower lower (lastSegment repoID))) (le_refl _)
    refine ⟨parts, hs, hparts, ?_, ?_⟩
    · unfold deriveCliID
      simp only
      rw [hrem]
    · intro hno
      apply deriveCliID_no_instruct
      rw [hrem]
      exact hno
  · intro lower hl
    refine ⟨?_, ?_, ?_, ?_, ?_⟩ <;>
    · rw [deriveCliID_ascii lower hl _ (by decide)]
      decide

/-! ## The permit pool -/

theorem countP_set (p : Pc → Bool) (l : List Pc) (i : Nat) (a b : Pc)
    (h : l.get? i = some a) :
    (l.set i b).countP p + (if p a then 1 else 0) = l.countP p + (if p b then 1 else 0) := by
  induction l generalizing i with
  | nil => simp at h
  | cons x t ih =>
    cases i with
    | zero =>
      simp only [List.get?_cons_zero, Option.some.injEq] at h
      subst h
      simp only [List.set_cons_zero, List.countP_cons]
      omega
    | succ j =>
      simp only [List.get?_cons_succ] at h
      have := ih j h
      simp only [List.set_cons_succ, List.countP_cons]
      omega

/-- The invariant of the pool: the channel holds one element per call that is
between acquisition and release, and never more than its capacity. -/
theorem poolStep_invariant (s s' : PoolState) (a : PoolAction)
    (hstep : poolStep s a = some s')
    (hinv : s.sem = holders s ∧ s.sem ≤ semCapacity) :
    s'.sem = holders s' ∧ s'.sem ≤ semCapacity := by
  obtain ⟨h1, h2⟩ := hinv
  cases a with
  | spawn =>
    simp only [poolStep, Option.some.injEq] at hstep
    subst hstep
    simp only [holders, List.countP_append, List.countP_cons, List.countP_nil] at h1 ⊢
    exact ⟨by simpa [Pc.holds, holders] using h1, h2⟩
  | acquire i =>
    simp only [poolStep] at hstep
    split at hstep
    · rename_i hc
      simp only [Option.some.injEq] at hstep
      subst hstep
      have := countP_set Pc.holds s.calls i .waiting .building hc.1
      simp only [Pc.holds] at this
      simp only [holders] at h1 ⊢
      constructor
      · simp at this; omega
      · exact hc.2
    · exact Option.noConfusion hstep
  | buildOk i =>
    simp only [poolStep, moveOn] at hstep
    split at hstep
    · rename_i hc
      simp only [Option.some.injEq] at hstep
      subst hstep
      have := countP_set Pc.holds s.calls i .building .sending hc
      simp only [holders] at h1 ⊢
      simp [Pc.holds] at this
      exact ⟨by omega, h2⟩
    · exact Option.noConfusion hstep
  | doOk i =>
    simp only [poolStep, moveOn] at hstep
    split at hstep
    · rename_i hc
      simp only [Option.some.injEq] at hstep
      subst hstep
      have := countP_set Pc.holds s.calls i .sending .reading hc
      simp only [holders] at h1 ⊢
      simp [Pc.holds] at this
      exact ⟨by omega, h2⟩
    · exact Option.noConfusion hstep
  | buildFail i =>
    simp only [poolStep, returnFrom] at hstep
    split at hstep
    · rename_i hc
      simp only [Option.some.injEq] at hstep
      subst hstep
      have := countP_set Pc.holds s.calls i .building .returned hc.1
      simp only [holders] at h1 ⊢
      simp [Pc.holds] at this
      exact ⟨by omega, by omega⟩
    · exact Option.noConfusion hstep
  | doFail i =>
    simp only [poolStep, returnFrom] at hstep
    split at hstep
    · rename_i hc
      simp only [Option.some.injEq] at hstep
      subst hstep
      have := countP_set Pc.holds s.calls i .sending .returned hc.1
      simp only [holders] at h1 ⊢
      simp [Pc.holds] at this
      exact ⟨by omega, by omega⟩
    · exact Option.noConfusion hstep
  | readDone i =>
    simp only [poolStep, returnFrom] at hstep
    split at hstep
    · rename_i hc
      simp only [Option.some.injEq] at hstep
      subst hstep
      have := countP_set Pc.holds s.calls i .reading .returned hc.1
      simp only [holders] at h1 ⊢
      simp [Pc.holds] at this
      exact ⟨by omega, by omega⟩
    · exact Option.noConfusion hstep

theorem poolRun_invariant (acts : List PoolAction) :
    ∀ s s' : PoolState, poolRun s acts = some s' →
      (s.sem = holders s ∧ s.sem ≤ semCapacity) →
      s'.sem = holders s' ∧ s'.sem ≤ semCapacity := by
  induction acts with
  | nil =>
    intro s s' h hinv
    simp only [poolRun, Option.some.injEq] at h
    rw [← h]; exact hinv
  | cons a rest ih =>
    intro s s' h hinv
    simp only [poolRun] at h
    cases hs : poolStep s a with
    | none => rw [hs] at h; exact Option.noConfusion h
    | some s1 =>
      rw [hs] at h
      exact ih s1 s' h (poolStep_invariant s s1 a hs hinv)

theorem poolInit_invariant : poolInit.sem = holders poolInit ∧ poolInit.sem ≤ semCapacity := by
  decide

theorem returnFrom_releases (s s' : PoolState) (i : Nat) (src : Pc)
    (h : returnFrom s i src = some s') :
    s'.sem + 1 = s.sem ∧ s'.calls = s.calls.set i .returned := by
  unfold returnFrom at h
  split at h
  · rename_i hc
    simp only [Option.some.injEq] at h
    subst h
    exact ⟨by simp only; omega, rfl⟩
  · exact Option.noConfusion h

theorem holders_pos_of_holds (s : PoolState) (i : Nat) (pc : Pc)
    (hget : s.calls.get? i = some pc) (hh : pc.holds = true) : 0 < holders s := by
  unfold holders
  rw [List.countP_pos_iff]
  exact ⟨pc, List.get?_mem hget, hh⟩

theorem holders_zero_of_all_returned (s : PoolState)
    (h : ∀ pc ∈ s.calls, pc = Pc.returned) : holders s = 0 := by
  unfold holders
  rw [List.countP_eq_zero]
  intro pc hpc
  rw [h pc hpc]
  decide

/-- C17: in every run of the pool from the start of `fetchModels`, whatever the number
of calls of `apiGet` and their interleaving, at most 10 calls are between permit
acquisition and permit release, and the channel holds exactly one element per such
call; every step by which a call returns (request-construction failure, network
failure, completed body read) takes one element out of the channel, a call that holds
a permit can always take its return step, and once all calls have returned the
channel is empty: no permit is leaked. -/
theorem apiGet_permits_bounded (acts : List PoolAction) (s : PoolState)
    (hrun : poolRun poolInit acts = some s) :
    holders s ≤ 10 ∧ s.sem = holders s ∧
    (∀ (i : Nat) (s' : PoolState),
      (poolStep s (.buildFail i) = some s' ∨ poolStep s (.doFail i) = some s' ∨
        poolStep s (.readDone i) = some s') →
      s'.sem + 1 = s.sem ∧ holders s' + 1 = holders s ∧
        s'.calls = s.calls.set i .returned) ∧
    (∀ (i : Nat) (pc : Pc), s.calls.get? i = some pc → pc.holds = true →
      ∃ (a : PoolAction) (s' : PoolState), returnAction i pc = some a ∧
        poolStep s a = some s' ∧ s'.sem + 1 = s.sem) ∧
    ((∀ pc ∈ s.calls, pc = Pc.returned) → s.sem = 0) := by
  obtain ⟨hsem, hcap⟩ := poolRun_invariant acts poolInit s hrun poolInit_invariant
  have hcap' : s.sem ≤ 10 := hcap
  refine ⟨by omega, hsem, ?_, ?_, ?_⟩
  · intro i s' hstep
    have hret : ∃ src, returnFrom s i src = some s' ∧
        ∃ a, poolStep s a = some s' := by
      rcases hstep with h | h | h
      · exact ⟨.building, h, _, h⟩
      · exact ⟨.sending, h, _, h⟩
      · exact ⟨.reading, h, _, h⟩
    obtain ⟨src, hr, a, ha⟩ := hret
    obtain ⟨h1, h2⟩ := returnFrom_releases s s' i src hr
    have hinv' := poolStep_invariant s s' a ha ⟨hsem, hcap⟩
    exact ⟨h1, by omega, h2⟩
  · intro i pc hget hh
    have hpos : 0 < s.sem := by
      rw [hsem]; exact holders_pos_of_holds s i pc hget hh
    cases pc with
    | waiting => exact absurd hh (by decide)
    | returned => exact absurd hh (by decide)
    | building =>
      refine ⟨.buildFail i, { sem := s.sem - 1, calls := s.calls.set i .returned }, rfl, ?_, ?_⟩
      · simp only [poolStep, returnFrom, hget, hpos, and_self, if_true]
      · simp only; omega
    | sending =>
      refine ⟨.doFail i, { sem := s.sem - 1, calls := s.calls.set i .returned }, rfl, ?_, ?_⟩
      · simp only [poolStep, returnFrom, hget, hpos, and_self, if_true]
      · simp only; omega
    | reading =>
      refine ⟨.readDone i, { sem := s.sem - 1, calls := s.calls.set i .returned }, rfl, ?_, ?_⟩
      · simp only [poolStep, returnFrom, hget, hpos, and_self, if_true]
      · simp only; omega
  · intro hall
    rw [hsem]
    exact holders_zero_of_all_returned s hall

theorem apiGet_permits_bounded_witness :
    poolRun poolInit [.spawn, .spawn, .acquire 0, .buildOk 0, .acquire 1, .doOk 0]
      = some { sem := 2, calls := [.reading, .building] } ∧
    (holders { sem := 2, calls := [.reading, .building] } ≤ 10 ∧
    (2 : Nat) = holders { sem := 2, calls := [.reading, .building] } ∧
    (∀ (i : Nat) (s' : PoolState),
      (poolStep { sem := 2, calls := [.reading, .building] } (.buildFail i) = some s' ∨
        poolStep { sem := 2, calls := [.reading, .building] } (.doFail i) = some s' ∨
        poolStep { sem := 2, calls := [.reading, .building] } (.readDone i) = some s') →
      s'.sem + 1 = 2 ∧
        holders s' + 1 = holders { sem := 2, calls := [.reading, .building] } ∧
        s'.calls = [Pc.reading, Pc.building].set i .returned) ∧
    (∀ (i : Nat) (pc : Pc), [Pc.reading, Pc.building].get? i = some pc → pc.holds = true →
      ∃ (a : PoolAction) (s' : PoolState), returnAction i pc = some a ∧
        poolStep { sem := 2, calls := [.reading, .building] } a = some s' ∧
        s'.sem + 1 = 2) ∧
    ((∀ pc ∈ [Pc.reading, Pc.building], pc = Pc.returned) → (2 : Nat) = 0)) :=
  ⟨rfl, apiGet_permits_bounded
    [.spawn, .spawn, .acquire 0, .buildOk 0, .acquire 1, .doOk 0]
    { sem := 2, calls := [.reading, .building] } rfl⟩

/-- With ten permits out, the send of an eleventh call does not go through. -/
theorem pool_full_blocks :
    poolRun poolInit (List.replicate 11 .spawn ++ (List.range 10).map .acquire)
      = some { sem := 10, calls := List.replicate 10 .building ++ [.waiting] } ∧
    poolStep { sem := 10, calls := List.replicate 10 .building ++ [.waiting] } (.acquire 10)
      = none :=
  ⟨rfl, rfl⟩

/-! ## The file extension in the template -/

theorem bareLabelBeforeExt_of (p : Str) (q d : Char) (hq : q = 'Q' ∨ q = 'q')
    (hd : d.isDigit = true) :
    bareLabelBeforeExt (p ++ [q, d] ++ ".gguf".toList) = true := by
  unfold bareLabelBeforeExt
  have hlen : (p ++ [q, d] ++ ".gguf".toList).length - 5 = (p ++ [q, d]).length := by
    simp
  rw [hlen, List.take_left']
  · have hrev : (p ++ [q, d]).reverse = d :: q :: p.reverse := by simp
    rw [hrev]
    have hq' : isQRE q = true := by simpa [isQRE] using hq
    simp only [hd, hq', Bool.and_self]
  · rfl

theorem quantLabel_dot (m y a : Str) (hm : QuantLabel m) (hmy : m = y ++ '.' :: a) :
    ∃ (p : Str) (q d : Char), y = p ++ [q, d] ∧ (q = 'Q' ∨ q = 'q') ∧ d.isDigit = true := by
  have hdig : ∀ d : Char, d.isDigit = true → d ≠ '.' := by
    intro d hd h
    rw [h] at hd
    exact absurd hd (by decide)
  have haln : ∀ w : Str, (∀ c ∈ w, c.isAlphanum = true) → '.' ∉ w := by
    intro w hw h
    exact absurd (hw _ h) (by decide)
  rcases hm with ⟨q, d, s, k, u, w, hm, hq, hd, hs, hk, hu, hw⟩ |
    ⟨i, q, d, s, w, hm, hi, hq, hd, hs, hw⟩
  · rw [hm] at hmy
    match y, hmy with
    | [], hmy =>
      simp only [List.nil_append, List.cons.injEq] at hmy
      rcases hq with h | h <;> rw [h] at hmy <;> exact absurd hmy.1 (by decide)
    | [y0], hmy =>
      simp only [List.cons_append, List.nil_append, List.cons.injEq] at hmy
      exact absurd hmy.2.1 (hdig d hd)
    | [y0, y1], hmy =>
      simp only [List.cons_append, List.nil_append, List.cons.injEq] at hmy
      exact ⟨[], q, d, by rw [← hmy.1, ← hmy.2.1]; rfl, hq, hd⟩
    | y0 :: y1 :: y2 :: y', hmy =>
      simp only [List.cons_append, List.cons.injEq] at hmy
      have hmem : '.' ∈ k ++ u ++ w := by
        rw [hmy.2.2.2]; simp
      rcases List.mem_append.1 hmem with h | h
      · rcases List.mem_append.1 h with h | h
        · rcases hk with hk | hk | hk <;> rw [hk] at h
          · simp at h
          · exact absurd h (by decide)
          · exact absurd h (by decide)
        · rcases hu with hu | hu <;> rw [hu] at h
          · simp at h
          · exact absurd h (by decide)
      · exact absurd h (haln w hw)
  · rw [hm] at hmy
    match y, hmy with
    | [], hmy =>
      simp only [List.nil_append, List.cons.injEq] at hmy
      rcases hi with h | h <;> rw [h] at hmy <;> exact absurd hmy.1 (by decide)
    | [y0], hmy =>
      simp only [List.cons_append, List.nil_append, List.cons.injEq] at hmy
      rcases hq with h | h <;> rw [h] at hmy <;> exact absurd hmy.2.1 (by decide)
    | [y0, y1], hmy =>
      simp only [List.cons_append, List.nil_append, List.cons.injEq] at hmy
      exact absurd hmy.2.2.1 (hdig d hd)
    | [y0, y1, y2], hmy =>
      simp only [List.cons_append, List.nil_append, List.cons.injEq] at hmy
      exact ⟨[y0], q, d, by rw [← hmy.2.1, ← hmy.2.2.1]; rfl, hq, hd⟩
    | y0 :: y1 :: y2 :: y3 :: y', hmy =>
      simp only [List.cons_append, List.cons.injEq] at hmy
      have hmem : '.' ∈ w := by
        rw [hmy.2.2.2.2]; simp
      exact absurd hmem (haln w hw)

theorem quantLabel_head (m : Str) (hm : QuantLabel m) :
    ∃ c t, m = c :: t ∧ c ∉ ".gguf".toList := by
  rcases hm with ⟨q, d, s, k, u, w, hm, hq, _⟩ | ⟨i, q, d, s, w, hm, hi, _⟩
  · refine ⟨q, _, hm, ?_⟩
    rcases hq with h | h <;> rw [h] <;> decide
  · refine ⟨i, _, hm, ?_⟩
    rcases hi with h | h <;> rw [h] <;> decide

theorem suffix_of_template (f stem pre m post : Str)
    (hf : f = stem ++ ".gguf".toList) (hdec : f = pre ++ m ++ post) (hm : QuantLabel m)
    (hbare : bareLabelBeforeExt f = false) : ".gguf".toList <:+ post := by
  have heq : (pre ++ m) ++ post = stem ++ ".gguf".toList := by rw [← hdec, hf]
  rcases List.append_eq_append_iff.1 heq with ⟨a', hstem, hpost⟩ | ⟨c', hpm, he⟩
  · exact ⟨a', hpost.symm⟩
  · cases c' with
    | nil =>
      simp only [List.nil_append] at he
      rw [← he]
    | cons x c'' =>
      exfalso
      have hx : x = '.' := by
        have := congrArg List.head? he
        simpa using this.symm
      subst hx
      have hsub : ∀ c ∈ '.' :: c'', c ∈ ".gguf".toList := by
        intro c hc
        rw [he]
        exact List.mem_append_left _ hc
      rcases List.append_eq_append_iff.1 hpm with ⟨y, hstem, hmy⟩ | ⟨z, hpre, hz⟩
      · obtain ⟨p, q, d, hy, hq, hd⟩ := quantLabel_dot m y c'' hm hmy
        have : f = (pre ++ p) ++ [q, d] ++ ".gguf".toList := by
          rw [hf, hstem, hy]; simp
        rw [this, bareLabelBeforeExt_of _ q d hq hd] at hbare
        exact Bool.noConfusion hbare
      · obtain ⟨c, t, hmc, hc⟩ := quantLabel_head m hm
        apply hc
        apply hsub
        rw [hz, hmc]
        simp

/-- C19 (as stated, refuted): `model-Q8.gguf` ends with `.gguf`, but the pattern takes
the `.` of the extension as the separator of the label `Q8` and its alphanumeric tail
takes `gguf`, so the template is `model-{quant}` and does not end with `.gguf`. -/
theorem buildFilenameTemplate_drops_extension :
    ".gguf".toList <:+ "model-Q8.gguf".toList ∧
    buildFilenameTemplate "model-Q8.gguf".toList = "model-\x7bquant\x7d".toList ∧
    ¬ (".gguf".toList <:+ buildFilenameTemplate "model-Q8.gguf".toList) := by
  have h : buildFilenameTemplate "model-Q8.gguf".toList = "model-\x7bquant\x7d".toList := by
    decide
  refine ⟨?_, h, ?_⟩
  · rw [← List.isSuffixOf_iff_suffix]; decide
  · rw [h, ← List.isSuffixOf_iff_suffix]; decide

/-- C19 (amended): for every filename that ends with `.gguf` and in which no bare label
`Q<digit>` stands directly before the extension, the result of `buildFilenameTemplate`
also ends with `.gguf`: the placeholder then replaces a span that ends before the
extension. -/
theorem buildFilenameTemplate_keeps_extension (f : Str) (hext : ".gguf".toList <:+ f)
    (hbare : bareLabelBeforeExt f = false) :
    ".gguf".toList <:+ buildFilenameTemplate f := by
  obtain ⟨stem, hstem⟩ := hext
  rcases buildFilenameTemplate_cases f with ⟨heq, _⟩ | ⟨_, pre, m, post, hf, hll, hres⟩
  · rw [heq]; exact ⟨stem, hstem⟩
  · have hpost := suffix_of_template f stem pre m post hstem.symm hf
      (quantLabel_of_lang m hll.1) hbare
    rw [hres]
    exact hpost.trans (List.suffix_append _ _)

theorem buildFilenameTemplate_keeps_extension_witness :
    ".gguf".toList <:+ "Qwen3-8B-Q4_K_M.gguf".toList ∧
    bareLabelBeforeExt "Qwen3-8B-Q4_K_M.gguf".toList = false ∧
    ".gguf".toList <:+ buildFilenameTemplate "Qwen3-8B-Q4_K_M.gguf".toList :=
  ⟨by rw [← List.isSuffixOf_iff_suffix]; decide, by decide,
    buildFilenameTemplate_keeps_extension "Qwen3-8B-Q4_K_M.gguf".toList
      (by rw [← List.isSuffixOf_iff_suffix]; decide) (by decide)⟩

end Oi
